import Mathlib

/-!
# Bareword interpreter: tokenizer, parser, validator, executor

A shallow embedding of `lexer.c`, `parser.c`, `validator.c` and `executor.c`.

Conventions of the embedding
* a C string is the list of its characters before the terminating NUL (`CStr`);
* `strncpy (dst, src, n - 1)` followed by NUL termination is `List.take (n - 1)`;
* `int` values that can be negative are `Int`; `int64_t` values are `Int` kept in range by
  `wrap64`; the one quotient that is no `int64_t`, `INT64_MIN / -1`, is the trap of the
  division instruction: the process is killed, which the executor reports as the failure
  `division_overflow_trap`;
* a function that reports through `print_error` and returns 0 yields `Except.error` carrying
  the line number, the message and the detail that were printed;
* fixed-size arrays are lists; the capacity checks of the source are kept as they are written;
* the one write of the source that leaves its array, the copy of a sixth token into
  `inst->args[4]`, is followed through the records as they lie in memory: `int` and the
  opcode are 4 bytes, little-endian, so that in `instruction_t` the opcode is at offset 0,
  `args` at 4, `arg_count` at 1028 and `line_number` at 1032, the size is 1036, and in
  `program_t` the field `instruction_count` follows `instructions[MAX_LINES - 1]` directly.
-/

namespace Bareword

abbrev CStr := List Char

deriving instance DecidableEq for Except

/-! ## bareword.h -/

def MAX_TOKEN_LENGTH : Nat := 256
def MAX_TOKENS_PER_LINE : Nat := 16
def MAX_LINES : Nat := 1024
def MAX_VARIABLES : Nat := 256
def MAX_LABELS : Nat := 64
def MAX_STRING_LENGTH : Nat := 512

def INT64_MIN : Int := -9223372036854775808
def INT64_MAX : Int := 9223372036854775807

inductive token_type_t where
  | TOKEN_OPCODE
  | TOKEN_IDENTIFIER
  | TOKEN_INTEGER
  | TOKEN_STRING
  | TOKEN_COMPARISON
  deriving DecidableEq, Repr

structure token_t where
  type : token_type_t
  value : CStr
  line_number : Int
  deriving DecidableEq, Repr

inductive opcode_t where
  | OP_SET
  | OP_OUT
  | OP_ADD
  | OP_SUB
  | OP_MUL
  | OP_DIV
  | OP_CMP
  | OP_IF
  | OP_GOTO
  | OP_LABEL
  | OP_HALT
  | OP_INVALID
  deriving DecidableEq, Repr

inductive comparison_t where
  | CMP_EQ
  | CMP_NE
  | CMP_LT
  | CMP_LE
  | CMP_GT
  | CMP_GE
  deriving DecidableEq, Repr

/-- Instruction record. `args` holds the `arg_count` argument texts in order: the rows
`args[0]` to `args[arg_count - 1]` of the C array, which has four rows. -/
structure instruction_t where
  op : opcode_t
  args : List CStr
  line_number : Int
  deriving DecidableEq, Repr

def instruction_t.arg_count (inst : instruction_t) : Nat := inst.args.length

/-- Text of `inst->args[i]`; a slot that was never written reads as the empty string. -/
def instruction_t.arg (inst : instruction_t) (i : Nat) : CStr := inst.args.getD i []

structure variable_t where
  name : CStr
  value : Int
  deriving DecidableEq, Repr

structure label_t where
  name : CStr
  instruction_index : Int
  deriving DecidableEq, Repr

/-- Program record; the three counts are the lengths of the lists. The field `vars` is the
array `variables` of the source. -/
structure program_t where
  instructions : List instruction_t
  vars : List variable_t
  labels : List label_t
  deriving DecidableEq, Repr

/-- The messages handed to `print_error` (and the `too many variables` message that precedes
`exit(1)`), one constructor per message text. The last two name ends of the process that print
no message of the program: an access before the instruction array, and the trap of the
division `INT64_MIN / -1`. -/
inductive message_t where
  | unterminated_string_literal
  | invalid_integer_format
  | invalid_token
  | expected_opcode
  | set_requires_2_arguments
  | set_requires_variable_name
  | set_requires_integer_or_variable
  | out_requires_1_argument
  | arithmetic_requires_3_arguments
  | result_must_be_variable_name
  | cmp_requires_4_arguments
  | invalid_comparison_operator
  | if_requires_3_arguments
  | condition_must_be_variable
  | if_must_be_followed_by_goto
  | goto_requires_label_name
  | goto_requires_1_argument
  | label_requires_1_argument
  | label_requires_name
  | too_many_labels
  | halt_takes_no_arguments
  | invalid_opcode
  | program_too_long
  | duplicate_label
  | undefined_label
  | division_by_zero
  | missing_halt
  | invalid_identifier
  | runtime_division_by_zero
  | unknown_instruction
  | program_ended_without_halt
  | too_many_variables
  | invalid_memory_access
  | division_overflow_trap
  deriving DecidableEq, Repr

/-- One diagnostic: the arguments of the `print_error` call. -/
structure error_t where
  line : Int
  message : message_t
  detail : CStr
  deriving DecidableEq, Repr

/-! ## ctype.h and stdlib.h in the C locale -/

def isdigit (c : Char) : Bool := decide ('0' ≤ c) && decide (c ≤ '9')

def isalpha (c : Char) : Bool :=
  (decide ('a' ≤ c) && decide (c ≤ 'z')) || (decide ('A' ≤ c) && decide (c ≤ 'Z'))

def isalnum (c : Char) : Bool := isalpha c || isdigit c

def isspace (c : Char) : Bool :=
  c == ' ' || c == '\t' || c == '\n' || c == '\x0b' || c == '\x0c' || c == '\r'

/-- Value of a run of decimal digits. -/
def digits_value (ds : CStr) : Nat :=
  ds.foldl (fun acc d => acc * 10 + (d.toNat - 48)) 0

/-- Clamp to the `long long` range, as `strtoll` does on overflow. -/
def clamp64 (v : Int) : Int :=
  if v < INT64_MIN then INT64_MIN else if INT64_MAX < v then INT64_MAX else v

/-- Library function `strtoll (str, &endptr, 10)`: skips leading white space, reads an optional
sign and the longest run of decimal digits, clamps the value; returns the value and the unread
rest (`endptr`). Without any digit the value is 0 and `endptr = str`. -/
def strtoll (str : CStr) : Int × CStr :=
  let s := str.dropWhile isspace
  let signed : Bool × CStr :=
    match s with
    | [] => (false, s)
    | c :: t => if c = '-' then (true, t) else if c = '+' then (false, t) else (false, s)
  let ds := signed.2.takeWhile isdigit
  if ds = [] then (0, str)
  else
    let mag : Int := (digits_value ds : Int)
    (clamp64 (if signed.1 then -mag else mag), signed.2.dropWhile isdigit)

/-- First index of `c` in `s` (`strchr`), if any. -/
def strchr : CStr → Char → Option Nat
  | [], _ => none
  | x :: xs, c => if x = c then some 0 else (strchr xs c).map (· + 1)

/-- Last index of `c` in `s` (`strrchr`), if any. -/
def strrchr : CStr → Char → Option Nat
  | [], _ => none
  | x :: xs, c =>
    match strrchr xs c with
    | some i => some (i + 1)
    | none => if x = c then some 0 else none

/-- One call of `strtok` on the saved remainder `s` with delimiter set `delim`: skips leading
delimiters; at the end of the buffer returns `none`; otherwise returns the token and the new
saved remainder, which starts after the delimiter that ended the token. -/
def strtok (s : CStr) (delim : Char → Bool) : Option (CStr × CStr) :=
  match s.dropWhile delim with
  | [] => none
  | t => some (t.takeWhile (fun c => !delim c), (t.dropWhile (fun c => !delim c)).drop 1)

/-! ## lexer.c -/

def is_valid_identifier (str : CStr) : Bool :=
  match str with
  | [] => false
  | c :: cs => (isalpha c || c == '_') && cs.all (fun d => isalnum d || d == '_')

def parse_integer (str : CStr) : Int :=
  let r := strtoll str
  if r.2 ≠ [] then INT64_MIN else r.1

/-- The result `-1` of the source is `none`. -/
def string_to_comparison (str : CStr) : Option comparison_t :=
  if str = "==".toList then some .CMP_EQ
  else if str = "!=".toList then some .CMP_NE
  else if str = "<".toList then some .CMP_LT
  else if str = "<=".toList then some .CMP_LE
  else if str = ">".toList then some .CMP_GT
  else if str = ">=".toList then some .CMP_GE
  else none

def string_to_opcode (str : CStr) : opcode_t :=
  if str = "set".toList then .OP_SET
  else if str = "out".toList then .OP_OUT
  else if str = "add".toList then .OP_ADD
  else if str = "sub".toList then .OP_SUB
  else if str = "mul".toList then .OP_MUL
  else if str = "div".toList then .OP_DIV
  else if str = "cmp".toList then .OP_CMP
  else if str = "if".toList then .OP_IF
  else if str = "goto".toList then .OP_GOTO
  else if str = "label".toList then .OP_LABEL
  else if str = "halt".toList then .OP_HALT
  else .OP_INVALID

/-- Delimiter set of the word-splitting `strtok` calls: space, tab, LF, CR. -/
def is_delim (c : Char) : Bool := c == ' ' || c == '\t' || c == '\n' || c == '\r'

/-- Test `isdigit(s[0])`; the first byte of an empty string is NUL, which is no digit. -/
def first_is_digit (s : CStr) : Bool :=
  match s with
  | [] => false
  | c :: _ => isdigit c

/-- Guard of the integer branch: `isdigit(token[0]) || (token[0] == '-' && isdigit(token[1]))`. -/
def starts_integer (s : CStr) : Bool :=
  match s with
  | [] => false
  | c :: rest =>
    isdigit c || (c == '-' && (match rest with | [] => false | d :: _ => isdigit d))

/-- The quoted-string branch of `tokenize_line`. `token` is the current word (it starts with the
opening quote), `rest` the saved remainder of the buffer. Returns the text of the string token. -/
def string_literal (line_number : Int) (token rest : CStr) : Except error_t CStr :=
  let start := token.drop 1
  let same_word : Option Nat :=
    match strrchr start '"' with
    | some i => if 0 < i then some i else none
    | none => none
  match same_word with
  | some i => .ok ((start.take i).take (MAX_STRING_LENGTH - 1))
  | none =>
    let string_buffer := start.take (MAX_STRING_LENGTH - 1)
    let string_pos := string_buffer.length
    -- strtok(NULL, ""): the rest of the line, NULL when nothing is left
    match strtok rest (fun _ => false) with
    | some (token2, _) =>
      let with_space : CStr × Nat :=
        if string_pos < MAX_STRING_LENGTH - 1 then (string_buffer ++ [' '], string_pos + 1)
        else (string_buffer, string_pos)
      match strchr token2 '"' with
      | some j =>
        .ok (with_space.1 ++ (token2.take j).take (MAX_STRING_LENGTH - with_space.2 - 1))
      | none => .error ⟨line_number, .unterminated_string_literal, []⟩
    | none => .error ⟨line_number, .unterminated_string_literal, []⟩

/-- The `while` loop of `tokenize_line`. `cap` is `MAX_TOKENS_PER_LINE - *token_count`, `tok`
the result of the latest `strtok` call; returns the tokens appended from here on. -/
def tokenize_loop (line_number : Int) : Nat → Option (CStr × CStr) → Except error_t (List token_t)
  | 0, _ => .ok []
  | _ + 1, none => .ok []
  | cap + 1, some (token, rest) =>
    if token.head? = some '"' then
      match string_literal line_number token rest with
      | .ok text => .ok [⟨.TOKEN_STRING, text.take (MAX_TOKEN_LENGTH - 1), line_number⟩]
      | .error e => .error e
    else if (string_to_comparison token).isSome then
      match tokenize_loop line_number cap (strtok rest is_delim) with
      | .ok ts => .ok (⟨.TOKEN_COMPARISON, token.take (MAX_TOKEN_LENGTH - 1), line_number⟩ :: ts)
      | .error e => .error e
    else if starts_integer token then
      if parse_integer token = INT64_MIN then
        .error ⟨line_number, .invalid_integer_format, token⟩
      else
        match tokenize_loop line_number cap (strtok rest is_delim) with
        | .ok ts => .ok (⟨.TOKEN_INTEGER, token.take (MAX_TOKEN_LENGTH - 1), line_number⟩ :: ts)
        | .error e => .error e
    else if string_to_opcode token ≠ .OP_INVALID then
      match tokenize_loop line_number cap (strtok rest is_delim) with
      | .ok ts => .ok (⟨.TOKEN_OPCODE, token.take (MAX_TOKEN_LENGTH - 1), line_number⟩ :: ts)
      | .error e => .error e
    else if is_valid_identifier token then
      match tokenize_loop line_number cap (strtok rest is_delim) with
      | .ok ts => .ok (⟨.TOKEN_IDENTIFIER, token.take (MAX_TOKEN_LENGTH - 1), line_number⟩ :: ts)
      | .error e => .error e
    else .error ⟨line_number, .invalid_token, token⟩

/-- The buffer is 1024 bytes: the line is cut to its first 1023 characters. -/
def tokenize_line (line : CStr) (line_number : Int) : Except error_t (List token_t) :=
  if line.length = 0 then .ok []
  else tokenize_loop line_number MAX_TOKENS_PER_LINE (strtok (line.take 1023) is_delim)

/-! ## parser.c -/

/-- Value of `tokens[i].value`. -/
def tok_value (tokens : List token_t) (i : Nat) : CStr :=
  match tokens.get? i with
  | some t => t.value
  | none => []

/-- Test `tokens[i].type == ty`, for an index below `token_count`. -/
def tok_is (tokens : List token_t) (i : Nat) (ty : token_type_t) : Bool :=
  match tokens.get? i with
  | some t => t.type == ty
  | none => false

/-- The `switch` on the opcode in `parse_program`: the format checks of one instruction and,
for `label`, the registration of the label. Returns the label table after the line. -/
def check_format (program : program_t) (inst : instruction_t) (tokens : List token_t)
    (line_number : Int) : Except error_t (List label_t) :=
  match inst.op with
  | .OP_SET =>
    if inst.arg_count ≠ 2 then
      .error ⟨line_number, .set_requires_2_arguments, "set variable value".toList⟩
    else if !tok_is tokens 1 .TOKEN_IDENTIFIER then
      .error ⟨line_number, .set_requires_variable_name, tok_value tokens 1⟩
    else if !tok_is tokens 2 .TOKEN_INTEGER && !tok_is tokens 2 .TOKEN_IDENTIFIER then
      .error ⟨line_number, .set_requires_integer_or_variable, tok_value tokens 2⟩
    else .ok program.labels
  | .OP_OUT =>
    if inst.arg_count ≠ 1 then
      .error ⟨line_number, .out_requires_1_argument, "out value".toList⟩
    else .ok program.labels
  | .OP_ADD | .OP_SUB | .OP_MUL | .OP_DIV =>
    if inst.arg_count ≠ 3 then
      .error ⟨line_number, .arithmetic_requires_3_arguments, "op result a b".toList⟩
    else if !tok_is tokens 1 .TOKEN_IDENTIFIER then
      .error ⟨line_number, .result_must_be_variable_name, tok_value tokens 1⟩
    else .ok program.labels
  | .OP_CMP =>
    if inst.arg_count ≠ 4 then
      .error ⟨line_number, .cmp_requires_4_arguments, "cmp result a op b".toList⟩
    else if !tok_is tokens 1 .TOKEN_IDENTIFIER then
      .error ⟨line_number, .result_must_be_variable_name, tok_value tokens 1⟩
    else if !tok_is tokens 3 .TOKEN_COMPARISON then
      .error ⟨line_number, .invalid_comparison_operator, tok_value tokens 3⟩
    else .ok program.labels
  | .OP_IF =>
    if inst.arg_count ≠ 3 then
      .error ⟨line_number, .if_requires_3_arguments, "if condition goto label".toList⟩
    else if !tok_is tokens 1 .TOKEN_IDENTIFIER then
      .error ⟨line_number, .condition_must_be_variable, tok_value tokens 1⟩
    else if tok_value tokens 2 ≠ "goto".toList then
      .error ⟨line_number, .if_must_be_followed_by_goto, tok_value tokens 2⟩
    else if !tok_is tokens 3 .TOKEN_IDENTIFIER then
      .error ⟨line_number, .goto_requires_label_name, tok_value tokens 3⟩
    else .ok program.labels
  | .OP_GOTO =>
    if inst.arg_count ≠ 1 then
      .error ⟨line_number, .goto_requires_1_argument, "goto label".toList⟩
    else if !tok_is tokens 1 .TOKEN_IDENTIFIER then
      .error ⟨line_number, .goto_requires_label_name, tok_value tokens 1⟩
    else .ok program.labels
  | .OP_LABEL =>
    if inst.arg_count ≠ 1 then
      .error ⟨line_number, .label_requires_1_argument, "label name".toList⟩
    else if !tok_is tokens 1 .TOKEN_IDENTIFIER then
      .error ⟨line_number, .label_requires_name, tok_value tokens 1⟩
    else if program.labels.length ≥ MAX_LABELS then
      .error ⟨line_number, .too_many_labels, []⟩
    else
      .ok (program.labels ++
        [⟨(tok_value tokens 1).take (MAX_TOKEN_LENGTH - 1), (program.instructions.length : Int)⟩])
  | .OP_HALT =>
    if inst.arg_count ≠ 0 then
      .error ⟨line_number, .halt_takes_no_arguments, []⟩
    else .ok program.labels
  | .OP_INVALID => .error ⟨line_number, .invalid_opcode, tok_value tokens 0⟩

/-- The line as handed to `tokenize_line`: cut at the first newline
(`line[strcspn(line, "\n")] = 0`), leading white space skipped. -/
def trim_line (line : CStr) : CStr :=
  (line.takeWhile (fun c => c != '\n')).dropWhile isspace

/-- Byte `i` of a `char` array that `strncpy` filled with `text`: the character, and NUL past
the end of the text. -/
def byte_at (text : CStr) (i : Nat) : Nat :=
  match text.get? i with
  | some c => c.toNat % 256
  | none => 0

/-- The `int` that stands at byte offset `off` of such an array (32 bits, little-endian, two's
complement). -/
def int_at (text : CStr) (off : Nat) : Int :=
  let u := byte_at text off + 256 * byte_at text (off + 1) + 65536 * byte_at text (off + 2) +
    16777216 * byte_at text (off + 3)
  if u < 2147483648 then (u : Int) else (u : Int) - 4294967296

/-- What the copy loop writes at `inst->args[4]` when the line has six tokens or more: the text
of the sixth token. `args` has four rows, so these 256 bytes are not in `args` but behind it:
on `arg_count` (offset 0), on `line_number` (offset 4) and, from offset 8 on, on what follows
the instruction in the program record: the next row of `instructions`, which is written anew
before it is read, or behind the last row `instruction_count` and then `variables`, which is
not read before the executor fills it. The texts of a seventh token and beyond go to
`args[5]`, `args[6]`, ..., 256 bytes and more behind `args[4]`: they touch neither
`arg_count` nor `line_number`, and such a line is never stored (`parse_line_token_count`). -/
def spilled_text (tokens : List token_t) : CStr :=
  (tok_value tokens 5).take (MAX_TOKEN_LENGTH - 1)

/-- The instruction at `instructions[instruction_count]` after the assignments and the copy
loop. With at most five tokens it holds the opcode, the argument texts and the line number.
With six tokens or more the copy into `args[4]` has replaced `arg_count` and `line_number` by
the integers read from the sixth token's text, and `args[0..3]` hold the second to fifth
token: the instruction then has the first `arg_count` of these texts as its arguments. A count
outside 0..4 is no arity of the shape table, so that every format check rejects the line; the
full list of texts, of length five or more, stands for it. -/
def make_instruction (tokens : List token_t) (line_number : Int) : instruction_t :=
  if tokens.length ≤ 5 then
    { op := string_to_opcode (tok_value tokens 0)
      args := (tokens.drop 1).map (fun t => t.value.take (MAX_TOKEN_LENGTH - 1))
      line_number := line_number }
  else
    { op := string_to_opcode (tok_value tokens 0)
      args :=
        if 0 ≤ int_at (spilled_text tokens) 0 ∧ int_at (spilled_text tokens) 0 ≤ 4 then
          ((tokens.drop 1).map (fun t => t.value.take (MAX_TOKEN_LENGTH - 1))).take
            (int_at (spilled_text tokens) 0).toNat
        else (tokens.drop 1).map (fun t => t.value.take (MAX_TOKEN_LENGTH - 1))
      line_number := int_at (spilled_text tokens) 4 }

/-- The record whose array `instructions` holds `rows` and whose `instruction_count` is
`count`: its instruction list is the first `count` rows. -/
def with_count (program : program_t) (rows : List instruction_t) (count : Int) : program_t :=
  { program with instructions := rows.take count.toNat }

/-- Body of the `while (fgets ...)` loop for one line. `line` is what `fgets` delivered and
`line_number` its number (already incremented). The instruction list of the record is the
array `instructions` up to `instruction_count`. When the instruction is written to the last
row, `instructions[MAX_LINES - 1]`, and the line has six tokens or more, the copy into
`args[4]` runs over the end of the array and over `instruction_count`, which follows it: the
count then is the integer at offset 8 of the sixth token's text, before the format checks (and
the registration of a label) and before the increment. On a line that passes the format
checks that text is a single byte, the arity, and the integer is 0. -/
def parse_line (program : program_t) (line : CStr) (line_number : Int) :
    Except error_t program_t :=
  let trimmed := trim_line line
  if trimmed.length = 0 then .ok program
  else
    match tokenize_line trimmed line_number with
    | .error e => .error e
    | .ok tokens =>
      if tokens.length = 0 then .ok program
      else if !tok_is tokens 0 .TOKEN_OPCODE then
        .error ⟨line_number, .expected_opcode, tok_value tokens 0⟩
      else
        let inst := make_instruction tokens line_number
        if 5 < tokens.length ∧ program.instructions.length + 1 = MAX_LINES then
          let count := int_at (spilled_text tokens) 8
          let rows := program.instructions ++ [inst]
          match check_format (with_count program rows count) inst tokens line_number with
          | .error e => .error e
          | .ok labels =>
            -- program->instruction_count++
            if count + 1 ≥ MAX_LINES then
              .error ⟨line_number, .program_too_long, []⟩
            else
              .ok { with_count program rows (count + 1) with labels := labels }
        else
          match check_format program inst tokens line_number with
          | .error e => .error e
          | .ok labels =>
            -- program->instruction_count++
            if program.instructions.length + 1 ≥ MAX_LINES then
              .error ⟨line_number, .program_too_long, []⟩
            else
              .ok { instructions := program.instructions ++ [inst]
                    vars := program.vars
                    labels := labels }

/-- The `while (fgets ...)` loop; `line_number` is the number of the last line read. -/
def parse_lines : program_t → List CStr → Int → Except error_t program_t
  | program, [], _ => .ok program
  | program, line :: more, line_number =>
    match parse_line program line (line_number + 1) with
    | .error e => .error e
    | .ok program1 => parse_lines program1 more (line_number + 1)

/-- Function `parse_program` on the content of an opened file, given as the successive results
of `fgets` (one per source line). -/
def parse_program (lines : List CStr) : Except error_t program_t :=
  parse_lines { instructions := [], vars := [], labels := [] } lines 0

/-! ## validator.c -/

def find_label (program : program_t) (name : CStr) : Int :=
  match program.labels.find? (fun l => l.name = name) with
  | some l => l.instruction_index
  | none => -1

/-- The two nested loops over the label table: the name `labels[i].name` of the first pair
`i < j` with equal names. -/
def find_duplicate : List label_t → Option CStr
  | [] => none
  | l :: more => if more.any (fun m => l.name = m.name) then some l.name else find_duplicate more

/-- The checks of the `switch` in the second loop of `validate_program`. -/
def validate_instruction (program : program_t) (inst : instruction_t) : Except error_t Unit :=
  match inst.op with
  | .OP_IF =>
    if find_label program (inst.arg 2) = -1 then
      .error ⟨inst.line_number, .undefined_label, inst.arg 2⟩
    else .ok ()
  | .OP_GOTO =>
    if find_label program (inst.arg 0) = -1 then
      .error ⟨inst.line_number, .undefined_label, inst.arg 0⟩
    else .ok ()
  | .OP_CMP =>
    if (string_to_comparison (inst.arg 2)).isNone then
      .error ⟨inst.line_number, .invalid_comparison_operator, inst.arg 2⟩
    else .ok ()
  | .OP_DIV =>
    if inst.arg 2 = "0".toList then
      .error ⟨inst.line_number, .division_by_zero, []⟩
    else .ok ()
  | _ => .ok ()

def validate_instructions (program : program_t) : List instruction_t → Except error_t Unit
  | [] => .ok ()
  | inst :: more =>
    match validate_instruction program inst with
    | .error e => .error e
    | .ok _ => validate_instructions program more

/-- Inner loop of the identifier check: arguments `j, j+1, ...` of one instruction. -/
def validate_args (inst : instruction_t) : Nat → List CStr → Except error_t Unit
  | _, [] => .ok ()
  | j, arg :: more =>
    if inst.op = .OP_OUT ∧ j = 0 then validate_args inst (j + 1) more
    else if starts_integer arg then validate_args inst (j + 1) more
    else if (string_to_comparison arg).isSome then validate_args inst (j + 1) more
    else if arg = "goto".toList then validate_args inst (j + 1) more
    else if !is_valid_identifier arg then
      .error ⟨inst.line_number, .invalid_identifier, arg⟩
    else validate_args inst (j + 1) more

def validate_identifiers : List instruction_t → Except error_t Unit
  | [] => .ok ()
  | inst :: more =>
    match validate_args inst 0 inst.args with
    | .error e => .error e
    | .ok _ => validate_identifiers more

def validate_program (program : program_t) : Except error_t Unit :=
  match find_duplicate program.labels with
  | some name => .error ⟨0, .duplicate_label, name⟩
  | none =>
    match validate_instructions program program.instructions with
    | .error e => .error e
    | .ok _ =>
      if !program.instructions.any (fun inst => inst.op = .OP_HALT) then
        .error ⟨0, .missing_halt, []⟩
      else validate_identifiers program.instructions

/-! ## executor.c -/

/-- Reduction of an integer into the `int64_t` range, two's complement. -/
def wrap64 (x : Int) : Int := (x + 9223372036854775808) % 18446744073709551616 - 9223372036854775808

/-- Text printed by `printf("%lld", v)`. -/
def print_int (v : Int) : CStr :=
  if v < 0 then '-' :: Nat.toDigits 10 v.natAbs else Nat.toDigits 10 v.toNat

/-- The call `exit(1)` after `Error: too many variables` is the error `too_many_variables`. -/
def get_variable_value (program : program_t) (name : CStr) : Except error_t (Int × program_t) :=
  match program.vars.find? (fun v => v.name = name) with
  | some v => .ok (v.value, program)
  | none =>
    if program.vars.length ≥ MAX_VARIABLES then .error ⟨0, .too_many_variables, []⟩
    else
      .ok (0, { program with
                vars := program.vars ++ [⟨name.take (MAX_TOKEN_LENGTH - 1), 0⟩] })

/-- The first loop of `set_variable_value`: overwrite the first entry named `name`, if any. -/
def update_variable (name : CStr) (value : Int) : List variable_t → Option (List variable_t)
  | [] => none
  | v :: more =>
    if v.name = name then some (⟨v.name, value⟩ :: more)
    else (update_variable name value more).map (fun l => v :: l)

def set_variable_value (program : program_t) (name : CStr) (value : Int) :
    Except error_t program_t :=
  match update_variable name value program.vars with
  | some vars1 => .ok { program with vars := vars1 }
  | none =>
    if program.vars.length ≥ MAX_VARIABLES then .error ⟨0, .too_many_variables, []⟩
    else
      .ok { program with
            vars := program.vars ++ [⟨name.take (MAX_TOKEN_LENGTH - 1), value⟩] }

def resolve_value (program : program_t) (arg : CStr) : Except error_t (Int × program_t) :=
  if starts_integer arg then .ok (parse_integer arg, program)
  else get_variable_value program arg

/-- State of `execute_program` between two iterations: the program record (of which only the
variables change), the program counter and the text written to standard output so far. -/
structure exec_t where
  program : program_t
  pc : Int
  out : CStr
  deriving DecidableEq, Repr

/-- Outcome of one iteration of the loop, or of a bounded number of iterations: `next` the loop
goes on from the state, `done` the function returned 1, `fail` it reported the error and
returned 0 (or the process exited); the state is the one reached at that point. -/
inductive step_t where
  | next (s : exec_t)
  | done (s : exec_t)
  | fail (e : error_t) (s : exec_t)
  deriving DecidableEq, Repr

/-- The arithmetic cases `OP_ADD`, `OP_SUB`, `OP_MUL`: both operands are resolved, then the
destination is written with the wrapped result of `f`. -/
def exec_arith (s : exec_t) (inst : instruction_t) (f : Int → Int → Int) : step_t :=
  match resolve_value s.program (inst.arg 1) with
  | .error e => .fail e s
  | .ok (a, p1) =>
    match resolve_value p1 (inst.arg 2) with
    | .error e => .fail e { s with program := p1 }
    | .ok (b, p2) =>
      match set_variable_value p2 (inst.arg 0) (wrap64 (f a b)) with
      | .error e => .fail e { s with program := p2 }
      | .ok p3 => .next { s with program := p3, pc := s.pc + 1 }

/-- The inner `switch (op)` of the `OP_CMP` case: the value of `result`, or `none` when the
`default` branch is taken. -/
def compare_values (op : Option comparison_t) (a b : Int) : Option Int :=
  match op with
  | some .CMP_EQ => some (if a = b then 1 else 0)
  | some .CMP_NE => some (if a ≠ b then 1 else 0)
  | some .CMP_LT => some (if a < b then 1 else 0)
  | some .CMP_LE => some (if a ≤ b then 1 else 0)
  | some .CMP_GT => some (if a > b then 1 else 0)
  | some .CMP_GE => some (if a ≥ b then 1 else 0)
  | none => none

/-- The body of the `switch` for one instruction, followed by `pc++` where the source reaches
it. Signed overflow is taken as wraparound; `a / b` truncates toward zero. -/
def exec_instruction (s : exec_t) (inst : instruction_t) : step_t :=
  match inst.op with
  | .OP_SET =>
    match resolve_value s.program (inst.arg 1) with
    | .error e => .fail e s
    | .ok (value, p1) =>
      match set_variable_value p1 (inst.arg 0) value with
      | .error e => .fail e { s with program := p1 }
      | .ok p2 => .next { s with program := p2, pc := s.pc + 1 }
  | .OP_OUT =>
    let arg := inst.arg 0
    if (strchr arg ' ').isSome || arg.head? = some '"' ||
        (!first_is_digit arg && !is_valid_identifier arg) then
      .next { s with pc := s.pc + 1, out := s.out ++ arg ++ ['\n'] }
    else
      match resolve_value s.program (inst.arg 0) with
      | .error e => .fail e s
      | .ok (value, p1) =>
        .next { program := p1, pc := s.pc + 1, out := s.out ++ print_int value ++ ['\n'] }
  | .OP_ADD => exec_arith s inst (fun a b => a + b)
  | .OP_SUB => exec_arith s inst (fun a b => a - b)
  | .OP_MUL => exec_arith s inst (fun a b => a * b)
  | .OP_DIV =>
    match resolve_value s.program (inst.arg 1) with
    | .error e => .fail e s
    | .ok (a, p1) =>
      match resolve_value p1 (inst.arg 2) with
      | .error e => .fail e { s with program := p1 }
      | .ok (b, p2) =>
        if b = 0 then
          .fail ⟨inst.line_number, .runtime_division_by_zero, []⟩ { s with program := p2 }
        else if a = INT64_MIN ∧ b = -1 then
          -- the quotient is not an `int64_t`: the division traps and the process is killed
          .fail ⟨0, .division_overflow_trap, []⟩ { s with program := p2 }
        else
          match set_variable_value p2 (inst.arg 0) (wrap64 (Int.tdiv a b)) with
          | .error e => .fail e { s with program := p2 }
          | .ok p3 => .next { s with program := p3, pc := s.pc + 1 }
  | .OP_CMP =>
    match resolve_value s.program (inst.arg 1) with
    | .error e => .fail e s
    | .ok (a, p1) =>
      match resolve_value p1 (inst.arg 3) with
      | .error e => .fail e { s with program := p1 }
      | .ok (b, p2) =>
        match compare_values (string_to_comparison (inst.arg 2)) a b with
        | none =>
          .fail ⟨inst.line_number, .invalid_comparison_operator, inst.arg 2⟩
            { s with program := p2 }
        | some r =>
          match set_variable_value p2 (inst.arg 0) r with
          | .error e => .fail e { s with program := p2 }
          | .ok p3 => .next { s with program := p3, pc := s.pc + 1 }
  | .OP_IF =>
    match get_variable_value s.program (inst.arg 0) with
    | .error e => .fail e s
    | .ok (condition, p1) =>
      if condition ≠ 0 then
        let target := find_label p1 (inst.arg 2)
        if target = -1 then
          .fail ⟨inst.line_number, .undefined_label, inst.arg 2⟩ { s with program := p1 }
        else .next { s with program := p1, pc := target }
      else .next { s with program := p1, pc := s.pc + 1 }
  | .OP_GOTO =>
    let target := find_label s.program (inst.arg 0)
    if target = -1 then .fail ⟨inst.line_number, .undefined_label, inst.arg 0⟩ s
    else .next { s with pc := target }
  | .OP_LABEL => .next { s with pc := s.pc + 1 }
  | .OP_HALT => .done s
  | .OP_INVALID => .fail ⟨inst.line_number, .unknown_instruction, []⟩ s

/-- One evaluation of the loop condition `pc < instruction_count` and, when it holds, one
iteration. A negative `pc` would index before the array: reported as `invalid_memory_access`. -/
def step (s : exec_t) : step_t :=
  if s.pc < (s.program.instructions.length : Int) then
    if s.pc < 0 then .fail ⟨0, .invalid_memory_access, []⟩ s
    else
      match s.program.instructions.get? s.pc.toNat with
      | some inst => exec_instruction s inst
      | none => .fail ⟨0, .invalid_memory_access, []⟩ s
  else .fail ⟨0, .program_ended_without_halt, []⟩ s

/-- At most `fuel` iterations of the loop of `execute_program`; `next` when it is still
running after them. -/
def run : Nat → exec_t → step_t
  | 0, s => .next s
  | fuel + 1, s =>
    match step s with
    | .next s1 => run fuel s1
    | r => r

def execute_program (fuel : Nat) (program : program_t) : step_t :=
  run fuel { program := program, pc := 0, out := [] }

/-! ## Programs and lines used in the statements -/

/-- The seven-line counting program. -/
def loop_source : List CStr :=
  ["set x 1".toList, "label top".toList, "out x".toList, "add x x 1".toList,
   "cmp c x <= 3".toList, "if c goto top".toList, "halt".toList]

/-- The program record that `parse_program` builds from `loop_source`. -/
def loop_program : program_t :=
  { instructions :=
      [⟨.OP_SET, ["x".toList, "1".toList], 1⟩,
       ⟨.OP_LABEL, ["top".toList], 2⟩,
       ⟨.OP_OUT, ["x".toList], 3⟩,
       ⟨.OP_ADD, ["x".toList, "x".toList, "1".toList], 4⟩,
       ⟨.OP_CMP, ["c".toList, "x".toList, "<=".toList, "3".toList], 5⟩,
       ⟨.OP_IF, ["c".toList, "goto".toList, "top".toList], 6⟩,
       ⟨.OP_HALT, [], 7⟩]
    vars := []
    labels := [⟨"top".toList, 1⟩] }

/-- A program that jumps to a label it never declares. -/
def goto_nowhere_program : program_t :=
  { instructions := [⟨.OP_GOTO, ["nowhere".toList], 1⟩, ⟨.OP_HALT, [], 2⟩]
    vars := []
    labels := [] }

/-- A program that declares the label `loop` twice. -/
def twice_loop_program : program_t :=
  { instructions :=
      [⟨.OP_LABEL, ["loop".toList], 1⟩, ⟨.OP_LABEL, ["loop".toList], 2⟩, ⟨.OP_HALT, [], 3⟩]
    vars := []
    labels := [⟨"loop".toList, 0⟩, ⟨"loop".toList, 1⟩] }

/-- A well-formed program without `halt`. -/
def no_halt_program : program_t :=
  { instructions := [⟨.OP_SET, ["x".toList, "1".toList], 1⟩, ⟨.OP_OUT, ["x".toList], 2⟩]
    vars := []
    labels := [] }

/-- The instruction `halt` as the parser stores it. -/
def halt_instruction (line_number : Int) : instruction_t := ⟨.OP_HALT, [], line_number⟩

/-! ## Specification-side definitions

The definitions of this section follow the wording of the specification; the theorems compare
them with the functions above. -/

/-- Text of an integer literal: an optional `-` followed only by decimal digits, at least one. -/
def is_integer_text (s : CStr) : Bool :=
  match s with
  | [] => false
  | c :: rest =>
    if c = '-' then !rest.isEmpty && rest.all isdigit else isdigit c && rest.all isdigit

/-- Text of an Identifier token: a valid identifier that is not an instruction name. -/
def is_identifier_text (s : CStr) : Bool :=
  is_valid_identifier s && decide (string_to_opcode s = .OP_INVALID)

/-- The shape table of the specification, read on a stored instruction. -/
def conforms (inst : instruction_t) : Bool :=
  match inst.op with
  | .OP_SET =>
    inst.arg_count == 2 && is_identifier_text (inst.arg 0) &&
      (is_integer_text (inst.arg 1) || is_identifier_text (inst.arg 1))
  | .OP_OUT => inst.arg_count == 1
  | .OP_ADD | .OP_SUB | .OP_MUL | .OP_DIV =>
    inst.arg_count == 3 && is_identifier_text (inst.arg 0)
  | .OP_CMP =>
    inst.arg_count == 4 && is_identifier_text (inst.arg 0) &&
      (string_to_comparison (inst.arg 2)).isSome
  | .OP_IF =>
    inst.arg_count == 3 && is_identifier_text (inst.arg 0) &&
      decide (inst.arg 1 = "goto".toList) && is_identifier_text (inst.arg 2)
  | .OP_GOTO => inst.arg_count == 1 && is_identifier_text (inst.arg 0)
  | .OP_LABEL => inst.arg_count == 1 && is_identifier_text (inst.arg 0)
  | .OP_HALT => inst.arg_count == 0
  | .OP_INVALID => false

/-- The shape table of the specification, read on the tokens of a line: the first token is an
Opcode and the remaining tokens have the arity and the kinds of its row. -/
def shape_ok (tokens : List token_t) : Bool :=
  match tokens with
  | [] => false
  | t0 :: args =>
    t0.type == .TOKEN_OPCODE &&
    (match string_to_opcode t0.value, args with
      | .OP_SET, [a, b] =>
        a.type == .TOKEN_IDENTIFIER && (b.type == .TOKEN_INTEGER || b.type == .TOKEN_IDENTIFIER)
      | .OP_OUT, [_] => true
      | .OP_ADD, [a, _, _] => a.type == .TOKEN_IDENTIFIER
      | .OP_SUB, [a, _, _] => a.type == .TOKEN_IDENTIFIER
      | .OP_MUL, [a, _, _] => a.type == .TOKEN_IDENTIFIER
      | .OP_DIV, [a, _, _] => a.type == .TOKEN_IDENTIFIER
      | .OP_CMP, [a, _, c, _] => a.type == .TOKEN_IDENTIFIER && c.type == .TOKEN_COMPARISON
      | .OP_IF, [a, g, l] =>
        a.type == .TOKEN_IDENTIFIER && decide (g.value = "goto".toList) &&
          l.type == .TOKEN_IDENTIFIER
      | .OP_GOTO, [l] => l.type == .TOKEN_IDENTIFIER
      | .OP_LABEL, [l] => l.type == .TOKEN_IDENTIFIER
      | .OP_HALT, [] => true
      | _, _ => false)

/-- One label entry per `label` instruction, in sequence order, each bound to the position of
its own instruction; `i` is the position of the first instruction of the list. -/
def label_entries : Nat → List instruction_t → List label_t
  | _, [] => []
  | i, inst :: more =>
    if inst.op = .OP_LABEL then ⟨inst.arg 0, (i : Int)⟩ :: label_entries (i + 1) more
    else label_entries (i + 1) more

/-- What the tokenizer guarantees of a token it returns: the text fits the token buffer and
has the form of its kind. -/
def token_ok (t : token_t) : Prop :=
  t.value.length ≤ MAX_TOKEN_LENGTH - 1 ∧
  match t.type with
  | .TOKEN_OPCODE => string_to_opcode t.value ≠ .OP_INVALID
  | .TOKEN_IDENTIFIER => is_identifier_text t.value = true
  | .TOKEN_INTEGER => is_integer_text t.value = true
  | .TOKEN_STRING => True
  | .TOKEN_COMPARISON => (string_to_comparison t.value).isSome = true

/-- What the parser maintains of the program record while it reads lines. -/
def parse_invariant (p : program_t) : Prop :=
  (∀ inst ∈ p.instructions, conforms inst = true) ∧
  p.labels = label_entries 0 p.instructions

/-- Sources on which the copy loop never writes over `instruction_count`: fewer than
`MAX_LINES` lines, so that the last row of the instruction array is not reached, or no line of
more than five tokens. -/
def keeps_count (lines : List CStr) : Prop :=
  lines.length < MAX_LINES ∨
    ∀ line ∈ lines, ∀ m tokens, tokenize_line (trim_line line) m = .ok tokens →
      tokens.length ≤ 5

/-- Blank characters of the specification: space and tab. -/
def is_blank (c : Char) : Bool := c == ' ' || c == '\t'

/-- The words of a line: the maximal runs of characters that are neither space nor tab. -/
def split_words (line : CStr) : List CStr :=
  (line.splitOnP is_blank).filter (fun w => !w.isEmpty)

/-- The kind the specification gives to a word that does not start with a double quote. -/
def token_kind (w : CStr) : token_type_t :=
  if (string_to_comparison w).isSome then .TOKEN_COMPARISON
  else if starts_integer w then .TOKEN_INTEGER
  else if string_to_opcode w ≠ .OP_INVALID then .TOKEN_OPCODE
  else .TOKEN_IDENTIFIER

/-- A word that is no comparison operator, does not start like an integer, is no instruction
name and no valid identifier. -/
def none_of_these (w : CStr) : Bool :=
  (string_to_comparison w).isNone && !starts_integer w &&
    decide (string_to_opcode w = .OP_INVALID) && !is_valid_identifier w

/-- A word the tokenizer turns into a token: a comparison operator, an integer word that
`parse_integer` accepts, an instruction name or a valid identifier. -/
def word_ok (w : CStr) : Bool :=
  (string_to_comparison w).isSome ||
    (if starts_integer w then decide (parse_integer w ≠ INT64_MIN)
     else decide (string_to_opcode w ≠ .OP_INVALID) || is_valid_identifier w)

/-- The tokens of a list of words, none of which starts a string literal: each word is
classified in turn, the first word that cannot be classified gives the error. -/
def classify_words (n : Int) : List CStr → Except error_t (List token_t)
  | [] => .ok []
  | w :: ws =>
    if (string_to_comparison w).isSome then
      match classify_words n ws with
      | .ok ts => .ok (⟨.TOKEN_COMPARISON, w.take (MAX_TOKEN_LENGTH - 1), n⟩ :: ts)
      | .error e => .error e
    else if starts_integer w then
      if parse_integer w = INT64_MIN then .error ⟨n, .invalid_integer_format, w⟩
      else
        match classify_words n ws with
        | .ok ts => .ok (⟨.TOKEN_INTEGER, w.take (MAX_TOKEN_LENGTH - 1), n⟩ :: ts)
        | .error e => .error e
    else if string_to_opcode w ≠ .OP_INVALID then
      match classify_words n ws with
      | .ok ts => .ok (⟨.TOKEN_OPCODE, w.take (MAX_TOKEN_LENGTH - 1), n⟩ :: ts)
      | .error e => .error e
    else if is_valid_identifier w then
      match classify_words n ws with
      | .ok ts => .ok (⟨.TOKEN_IDENTIFIER, w.take (MAX_TOKEN_LENGTH - 1), n⟩ :: ts)
      | .error e => .error e
    else .error ⟨n, .invalid_token, w⟩

/-- The source line made of `out`, one space and the string literal with contents `c`. -/
def out_line (c : CStr) : CStr := ['o', 'u', 't', ' ', '"'] ++ c ++ ['"']

/-- The instruction stored for the line `out "c"` read as line 1. -/
def out_instruction (c : CStr) : instruction_t := ⟨.OP_OUT, [c], 1⟩

/-- The `out` heuristic of the executor prints the argument text as it is: the text contains a
space, or it neither starts with a digit nor is a valid identifier. -/
def printed_raw (c : CStr) : Prop :=
  ' ' ∈ c ∨ (first_is_digit c = false ∧ is_valid_identifier c = false)

/-- The value a read of `name` finds in the table: the value of the first entry of that name,
0 when there is none. -/
def value_of (vars : List variable_t) (name : CStr) : Int :=
  match vars.find? (fun v => v.name = name) with
  | some v => v.value
  | none => 0

/-- The table has an entry named `name`. -/
def has_variable (vars : List variable_t) (name : CStr) : Bool :=
  vars.any (fun v => v.name = name)

/-- The value of an argument on a table: the literal when the text starts like an integer,
the value of the variable otherwise. -/
def resolved (vars : List variable_t) (arg : CStr) : Int :=
  if starts_integer arg then parse_integer arg else value_of vars arg

/-- The record `parse_program` builds from the lines `div r a 0`, `halt`. -/
def div_literal_zero_program : program_t :=
  { instructions := [⟨.OP_DIV, ["r".toList, "a".toList, "0".toList], 1⟩, ⟨.OP_HALT, [], 2⟩]
    vars := []
    labels := [] }

/-- The record `parse_program` builds from the lines `set z 0`, `div r a z`, `halt`. -/
def div_variable_zero_program : program_t :=
  { instructions :=
      [⟨.OP_SET, ["z".toList, "0".toList], 1⟩,
       ⟨.OP_DIV, ["r".toList, "a".toList, "z".toList], 2⟩,
       ⟨.OP_HALT, [], 3⟩]
    vars := []
    labels := [] }

/-- The record `parse_program` builds from the lines `out y`, `out y`, `halt`. -/
def out_twice_program : program_t :=
  { instructions :=
      [⟨.OP_OUT, ["y".toList], 1⟩, ⟨.OP_OUT, ["y".toList], 2⟩, ⟨.OP_HALT, [], 3⟩]
    vars := []
    labels := [] }

/-- A program record without instructions, variables or labels. -/
def empty_program : program_t := { instructions := [], vars := [], labels := [] }

/-- The instruction the loop of `execute_program` is about to run in state `s`, if the program
counter points inside the instruction sequence. -/
def current_instruction (s : exec_t) : Option instruction_t :=
  if 0 ≤ s.pc then s.program.instructions.get? s.pc.toNat else none

/-- Result of a comparison: 1 if it holds, 0 otherwise. -/
def comparison_value (op : comparison_t) (a b : Int) : Int :=
  match op with
  | .CMP_EQ => if a = b then 1 else 0
  | .CMP_NE => if a ≠ b then 1 else 0
  | .CMP_LT => if a < b then 1 else 0
  | .CMP_LE => if a ≤ b then 1 else 0
  | .CMP_GT => if a > b then 1 else 0
  | .CMP_GE => if a ≥ b then 1 else 0

/-- The error of the call `exit(1)` for a full variable table. -/
def too_many : error_t := ⟨0, .too_many_variables, []⟩

/-- The exact integer result of an arithmetic instruction; division truncates toward zero. -/
def arith_result (op : opcode_t) (a b : Int) : Int :=
  match op with
  | .OP_ADD => a + b
  | .OP_SUB => a - b
  | .OP_MUL => a * b
  | .OP_DIV => Int.tdiv a b
  | _ => 0

/-- A state about to run the single instruction `inst` on the table `vars`. -/
def single_state (inst : instruction_t) (vars : List variable_t) : exec_t :=
  { program := { instructions := [inst], vars := vars, labels := [] }, pc := 0, out := [] }

/-- A table that holds `MAX_VARIABLES` variables, named `v0` to `v255`, all of value 0 (the
table after 256 instructions `set v0 0`, ..., `set v255 0`). -/
def full_table : List variable_t :=
  (List.range 256).map (fun i => ⟨'v' :: Nat.toDigits 10 i, 0⟩)

/-- States of a run of the program `p`: the instructions and labels are those of `p` and the
program counter lies between 0 and the instruction count. -/
def state_of_run (p : program_t) (s : exec_t) : Prop :=
  s.program.instructions = p.instructions ∧ s.program.labels = p.labels ∧
  0 ≤ s.pc ∧ s.pc ≤ (p.instructions.length : Int)

/-- The failures a validated program can still run into: a full variable table, a division by
a zero value or the division whose quotient is not an `int64_t`, the end of the instruction
sequence without `halt`. -/
def expected_failure (e : error_t) : Prop :=
  e.message = .too_many_variables ∨
  (e.message = .runtime_division_by_zero ∨ e.message = .division_overflow_trap) ∨
  e.message = .program_ended_without_halt

/-- Outcomes of a run of `p` that stay inside the program: a state from which the loop goes on
or returns is a state of a run of `p`; a failure is one of the expected ones, at a program
counter between 0 and the instruction count. -/
def safe_outcome (p : program_t) (r : step_t) : Prop :=
  match r with
  | .next s => state_of_run p s
  | .done s => state_of_run p s
  | .fail e s => expected_failure e ∧ 0 ≤ s.pc ∧ s.pc ≤ (p.instructions.length : Int)

/-- The line `out a b c d "\x01"`: six tokens, the last one a string literal whose text is the
one byte 1. -/
def six_token_line : CStr := "out a b c d \"\x01\"".toList

/-- The tokens of `six_token_line` on line `n`. -/
def six_tokens (n : Int) : List token_t :=
  [⟨.TOKEN_OPCODE, "out".toList, n⟩, ⟨.TOKEN_IDENTIFIER, "a".toList, n⟩,
    ⟨.TOKEN_IDENTIFIER, "b".toList, n⟩, ⟨.TOKEN_IDENTIFIER, "c".toList, n⟩,
    ⟨.TOKEN_IDENTIFIER, "d".toList, n⟩, ⟨.TOKEN_STRING, "\x01".toList, n⟩]

/-- The record `parse_program` builds from the lines `out a b c d "\x01"`, `halt`. -/
def six_token_program : program_t :=
  { instructions := [⟨.OP_OUT, ["a".toList], 0⟩, ⟨.OP_HALT, [], 2⟩]
    vars := []
    labels := [] }

/-- A source of 1025 lines: `goto L`, five lines `halt`, `label L`, 1016 lines `halt`, then
`out a b c d "\x01"` as the 1024th instruction line, and `halt`. -/
def stale_label_source : List CStr :=
  ["goto L".toList, "halt".toList, "halt".toList, "halt".toList, "halt".toList,
    "halt".toList, "label L".toList] ++
    (List.replicate 1016 "halt".toList ++ [six_token_line, "halt".toList])

/-- The record `parse_program` builds from `stale_label_source`: two instructions, and the
label `L` with the index 6 it was given before the count was written over. -/
def stale_label_program : program_t :=
  { instructions := [⟨.OP_GOTO, ["L".toList], 1⟩, ⟨.OP_HALT, [], 1025⟩]
    vars := []
    labels := [⟨"L".toList, 6⟩] }

/-- A source of `k` lines `halt`. -/
def halt_lines (k : Nat) : List CStr := List.replicate k "halt".toList

/-- A source of `k` lines `label a`. -/
def label_lines (k : Nat) : List CStr := List.replicate k "label a".toList

/-- The instruction stored for a line `label a`. -/
def label_instruction (line_number : Int) : instruction_t :=
  ⟨.OP_LABEL, ["a".toList], line_number⟩

/-- Operand positions: the second and third argument of `add`, `sub`, `mul`, `div` and the
second and fourth argument of `cmp`. -/
def is_operand_position (op : opcode_t) (j : Nat) : Bool :=
  match op with
  | .OP_ADD | .OP_SUB | .OP_MUL | .OP_DIV => j == 1 || j == 2
  | .OP_CMP => j == 1 || j == 3
  | _ => false

/-- Argument texts of C13: a well-formed integer literal, one of the six comparison operators,
the keyword `goto`, or a syntactically valid identifier. -/
def well_formed_argument (arg : CStr) : Bool :=
  is_integer_text arg || (string_to_comparison arg).isSome || decide (arg = "goto".toList) ||
    is_valid_identifier arg

/-- What the identifier check of the validator lets through: a text that starts as an integer
does (a digit, or `-` and a digit), a comparison operator, `goto`, or a valid identifier. -/
def passes_identifier_check (arg : CStr) : Bool :=
  starts_integer arg || (string_to_comparison arg).isSome || decide (arg = "goto".toList) ||
    is_valid_identifier arg

/-- The two-line source `add x y "1foo"`, `halt`. -/
def add_1foo_source : List CStr := ["add x y \"1foo\"".toList, "halt".toList]

/-- The program record `parse_program` returns for `add_1foo_source`. -/
def add_1foo_program : program_t :=
  { instructions := [⟨.OP_ADD, ["x".toList, "y".toList, "1foo".toList], 1⟩, ⟨.OP_HALT, [], 2⟩]
    vars := []
    labels := [] }

/-- The integer a decimal text denotes: an optional `-`, then the value of the digits. -/
def integer_value (s : CStr) : Int :=
  match s with
  | [] => 0
  | c :: rest => if c = '-' then -(digits_value rest : Int) else (digits_value (c :: rest) : Int)

/-- The ASCII letters. -/
def ascii_letters : List Char :=
  "abcdefghijklmnopqrstuvwxyzABCDEFGHIJKLMNOPQRSTUVWXYZ".toList

/-- The decimal digits. -/
def ascii_digits : List Char := "0123456789".toList

/-- The ASCII punctuation characters other than the underscore. -/
def ascii_punctuation : List Char :=
  ['!', '\x22', '#', '$', '%', '&', '\x27', '(', ')', '*', '+', ',', '-', '.', '/', ':', ';',
    '<', '=', '>', '?', '@', '[', '\x5c', ']', '^', '\x60', '\x7b', '|', '\x7d', '~']

/-- Strings of the pattern `[A-Za-z_][A-Za-z0-9_]*`: not empty, the first character an ASCII
letter or the underscore, every later character an ASCII letter, a digit or the underscore. -/
def matches_identifier_pattern (s : CStr) : Bool :=
  match s with
  | [] => false
  | c :: rest =>
    (ascii_letters.contains c || c == '_') &&
      rest.all (fun d => ascii_letters.contains d || ascii_digits.contains d || d == '_')

/-- The record `parse_program` builds from the lines `div r a 00`, `halt`. -/
def div_double_zero_program : program_t :=
  { instructions := [⟨.OP_DIV, ["r".toList, "a".toList, "00".toList], 1⟩, ⟨.OP_HALT, [], 2⟩]
    vars := []
    labels := [] }

/-- The record `parse_program` builds from the lines `div r a -0`, `halt`. -/
def div_minus_zero_program : program_t :=
  { instructions := [⟨.OP_DIV, ["r".toList, "a".toList, "-0".toList], 1⟩, ⟨.OP_HALT, [], 2⟩]
    vars := []
    labels := [] }

/-- The words of a text joined by exactly one space each. -/
def single_spaced (body : CStr) : CStr := List.intercalate [' '] (split_words body)

/-- The source line made of `out`, one space, the string literal with contents `body` and the
text `post` after the closing quote. -/
def out_literal_line (body post : CStr) : CStr :=
  ['o', 'u', 't', ' ', '"'] ++ body ++ '"' :: post

/-- One call on the variable store: a read or a write of a name. -/
inductive store_call where
  | get (name : CStr)
  | set (name : CStr) (value : Int)
  deriving DecidableEq, Repr

/-- The name a call reads or writes. -/
def store_call.name : store_call → CStr
  | .get n => n
  | .set n _ => n

/-- The program record after one call of `get_variable_value` or `set_variable_value`. -/
def apply_call (p : program_t) : store_call → Except error_t program_t
  | .get n =>
    match get_variable_value p n with
    | .ok (_, p1) => .ok p1
    | .error e => .error e
  | .set n v => set_variable_value p n v

/-- The program record after a sequence of calls, the first call first. -/
def apply_calls (p : program_t) : List store_call → Except error_t program_t
  | [] => .ok p
  | c :: more =>
    match apply_call p c with
    | .ok p1 => apply_calls p1 more
    | .error e => .error e

/-- The names of the entries of the variable table, in table order. -/
def variable_names (p : program_t) : List CStr := p.vars.map (fun v => v.name)

/-- Names found in the variable table of a validated program: a syntactically valid identifier
or one of the six comparison operators. -/
def name_ok (n : CStr) : Bool := is_valid_identifier n || (string_to_comparison n).isSome

/-- Every entry of the table has such a name. -/
def names_ok (vars : List variable_t) : Prop := ∀ v ∈ vars, name_ok v.name = true

/-- An operand the executor may resolve: a text that starts as an integer, which is not looked
up, or a name as above. -/
def operand_ok (arg : CStr) : Bool := starts_integer arg || name_ok arg

/-- The names an instruction other than `out` reads or writes: destinations and conditions are
names, operands are operands as above. -/
def operands_named (inst : instruction_t) : Bool :=
  match inst.op with
  | .OP_SET => name_ok (inst.arg 0) && operand_ok (inst.arg 1)
  | .OP_ADD | .OP_SUB | .OP_MUL | .OP_DIV =>
    name_ok (inst.arg 0) && operand_ok (inst.arg 1) && operand_ok (inst.arg 2)
  | .OP_CMP => name_ok (inst.arg 0) && operand_ok (inst.arg 1) && operand_ok (inst.arg 3)
  | .OP_IF => name_ok (inst.arg 0)
  | _ => true

/-- The state an outcome carries. -/
def step_t.state : step_t → exec_t
  | .next s => s
  | .done s => s
  | .fail _ s => s

/-- The record `parse_program` builds from the lines `add x y ==`, `halt`. -/
def add_operator_program : program_t :=
  { instructions := [⟨.OP_ADD, ["x".toList, "y".toList, "==".toList], 1⟩, ⟨.OP_HALT, [], 2⟩]
    vars := []
    labels := [] }

/-! # Theorems -/

/-! ## Executor: fuel -/

theorem run_add (n k : Nat) (s : exec_t) (r : step_t) (h : run n s = r)
    (hr : ∀ s1, r ≠ .next s1) : run (n + k) s = r := by
  induction n generalizing s with
  | zero => exact absurd h.symm (hr s)
  | succ n ih =>
    rw [Nat.add_right_comm]
    simp only [run] at h ⊢
    cases hs : step s with
    | next s1 => rw [hs] at h; exact ih s1 h
    | done s1 => rw [hs] at h; exact h
    | fail e s1 => rw [hs] at h; exact h

/-! ## Validator: structure of an accepted program -/

theorem find_label_eq_neg_one (p : program_t) (name : CStr)
    (h : ∀ l ∈ p.labels, l.name ≠ name) : find_label p name = -1 := by
  unfold find_label
  have : p.labels.find? (fun l => l.name = name) = none := by
    rw [List.find?_eq_none]
    intro l hl
    simpa using h l hl
  rw [this]

theorem find_label_ne_neg_one (p : program_t) (name : CStr)
    (h : find_label p name ≠ -1) : ∃ l ∈ p.labels, l.name = name := by
  by_contra hcon
  push_neg at hcon
  exact h (find_label_eq_neg_one p name hcon)

theorem validate_instructions_ok (p : program_t) (l : List instruction_t)
    (h : validate_instructions p l = .ok ()) :
    ∀ inst ∈ l, validate_instruction p inst = .ok () := by
  induction l with
  | nil => intro inst hi; cases hi
  | cons x more ih =>
    intro inst hi
    simp only [validate_instructions] at h
    cases hx : validate_instruction p x with
    | error e => rw [hx] at h; cases h
    | ok u =>
      rw [hx] at h
      rcases List.mem_cons.mp hi with rfl | hmem
      · exact hx
      · exact ih h inst hmem

theorem validate_instructions_error (p : program_t) (l : List instruction_t) (inst : instruction_t)
    (hi : inst ∈ l) (e : error_t) (h : validate_instruction p inst = .error e) :
    ∃ e1, validate_instructions p l = .error e1 := by
  cases hv : validate_instructions p l with
  | error e1 => exact ⟨e1, rfl⟩
  | ok u =>
    have := validate_instructions_ok p l hv inst hi
    rw [h] at this; cases this

theorem validate_program_ok (p : program_t) (h : validate_program p = .ok ()) :
    find_duplicate p.labels = none ∧ validate_instructions p p.instructions = .ok () ∧
    p.instructions.any (fun inst => inst.op = .OP_HALT) = true ∧
    validate_identifiers p.instructions = .ok () := by
  unfold validate_program at h
  cases hd : find_duplicate p.labels with
  | some name => rw [hd] at h; cases h
  | none =>
    rw [hd] at h
    cases hv : validate_instructions p p.instructions with
    | error e => rw [hv] at h; cases h
    | ok u =>
      rw [hv] at h
      by_cases hh : p.instructions.any (fun inst => inst.op = .OP_HALT) = true
      · simp only [hh, Bool.not_true] at h
        exact ⟨rfl, rfl, hh, h⟩
      · simp only [hh] at h
        simp at h

theorem find_duplicate_none_iff (l : List label_t) :
    find_duplicate l = none ↔ (l.map (fun x => x.name)).Nodup := by
  induction l with
  | nil => simp [find_duplicate]
  | cons x more ih =>
    simp only [find_duplicate, List.map_cons, List.nodup_cons]
    by_cases hany : more.any (fun m => x.name = m.name) = true
    · simp only [hany, if_true]
      constructor
      · intro h; cases h
      · rintro ⟨hn, _⟩
        exfalso; apply hn
        simp only [List.any_eq_true, decide_eq_true_eq] at hany
        obtain ⟨m, hm, hx⟩ := hany
        exact List.mem_map.mpr ⟨m, hm, hx.symm⟩
    · simp only [hany, Bool.false_eq_true, if_false]
      rw [ih]
      constructor
      · intro h
        refine ⟨?_, h⟩
        intro hmem
        apply hany
        obtain ⟨m, hm, hx⟩ := List.mem_map.mp hmem
        simp only [List.any_eq_true, decide_eq_true_eq]
        exact ⟨m, hm, hx.symm⟩
      · exact fun h => h.2

theorem find_duplicate_some_mem (l : List label_t) (name : CStr)
    (h : find_duplicate l = some name) : name ∈ l.map (fun x => x.name) := by
  induction l with
  | nil => simp [find_duplicate] at h
  | cons x more ih =>
    simp only [find_duplicate] at h
    split at h
    · cases h; simp
    · simp only [List.map_cons, List.mem_cons]; right; exact ih h

theorem validate_instructions_append (p : program_t) (a b : List instruction_t) :
    validate_instructions p (a ++ b) =
      match validate_instructions p a with
      | .error e => .error e
      | .ok _ => validate_instructions p b := by
  induction a with
  | nil => simp [validate_instructions]
  | cons x more ih =>
    simp only [List.cons_append, validate_instructions]
    cases validate_instruction p x with
    | error e => rfl
    | ok u => exact ih

/-! ## Lexer: what a returned token is -/

theorem string_to_comparison_some (w : CStr) (h : (string_to_comparison w).isSome = true) :
    w = "==".toList ∨ w = "!=".toList ∨ w = "<".toList ∨ w = "<=".toList ∨ w = ">".toList ∨
      w = ">=".toList := by
  by_contra hcon
  simp only [not_or] at hcon
  obtain ⟨c1, c2, c3, c4, c5, c6⟩ := hcon
  unfold string_to_comparison at h
  rw [if_neg c1, if_neg c2, if_neg c3, if_neg c4, if_neg c5, if_neg c6] at h
  cases h

theorem string_to_opcode_valid (w : CStr) (h : string_to_opcode w ≠ .OP_INVALID) :
    w = "set".toList ∨ w = "out".toList ∨ w = "add".toList ∨ w = "sub".toList ∨
    w = "mul".toList ∨ w = "div".toList ∨ w = "cmp".toList ∨ w = "if".toList ∨
    w = "goto".toList ∨ w = "label".toList ∨ w = "halt".toList := by
  by_contra hcon
  simp only [not_or] at hcon
  obtain ⟨c1, c2, c3, c4, c5, c6, c7, c8, c9, c10, c11⟩ := hcon
  apply h
  unfold string_to_opcode
  rw [if_neg c1, if_neg c2, if_neg c3, if_neg c4, if_neg c5, if_neg c6, if_neg c7, if_neg c8,
    if_neg c9, if_neg c10, if_neg c11]

theorem string_to_comparison_length (w : CStr) (h : (string_to_comparison w).isSome = true) :
    w.length ≤ 2 := by
  rcases string_to_comparison_some w h with h | h | h | h | h | h <;> (subst h; decide)

theorem string_to_opcode_length (w : CStr) (h : string_to_opcode w ≠ .OP_INVALID) :
    w.length ≤ 5 := by
  rcases string_to_opcode_valid w h with h | h | h | h | h | h | h | h | h | h | h <;>
    (subst h; decide)

theorem take_eq_self_of_short (w : CStr) (n k : Nat) (hk : k < n) (h : (w.take n).length ≤ k) :
    w.take n = w := by
  apply List.take_of_length_le
  rw [List.length_take] at h
  omega

theorem is_valid_identifier_take (w : CStr) (n : Nat) (h : is_valid_identifier w = true) :
    is_valid_identifier (w.take (n + 1)) = true := by
  cases w with
  | nil => simp [is_valid_identifier] at h
  | cons c cs =>
    simp only [is_valid_identifier, Bool.and_eq_true, List.all_eq_true, List.take_succ_cons] at h ⊢
    exact ⟨h.1, fun d hd => h.2 d (List.mem_of_mem_take hd)⟩

theorem string_to_opcode_take (w : CStr) (h : string_to_opcode w = .OP_INVALID) :
    string_to_opcode (w.take 255) = .OP_INVALID := by
  by_contra hne
  have hlen := string_to_opcode_length _ hne
  have := take_eq_self_of_short w 255 5 (by decide) hlen
  rw [this] at hne
  exact hne h

theorem is_identifier_text_take (w : CStr) (h : is_valid_identifier w = true)
    (ho : string_to_opcode w = .OP_INVALID) : is_identifier_text (w.take 255) = true := by
  simp only [is_identifier_text, Bool.and_eq_true, decide_eq_true_eq]
  exact ⟨is_valid_identifier_take w 254 h, string_to_opcode_take w ho⟩

theorem isdigit_not_isspace (c : Char) (h : isdigit c = true) : isspace c = false := by
  by_contra hs
  simp only [isspace, Bool.or_eq_true, beq_iff_eq, Bool.not_eq_false] at hs
  rcases hs with ((((hs | hs) | hs) | hs) | hs) | hs <;> (subst hs; revert h; decide)

theorem isdigit_ne_minus (c : Char) (h : isdigit c = true) : c ≠ '-' := by
  rintro rfl; revert h; decide

theorem isdigit_ne_plus (c : Char) (h : isdigit c = true) : c ≠ '+' := by
  rintro rfl; revert h; decide

theorem is_integer_text_of_parse (w : CStr) (hs : starts_integer w = true)
    (hp : parse_integer w ≠ INT64_MIN) : is_integer_text w = true := by
  cases w with
  | nil => simp [starts_integer] at hs
  | cons c rest =>
    have hend : (strtoll (c :: rest)).2 = [] := by
      by_contra hne
      exact hp (by simp [parse_integer, hne])
    simp only [starts_integer, Bool.or_eq_true, Bool.and_eq_true, beq_iff_eq] at hs
    rcases hs with hd | ⟨hminus, hd2⟩
    · have hsp := isdigit_not_isspace c hd
      have h1 := isdigit_ne_minus c hd
      have h2 := isdigit_ne_plus c hd
      simp only [strtoll, List.dropWhile_cons, hsp, Bool.false_eq_true, if_false, h1, h2,
        List.takeWhile_cons, hd, if_true] at hend
      simp only [is_integer_text, h1, if_false, hd, Bool.true_and]
      simp at hend
      exact List.all_eq_true.mpr hend
    · subst hminus
      cases rest with
      | nil => simp at hd2
      | cons d more =>
        simp only at hd2
        have hsp : isspace '-' = false := by decide
        simp only [strtoll, List.dropWhile_cons, hsp, Bool.false_eq_true, if_false, if_true,
          List.takeWhile_cons, hd2] at hend
        simp at hend
        simp only [is_integer_text, if_true, List.isEmpty_cons, Bool.not_false, Bool.true_and,
          List.all_cons, hd2]
        exact List.all_eq_true.mpr hend

theorem is_integer_text_take (w : CStr) (h : is_integer_text w = true) :
    is_integer_text (w.take 255) = true := by
  cases w with
  | nil => simp [is_integer_text] at h
  | cons c rest =>
    simp only [is_integer_text] at h
    simp only [is_integer_text, List.take_succ_cons]
    by_cases hc : c = '-'
    · simp only [hc, if_true, Bool.and_eq_true, List.all_eq_true] at h ⊢
      refine ⟨?_, fun d hd => h.2 d (List.mem_of_mem_take hd)⟩
      cases rest with
      | nil => simp at h
      | cons d more => simp
    · simp only [hc, if_false, Bool.and_eq_true, List.all_eq_true] at h ⊢
      exact ⟨h.1, fun d hd => h.2 d (List.mem_of_mem_take hd)⟩

theorem length_take_le_255 (w : CStr) : (w.take (MAX_TOKEN_LENGTH - 1)).length ≤ MAX_TOKEN_LENGTH - 1 := by
  rw [List.length_take]; exact Nat.min_le_left _ _

theorem tokenize_loop_token_ok (n : Int) (cap : Nat) (tok : Option (CStr × CStr))
    (ts : List token_t) (h : tokenize_loop n cap tok = .ok ts) :
    ∀ t ∈ ts, token_ok t ∧ t.line_number = n := by
  induction cap generalizing tok ts with
  | zero =>
    simp only [tokenize_loop] at h
    cases h; intro t ht; cases ht
  | succ cap ih =>
    cases tok with
    | none =>
      simp only [tokenize_loop] at h
      cases h; intro t ht; cases ht
    | some pr =>
      obtain ⟨token, rest⟩ := pr
      simp only [tokenize_loop] at h
      split_ifs at h with h1 h2 h3 h4 h5 h6
      · cases hs : string_literal n token rest with
        | error e => rw [hs] at h; cases h
        | ok text =>
          rw [hs] at h
          cases h
          intro t ht
          simp only [List.mem_singleton] at ht
          subst ht
          exact ⟨⟨length_take_le_255 _, trivial⟩, rfl⟩
      · cases hl : tokenize_loop n cap (strtok rest is_delim) with
        | error e => rw [hl] at h; cases h
        | ok ts1 =>
          rw [hl] at h
          cases h
          intro t ht
          rcases List.mem_cons.mp ht with rfl | hmem
          · refine ⟨⟨length_take_le_255 _, ?_⟩, rfl⟩
            have := List.take_of_length_le
              (le_trans (string_to_comparison_length _ h2) (by decide : 2 ≤ 255))
            show (string_to_comparison (token.take 255)).isSome = true
            rw [this]; exact h2
          · exact ih _ _ hl t hmem
      · cases hl : tokenize_loop n cap (strtok rest is_delim) with
        | error e => rw [hl] at h; cases h
        | ok ts1 =>
          rw [hl] at h
          cases h
          intro t ht
          rcases List.mem_cons.mp ht with rfl | hmem
          · exact ⟨⟨length_take_le_255 _,
              is_integer_text_take _ (is_integer_text_of_parse _ h3 h4)⟩, rfl⟩
          · exact ih _ _ hl t hmem
      · cases hl : tokenize_loop n cap (strtok rest is_delim) with
        | error e => rw [hl] at h; cases h
        | ok ts1 =>
          rw [hl] at h
          cases h
          intro t ht
          rcases List.mem_cons.mp ht with rfl | hmem
          · refine ⟨⟨length_take_le_255 _, ?_⟩, rfl⟩
            have := List.take_of_length_le
              (le_trans (string_to_opcode_length _ h5) (by decide : 5 ≤ 255))
            show string_to_opcode (token.take 255) ≠ .OP_INVALID
            rw [this]; exact h5
          · exact ih _ _ hl t hmem
      · cases hl : tokenize_loop n cap (strtok rest is_delim) with
        | error e => rw [hl] at h; cases h
        | ok ts1 =>
          rw [hl] at h
          cases h
          intro t ht
          rcases List.mem_cons.mp ht with rfl | hmem
          · exact ⟨⟨length_take_le_255 _,
              is_identifier_text_take _ h6 (by simpa using h5)⟩, rfl⟩
          · exact ih _ _ hl t hmem

theorem tokenize_line_token_ok (line : CStr) (n : Int) (ts : List token_t)
    (h : tokenize_line line n = .ok ts) : ∀ t ∈ ts, token_ok t ∧ t.line_number = n := by
  unfold tokenize_line at h
  split_ifs at h
  · cases h; intro t ht; cases ht
  · exact tokenize_loop_token_ok n _ _ ts h
/-! ## Parser: one line -/

theorem parse_line_ok (p : program_t) (line : CStr) (n : Int) (p1 : program_t)
    (h : parse_line p line n = .ok p1) :
    (p1 = p ∧ (trim_line line = [] ∨ tokenize_line (trim_line line) n = .ok [])) ∨
    ∃ tokens labels, tokens ≠ [] ∧ tokenize_line (trim_line line) n = .ok tokens ∧
      tok_is tokens 0 .TOKEN_OPCODE = true ∧
      ((¬ (5 < tokens.length ∧ p.instructions.length + 1 = MAX_LINES) ∧
          check_format p (make_instruction tokens n) tokens n = .ok labels ∧
          p.instructions.length + 1 < MAX_LINES ∧
          p1 = ⟨p.instructions ++ [make_instruction tokens n], p.vars, labels⟩) ∨
        (5 < tokens.length ∧ p.instructions.length + 1 = MAX_LINES ∧
          check_format
            (with_count p (p.instructions ++ [make_instruction tokens n])
              (int_at (spilled_text tokens) 8))
            (make_instruction tokens n) tokens n = .ok labels ∧
          int_at (spilled_text tokens) 8 + 1 < MAX_LINES ∧
          p1 = ⟨(p.instructions ++ [make_instruction tokens n]).take
            (int_at (spilled_text tokens) 8 + 1).toNat, p.vars, labels⟩)) := by
  unfold parse_line at h
  by_cases h1 : (trim_line line).length = 0
  · simp only [h1, ↓reduceIte] at h
    cases h
    exact Or.inl ⟨rfl, Or.inl (List.length_eq_zero.mp h1)⟩
  · simp only [h1, ↓reduceIte] at h
    cases ht : tokenize_line (trim_line line) n with
    | error e => rw [ht] at h; cases h
    | ok tokens =>
      rw [ht] at h
      simp only at h
      by_cases h2 : tokens.length = 0
      · simp only [h2, ↓reduceIte] at h
        cases h
        exact Or.inl ⟨rfl, Or.inr (by rw [List.length_eq_zero.mp h2])⟩
      · simp only [h2, ↓reduceIte] at h
        have hne : tokens ≠ [] := by
          intro hnil
          exact h2 (by rw [hnil]; rfl)
        by_cases h3 : tok_is tokens 0 .TOKEN_OPCODE = true
        · simp only [h3, Bool.not_true, Bool.false_eq_true, ↓reduceIte] at h
          by_cases hsp : 5 < tokens.length ∧ p.instructions.length + 1 = MAX_LINES
          · rw [if_pos hsp] at h
            cases hc : check_format
                (with_count p (p.instructions ++ [make_instruction tokens n])
                  (int_at (spilled_text tokens) 8))
                (make_instruction tokens n) tokens n with
            | error e => rw [hc] at h; cases h
            | ok labels =>
              rw [hc] at h
              simp only at h
              by_cases h4 : int_at (spilled_text tokens) 8 + 1 ≥ (MAX_LINES : Int)
              · rw [if_pos h4] at h
                cases h
              · rw [if_neg h4] at h
                cases h
                right
                exact ⟨tokens, labels, hne, rfl, h3,
                  Or.inr ⟨hsp.1, hsp.2, hc, by omega, rfl⟩⟩
          · rw [if_neg hsp] at h
            cases hc : check_format p (make_instruction tokens n) tokens n with
            | error e => rw [hc] at h; cases h
            | ok labels =>
              rw [hc] at h
              simp only at h
              by_cases h4 : p.instructions.length + 1 ≥ MAX_LINES
              · simp only [h4, ↓reduceIte] at h
                cases h
              · simp only [h4, ↓reduceIte] at h
                cases h
                right
                exact ⟨tokens, labels, hne, rfl, h3, Or.inl ⟨hsp, hc, by omega, rfl⟩⟩
        · simp only [h3, Bool.not_false, ↓reduceIte] at h
          cases h

theorem length_eq_four {α : Type} (l : List α) (h : l.length = 4) :
    ∃ a b c d, l = [a, b, c, d] := by
  rcases l with _ | ⟨a, _ | ⟨b, _ | ⟨c, _ | ⟨d, _ | ⟨e, more⟩⟩⟩⟩⟩ <;> simp at h
  exact ⟨a, b, c, d, rfl⟩

theorem token_ok_identifier (t : token_t) (h : token_ok t)
    (ht : t.type = .TOKEN_IDENTIFIER) : is_identifier_text t.value = true := by
  have := h.2; rw [ht] at this; exact this

theorem token_ok_integer (t : token_t) (h : token_ok t)
    (ht : t.type = .TOKEN_INTEGER) : is_integer_text t.value = true := by
  have := h.2; rw [ht] at this; exact this

theorem token_ok_comparison (t : token_t) (h : token_ok t)
    (ht : t.type = .TOKEN_COMPARISON) : (string_to_comparison t.value).isSome = true := by
  have := h.2; rw [ht] at this; exact this

theorem make_instruction_short (tokens : List token_t) (n : Int) (h : tokens.length ≤ 5) :
    make_instruction tokens n =
      ⟨string_to_opcode (tok_value tokens 0),
        (tokens.drop 1).map (fun t => t.value.take (MAX_TOKEN_LENGTH - 1)), n⟩ := by
  unfold make_instruction
  rw [if_pos h]

theorem check_format_ok (p : program_t) (tokens : List token_t) (n : Int)
    (labels : List label_t) (h0 : tok_is tokens 0 .TOKEN_OPCODE = true)
    (hok : ∀ t ∈ tokens, token_ok t) (hshort : tokens.length ≤ 5)
    (h : check_format p (make_instruction tokens n) tokens n = .ok labels) :
    conforms (make_instruction tokens n) = true ∧ shape_ok tokens = true ∧
    labels = p.labels ++
      (if (make_instruction tokens n).op = .OP_LABEL then
        [⟨(make_instruction tokens n).arg 0, (p.instructions.length : Int)⟩] else []) := by
  rcases tokens with _ | ⟨t0, args⟩
  · simp [tok_is] at h0
  have hargs : args.map (fun t => t.value.take (MAX_TOKEN_LENGTH - 1)) =
      args.map (fun t => t.value) := by
    apply List.map_congr_left
    intro t ht
    exact List.take_of_length_le (hok t (List.mem_cons_of_mem _ ht)).1
  have hmk : make_instruction (t0 :: args) n =
      ⟨string_to_opcode t0.value, args.map (fun t => t.value), n⟩ := by
    rw [make_instruction_short _ _ hshort]
    simp only [tok_value, List.drop_succ_cons, List.drop_zero, hargs]
    rfl
  rw [hmk] at h ⊢
  have h0t : t0.type = .TOKEN_OPCODE := by simpa [tok_is] using h0
  have hargs_ok : ∀ t ∈ args, token_ok t := fun t ht => hok t (List.mem_cons_of_mem _ ht)
  clear hok hmk hargs h0 hshort
  unfold check_format at h
  cases hopc : string_to_opcode t0.value <;>
    simp only [hopc, instruction_t.arg_count, List.length_map] at h
  · -- set
    split_ifs at h with ha hb hc
    cases h
    obtain ⟨a, b, rfl⟩ := List.length_eq_two.mp (not_not.mp ha)
    have hta : a.type = .TOKEN_IDENTIFIER := by simpa [tok_is] using hb
    have htb : b.type = .TOKEN_INTEGER ∨ b.type = .TOKEN_IDENTIFIER := by
      by_contra hcon
      simp only [not_or] at hcon
      apply hc
      simp [tok_is, hcon.1, hcon.2]
    have ha1 := token_ok_identifier a (hargs_ok a (by simp)) hta
    have hb1 : is_integer_text b.value = true ∨ is_identifier_text b.value = true := by
      rcases htb with htb | htb
      · exact Or.inl (token_ok_integer b (hargs_ok b (by simp)) htb)
      · exact Or.inr (token_ok_identifier b (hargs_ok b (by simp)) htb)
    refine ⟨?_, ?_, by simp⟩
    · simp [conforms, instruction_t.arg_count, instruction_t.arg, ha1, hb1]
    · rcases htb with htb | htb <;> simp [shape_ok, hopc, h0t, hta, htb]
  · -- out
    split_ifs at h with ha
    cases h
    obtain ⟨a, rfl⟩ := List.length_eq_one.mp (not_not.mp ha)
    refine ⟨?_, ?_, by simp⟩
    · simp [conforms, instruction_t.arg_count]
    · simp [shape_ok, hopc, h0t]
  · -- add
    split_ifs at h with ha hb
    cases h
    obtain ⟨a, b, c, rfl⟩ := List.length_eq_three.mp (not_not.mp ha)
    have hta : a.type = .TOKEN_IDENTIFIER := by simpa [tok_is] using hb
    have ha1 := token_ok_identifier a (hargs_ok a (by simp)) hta
    refine ⟨?_, ?_, by simp⟩
    · simp [conforms, instruction_t.arg_count, instruction_t.arg, ha1]
    · simp [shape_ok, hopc, h0t, hta]
  · -- sub
    split_ifs at h with ha hb
    cases h
    obtain ⟨a, b, c, rfl⟩ := List.length_eq_three.mp (not_not.mp ha)
    have hta : a.type = .TOKEN_IDENTIFIER := by simpa [tok_is] using hb
    have ha1 := token_ok_identifier a (hargs_ok a (by simp)) hta
    refine ⟨?_, ?_, by simp⟩
    · simp [conforms, instruction_t.arg_count, instruction_t.arg, ha1]
    · simp [shape_ok, hopc, h0t, hta]
  · -- mul
    split_ifs at h with ha hb
    cases h
    obtain ⟨a, b, c, rfl⟩ := List.length_eq_three.mp (not_not.mp ha)
    have hta : a.type = .TOKEN_IDENTIFIER := by simpa [tok_is] using hb
    have ha1 := token_ok_identifier a (hargs_ok a (by simp)) hta
    refine ⟨?_, ?_, by simp⟩
    · simp [conforms, instruction_t.arg_count, instruction_t.arg, ha1]
    · simp [shape_ok, hopc, h0t, hta]
  · -- div
    split_ifs at h with ha hb
    cases h
    obtain ⟨a, b, c, rfl⟩ := List.length_eq_three.mp (not_not.mp ha)
    have hta : a.type = .TOKEN_IDENTIFIER := by simpa [tok_is] using hb
    have ha1 := token_ok_identifier a (hargs_ok a (by simp)) hta
    refine ⟨?_, ?_, by simp⟩
    · simp [conforms, instruction_t.arg_count, instruction_t.arg, ha1]
    · simp [shape_ok, hopc, h0t, hta]
  · -- cmp
    split_ifs at h with ha hb hc
    cases h
    obtain ⟨a, b, c, d, rfl⟩ := length_eq_four _ (not_not.mp ha)
    have hta : a.type = .TOKEN_IDENTIFIER := by simpa [tok_is] using hb
    have htc : c.type = .TOKEN_COMPARISON := by simpa [tok_is] using hc
    have ha1 := token_ok_identifier a (hargs_ok a (by simp)) hta
    have hc1 := token_ok_comparison c (hargs_ok c (by simp)) htc
    refine ⟨?_, ?_, by simp⟩
    · simp [conforms, instruction_t.arg_count, instruction_t.arg, ha1, hc1]
    · simp [shape_ok, hopc, h0t, hta, htc]
  · -- if
    split_ifs at h with ha hb hc hd
    cases h
    obtain ⟨a, b, c, rfl⟩ := List.length_eq_three.mp (not_not.mp ha)
    have hta : a.type = .TOKEN_IDENTIFIER := by simpa [tok_is] using hb
    have hgb : b.value = "goto".toList := by simpa [tok_value] using hc
    have htc : c.type = .TOKEN_IDENTIFIER := by simpa [tok_is] using hd
    have ha1 := token_ok_identifier a (hargs_ok a (by simp)) hta
    have hc1 := token_ok_identifier c (hargs_ok c (by simp)) htc
    refine ⟨?_, ?_, by simp⟩
    · simp [conforms, instruction_t.arg_count, instruction_t.arg, ha1, hc1, hgb]
    · simp [shape_ok, hopc, h0t, hta, htc, hgb]
  · -- goto
    split_ifs at h with ha hb
    cases h
    obtain ⟨a, rfl⟩ := List.length_eq_one.mp (not_not.mp ha)
    have hta : a.type = .TOKEN_IDENTIFIER := by simpa [tok_is] using hb
    have ha1 := token_ok_identifier a (hargs_ok a (by simp)) hta
    refine ⟨?_, ?_, by simp [instruction_t.arg, tok_value, List.take_of_length_le (hargs_ok a (by simp)).1]⟩
    · simp [conforms, instruction_t.arg_count, instruction_t.arg, ha1]
    · simp [shape_ok, hopc, h0t, hta]
  · -- label
    split_ifs at h with ha hb hc
    cases h
    obtain ⟨a, rfl⟩ := List.length_eq_one.mp (not_not.mp ha)
    have hta : a.type = .TOKEN_IDENTIFIER := by simpa [tok_is] using hb
    have ha1 := token_ok_identifier a (hargs_ok a (by simp)) hta
    refine ⟨?_, ?_, by simp [instruction_t.arg, tok_value, List.take_of_length_le (hargs_ok a (by simp)).1]⟩
    · simp [conforms, instruction_t.arg_count, instruction_t.arg, ha1]
    · simp [shape_ok, hopc, h0t, hta]
  · -- halt
    split_ifs at h with ha
    cases h
    have : args = [] := List.length_eq_zero.mp (not_not.mp ha)
    subst this
    refine ⟨?_, ?_, by simp⟩
    · simp [conforms, instruction_t.arg_count]
    · simp [shape_ok, hopc, h0t]
  · -- invalid
    cases h
/-! ## Parser: lines of six tokens or more -/

theorem check_format_arity (q : program_t) (inst : instruction_t) (tokens : List token_t)
    (n : Int) (labels : List label_t) (h : check_format q inst tokens n = .ok labels) :
    inst.arg_count ≤ 4 := by
  unfold check_format at h
  split at h
  all_goals (try split_ifs at h)
  all_goals (first | omega | cases h)

theorem tok_is_take (tokens : List token_t) (m i : Nat) (ty : token_type_t) (h : i < m) :
    tok_is (tokens.take m) i ty = tok_is tokens i ty := by
  unfold tok_is
  rw [List.get?_eq_getElem?, List.get?_eq_getElem?, List.getElem?_take_of_lt h]

theorem tok_value_take (tokens : List token_t) (m i : Nat) (h : i < m) :
    tok_value (tokens.take m) i = tok_value tokens i := by
  unfold tok_value
  rw [List.get?_eq_getElem?, List.get?_eq_getElem?, List.getElem?_take_of_lt h]

/-- The format checks read the tokens of the arguments only: they give the same on the line
cut after its `arg_count` arguments, whatever line number is passed. -/
theorem check_format_truncate (q : program_t) (inst : instruction_t) (tokens : List token_t)
    (n n1 : Int) (labels : List label_t) (h : check_format q inst tokens n = .ok labels) :
    check_format q inst (tokens.take (inst.arg_count + 1)) n1 = .ok labels := by
  have hi : ∀ i ty, i ≤ inst.arg_count →
      tok_is (tokens.take (inst.arg_count + 1)) i ty = tok_is tokens i ty :=
    fun i ty hle => tok_is_take tokens _ i ty (by omega)
  have hv : ∀ i, i ≤ inst.arg_count →
      tok_value (tokens.take (inst.arg_count + 1)) i = tok_value tokens i :=
    fun i hle => tok_value_take tokens _ i (by omega)
  unfold check_format at h ⊢
  cases hop : inst.op <;> simp only [hop] at h ⊢
  · split_ifs at h with ha hb hc
    rw [if_neg ha, hi 1 _ (by omega), if_neg hb, hi 2 _ (by omega), hi 2 _ (by omega),
      if_neg hc]
    exact h
  · split_ifs at h with ha
    rw [if_neg ha]
    exact h
  · split_ifs at h with ha hb
    rw [if_neg ha, hi 1 _ (by omega), if_neg hb]
    exact h
  · split_ifs at h with ha hb
    rw [if_neg ha, hi 1 _ (by omega), if_neg hb]
    exact h
  · split_ifs at h with ha hb
    rw [if_neg ha, hi 1 _ (by omega), if_neg hb]
    exact h
  · split_ifs at h with ha hb
    rw [if_neg ha, hi 1 _ (by omega), if_neg hb]
    exact h
  · split_ifs at h with ha hb hc
    rw [if_neg ha, hi 1 _ (by omega), if_neg hb, hi 3 _ (by omega), if_neg hc]
    exact h
  · split_ifs at h with ha hb hc hd
    rw [if_neg ha, hi 1 _ (by omega), if_neg hb, hv 2 (by omega), if_neg hc,
      hi 3 _ (by omega), if_neg hd]
    exact h
  · split_ifs at h with ha hb
    rw [if_neg ha, hi 1 _ (by omega), if_neg hb]
    exact h
  · split_ifs at h with ha hb hc
    rw [if_neg ha, hi 1 _ (by omega), if_neg hb, if_neg hc, hv 1 (by omega)]
    exact h
  · split_ifs at h with ha
    rw [if_neg ha]
    exact h
  · cases h

/-- An instruction of a line of six tokens or more that passes the format checks is the
instruction of the line cut after the arguments it counts, with the line number that the copy
loop left. -/
theorem make_instruction_spill (q : program_t) (tokens : List token_t) (n : Int)
    (labels : List label_t) (hlong : 5 < tokens.length)
    (h : check_format q (make_instruction tokens n) tokens n = .ok labels) :
    (make_instruction tokens n).arg_count ≤ 4 ∧
    make_instruction tokens n =
      make_instruction (tokens.take ((make_instruction tokens n).arg_count + 1))
        (int_at (spilled_text tokens) 4) := by
  have harity := check_format_arity q _ tokens n labels h
  refine ⟨harity, ?_⟩
  have hnot : ¬ tokens.length ≤ 5 := by omega
  have hlen : ((tokens.drop 1).map (fun t => t.value.take (MAX_TOKEN_LENGTH - 1))).length =
      tokens.length - 1 := by simp
  by_cases hc : 0 ≤ int_at (spilled_text tokens) 0 ∧ int_at (spilled_text tokens) 0 ≤ 4
  · have hmk : make_instruction tokens n =
        ⟨string_to_opcode (tok_value tokens 0),
          ((tokens.drop 1).map (fun t => t.value.take (MAX_TOKEN_LENGTH - 1))).take
            (int_at (spilled_text tokens) 0).toNat, int_at (spilled_text tokens) 4⟩ := by
      unfold make_instruction
      rw [if_neg hnot, if_pos hc]
    have hk : (int_at (spilled_text tokens) 0).toNat ≤ 4 := by omega
    have hcount : (make_instruction tokens n).arg_count =
        (int_at (spilled_text tokens) 0).toNat := by
      rw [hmk]
      simp only [instruction_t.arg_count, List.length_take, hlen]
      omega
    rw [hcount]
    have hshort : (tokens.take ((int_at (spilled_text tokens) 0).toNat + 1)).length ≤ 5 := by
      rw [List.length_take]; omega
    rw [make_instruction_short _ _ hshort, hmk,
      tok_value_take tokens _ 0 (by omega)]
    congr 1
    rw [← List.map_take]
    congr 1
    rw [List.drop_take]
    simp
  · exfalso
    have hmk : (make_instruction tokens n).arg_count = tokens.length - 1 := by
      unfold make_instruction
      rw [if_neg hnot, if_neg hc]
      simp [instruction_t.arg_count]
    omega

/-- Every instruction that passes the format checks conforms to the shape table, and the label
table returned is the one of the record followed by the entry of a `label`. -/
theorem check_format_conforms (q : program_t) (tokens : List token_t) (n : Int)
    (labels : List label_t) (h0 : tok_is tokens 0 .TOKEN_OPCODE = true)
    (hok : ∀ t ∈ tokens, token_ok t)
    (h : check_format q (make_instruction tokens n) tokens n = .ok labels) :
    conforms (make_instruction tokens n) = true ∧
    labels = q.labels ++
      (if (make_instruction tokens n).op = .OP_LABEL then
        [⟨(make_instruction tokens n).arg 0, (q.instructions.length : Int)⟩] else []) := by
  by_cases hshort : tokens.length ≤ 5
  · obtain ⟨h1, -, h3⟩ := check_format_ok q tokens n labels h0 hok hshort h
    exact ⟨h1, h3⟩
  · have hlong : 5 < tokens.length := by omega
    obtain ⟨harity, hmk⟩ := make_instruction_spill q tokens n labels hlong h
    have htr := check_format_truncate q _ tokens n (int_at (spilled_text tokens) 4) labels h
    rw [hmk] at htr
    rw [← hmk] at htr
    have hshort1 : (tokens.take ((make_instruction tokens n).arg_count + 1)).length ≤ 5 := by
      rw [List.length_take]; omega
    have h01 : tok_is (tokens.take ((make_instruction tokens n).arg_count + 1)) 0
        .TOKEN_OPCODE = true := by
      rw [tok_is_take tokens _ 0 _ (by omega)]; exact h0
    have hok1 : ∀ t ∈ tokens.take ((make_instruction tokens n).arg_count + 1), token_ok t :=
      fun t ht => hok t (List.mem_of_mem_take ht)
    have hfin := check_format_ok q _ (int_at (spilled_text tokens) 4) labels h01 hok1 hshort1
      (by rw [← hmk]; exact htr)
    rw [← hmk] at hfin
    exact ⟨hfin.1, hfin.2.2⟩


/-! ## Parser: the whole source -/

theorem label_entries_append (k : Nat) (a : List instruction_t) (x : instruction_t) :
    label_entries k (a ++ [x]) =
      label_entries k a ++
        (if x.op = .OP_LABEL then [⟨x.arg 0, ((k + a.length : Nat) : Int)⟩] else []) := by
  induction a generalizing k with
  | nil => simp [label_entries]
  | cons y more ih =>
    simp only [List.cons_append, label_entries, List.length_cons]
    have : k + (more.length + 1) = k + 1 + more.length := by omega
    by_cases hy : y.op = .OP_LABEL <;> by_cases hx : x.op = .OP_LABEL <;>
      simp [ih, this, hy, hx]

theorem label_entries_mem (k : Nat) (a : List instruction_t) (l : label_t)
    (h : l ∈ label_entries k a) :
    ∃ i inst, a.get? i = some inst ∧ inst.op = .OP_LABEL ∧ inst.arg 0 = l.name ∧
      l.instruction_index = ((k + i : Nat) : Int) := by
  induction a generalizing k with
  | nil => simp [label_entries] at h
  | cons y more ih =>
    simp only [label_entries] at h
    have htail : l ∈ label_entries (k + 1) more →
        ∃ i inst, (y :: more).get? i = some inst ∧ inst.op = .OP_LABEL ∧ inst.arg 0 = l.name ∧
          l.instruction_index = ((k + i : Nat) : Int) := by
      intro hm
      obtain ⟨i, inst, hget, hop, hname, hidx⟩ := ih (k + 1) hm
      refine ⟨i + 1, inst, by simpa using hget, hop, hname, ?_⟩
      rw [hidx]; congr 1; omega
    split_ifs at h with hy
    · rcases List.mem_cons.mp h with rfl | hm
      · exact ⟨0, y, rfl, hy, rfl, by simp⟩
      · exact htail hm
    · exact htail h

theorem parse_line_conforms (p : program_t) (line : CStr) (n : Int) (p1 : program_t)
    (hp : ∀ inst ∈ p.instructions, conforms inst = true) (h : parse_line p line n = .ok p1) :
    ∀ inst ∈ p1.instructions, conforms inst = true := by
  rcases parse_line_ok p line n p1 h with
    ⟨rfl, -⟩ | ⟨tokens, labels, -, htok, h0, ⟨-, hc, -, rfl⟩ | ⟨-, -, hc, -, rfl⟩⟩
  · exact hp
  · have hok : ∀ t ∈ tokens, token_ok t :=
      fun t ht => (tokenize_line_token_ok _ _ _ htok t ht).1
    have hconf := (check_format_conforms p tokens n labels h0 hok hc).1
    intro inst hi
    rcases List.mem_append.mp hi with hi | hi
    · exact hp inst hi
    · rw [List.mem_singleton.mp hi]; exact hconf
  · have hok : ∀ t ∈ tokens, token_ok t :=
      fun t ht => (tokenize_line_token_ok _ _ _ htok t ht).1
    have hconf := (check_format_conforms _ tokens n labels h0 hok hc).1
    intro inst hi
    rcases List.mem_append.mp (List.mem_of_mem_take hi) with hi | hi
    · exact hp inst hi
    · rw [List.mem_singleton.mp hi]; exact hconf

theorem parse_lines_conforms (p : program_t) (lines : List CStr) (n : Int) (p1 : program_t)
    (hp : ∀ inst ∈ p.instructions, conforms inst = true) (h : parse_lines p lines n = .ok p1) :
    ∀ inst ∈ p1.instructions, conforms inst = true := by
  induction lines generalizing p n with
  | nil => simp only [parse_lines] at h; cases h; exact hp
  | cons line more ih =>
    simp only [parse_lines] at h
    cases hl : parse_line p line (n + 1) with
    | error e => rw [hl] at h; cases h
    | ok p2 =>
      rw [hl] at h
      exact ih p2 (n + 1) (parse_line_conforms p line (n + 1) p2 hp hl) h

/-- Every instruction of a parsed program conforms to the shape table. -/
theorem parse_program_conforms (lines : List CStr) (p : program_t)
    (h : parse_program lines = .ok p) : ∀ inst ∈ p.instructions, conforms inst = true :=
  parse_lines_conforms _ lines 0 p (fun inst hi => by cases hi) h

theorem parse_line_invariant (p : program_t) (line : CStr) (n : Int) (p1 : program_t)
    (hp : parse_invariant p) (h : parse_line p line n = .ok p1)
    (hreg : p.instructions.length + 1 < MAX_LINES ∨
      ∀ tokens, tokenize_line (trim_line line) n = .ok tokens → tokens.length ≤ 5) :
    parse_invariant p1 := by
  rcases parse_line_ok p line n p1 h with
    ⟨rfl, -⟩ | ⟨tokens, labels, -, htok, h0, ⟨-, hc, -, rfl⟩ | ⟨hlong, hlast, -⟩⟩
  · exact hp
  · have hok : ∀ t ∈ tokens, token_ok t :=
      fun t ht => (tokenize_line_token_ok _ _ _ htok t ht).1
    obtain ⟨hconf, hlab⟩ := check_format_conforms p tokens n labels h0 hok hc
    constructor
    · intro inst hi
      rcases List.mem_append.mp hi with hi | hi
      · exact hp.1 inst hi
      · rw [List.mem_singleton.mp hi]; exact hconf
    · show labels = label_entries 0 (p.instructions ++ [make_instruction tokens n])
      rw [label_entries_append, hlab, hp.2]
      simp
  · exfalso
    rcases hreg with hreg | hreg
    · omega
    · have := hreg tokens htok
      omega

theorem parse_line_length (p : program_t) (line : CStr) (n : Int) (p1 : program_t)
    (h : parse_line p line n = .ok p1) (hlt : p.instructions.length + 1 < MAX_LINES) :
    p1.instructions.length ≤ p.instructions.length + 1 := by
  rcases parse_line_ok p line n p1 h with
    ⟨rfl, -⟩ | ⟨tokens, labels, -, -, -, ⟨-, -, -, rfl⟩ | ⟨-, hlast, -⟩⟩
  · omega
  · simp
  · omega

theorem parse_lines_invariant (p : program_t) (lines : List CStr) (n : Int) (p1 : program_t)
    (hp : parse_invariant p) (h : parse_lines p lines n = .ok p1)
    (hreg : p.instructions.length + lines.length < MAX_LINES ∨
      ∀ line ∈ lines, ∀ m tokens, tokenize_line (trim_line line) m = .ok tokens →
        tokens.length ≤ 5) :
    parse_invariant p1 := by
  induction lines generalizing p n with
  | nil => simp only [parse_lines] at h; cases h; exact hp
  | cons line more ih =>
    simp only [parse_lines] at h
    cases hl : parse_line p line (n + 1) with
    | error e => rw [hl] at h; cases h
    | ok p2 =>
      rw [hl] at h
      have hinv2 : parse_invariant p2 := by
        apply parse_line_invariant p line (n + 1) p2 hp hl
        rcases hreg with hreg | hreg
        · left
          simp only [List.length_cons] at hreg
          omega
        · right
          exact fun tokens ht => hreg line (List.mem_cons_self _ _) (n + 1) tokens ht
      apply ih p2 (n + 1) hinv2 h
      rcases hreg with hreg | hreg
      · left
        simp only [List.length_cons] at hreg
        have := parse_line_length p line (n + 1) p2 hl (by omega)
        omega
      · right
        exact fun l hl1 => hreg l (List.mem_cons_of_mem _ hl1)

theorem parse_program_invariant (lines : List CStr) (p : program_t)
    (h : parse_program lines = .ok p) (hk : keeps_count lines) : parse_invariant p := by
  apply parse_lines_invariant _ lines 0 p (And.intro (fun inst hi => by cases hi) rfl) h
  rcases hk with hk | hk
  · left
    simpa using hk
  · exact Or.inr hk

theorem parse_line_shape (p : program_t) (line : CStr) (n : Int) (p1 : program_t)
    (h : parse_line p line n = .ok p1) (tokens : List token_t)
    (ht : tokenize_line (trim_line line) n = .ok tokens) (hne : tokens ≠ [])
    (hshort : tokens.length ≤ 5) :
    shape_ok tokens = true := by
  rcases parse_line_ok p line n p1 h with
    ⟨-, hnil | hnil⟩ | ⟨tokens1, labels, -, htok, h0, ⟨-, hc, -⟩ | ⟨hlong, -⟩⟩
  · rw [hnil] at ht
    simp only [tokenize_line, List.length_nil, if_true] at ht
    cases ht; exact absurd rfl hne
  · rw [hnil] at ht; cases ht; exact absurd rfl hne
  · have heq : tokens1 = tokens := by rw [htok] at ht; exact Except.ok.inj ht
    subst heq
    have hok : ∀ t ∈ tokens1, token_ok t :=
      fun t ht => (tokenize_line_token_ok _ _ _ htok t ht).1
    exact (check_format_ok p tokens1 n labels h0 hok hshort hc).2.1
  · have heq : tokens1 = tokens := by rw [htok] at ht; exact Except.ok.inj ht
    subst heq
    omega

theorem parse_lines_shape (p : program_t) (lines : List CStr) (n : Int) (p1 : program_t)
    (h : parse_lines p lines n = .ok p1) (i : Nat) (line : CStr)
    (hi : lines.get? i = some line) (tokens : List token_t)
    (ht : tokenize_line (trim_line line) (n + 1 + (i : Int)) = .ok tokens) (hne : tokens ≠ [])
    (hshort : tokens.length ≤ 5) :
    shape_ok tokens = true := by
  induction lines generalizing p n i with
  | nil => cases hi
  | cons l more ih =>
    simp only [parse_lines] at h
    cases hl : parse_line p l (n + 1) with
    | error e => rw [hl] at h; cases h
    | ok p2 =>
      rw [hl] at h
      cases i with
      | zero =>
        simp only [List.get?_cons_zero, Option.some.injEq] at hi
        subst hi
        simp only [Nat.cast_zero, add_zero] at ht
        exact parse_line_shape p l (n + 1) p2 hl tokens ht hne hshort
      | succ j =>
        simp only [List.get?_cons_succ] at hi
        refine ih p2 (n + 1) h j hi ?_
        rw [← ht]; congr 1; push_cast; ring

/-! ## Lexer: words of a line -/

theorem is_delim_eq_is_blank (c : Char) (h : c ≠ '\n' ∧ c ≠ '\r') : is_delim c = is_blank c := by
  have h1 : (c == '\n') = false := beq_eq_false_iff_ne.mpr h.1
  have h2 : (c == '\r') = false := beq_eq_false_iff_ne.mpr h.2
  unfold is_delim is_blank
  rw [h1, h2, Bool.or_false, Bool.or_false]

theorem split_words_nil : split_words [] = [] := by
  simp [split_words]

theorem split_words_dropWhile (s : CStr) (h : ∀ c ∈ s, c ≠ '\n' ∧ c ≠ '\r') :
    split_words s = split_words (s.dropWhile is_delim) := by
  induction s with
  | nil => rfl
  | cons x xs ih =>
    have hx := is_delim_eq_is_blank x (h x (List.mem_cons_self _ _))
    by_cases hb : is_blank x = true
    · rw [List.dropWhile_cons_of_pos (by rw [hx]; exact hb)]
      rw [← ih (fun c hc => h c (List.mem_cons_of_mem _ hc))]
      simp [split_words, List.splitOnP_cons, hb]
    · rw [List.dropWhile_cons_of_neg (by rw [hx]; exact hb)]

theorem splitOnP_blank_eq (l : CStr) (h : ∀ c ∈ l, c ≠ '\n' ∧ c ≠ '\r') :
    l.splitOnP is_blank =
      l.takeWhile (fun c => !is_delim c) ::
        (match l.dropWhile (fun c => !is_delim c) with
          | [] => []
          | _ :: r => r.splitOnP is_blank) := by
  induction l with
  | nil => rfl
  | cons y ys ih =>
    have hy := is_delim_eq_is_blank y (h y (List.mem_cons_self _ _))
    have ih1 := ih (fun c hc => h c (List.mem_cons_of_mem _ hc))
    by_cases hb : is_blank y = true
    · rw [List.splitOnP_cons, if_pos hb,
        List.takeWhile_cons_of_neg (by simp [hy, hb]),
        List.dropWhile_cons_of_neg (by simp [hy, hb])]
    · rw [List.splitOnP_cons, if_neg hb,
        List.takeWhile_cons_of_pos (by simp [hy, hb]),
        List.dropWhile_cons_of_pos (by simp [hy, hb]), ih1]
      rfl

theorem strtok_split_words (s : CStr) (h : ∀ c ∈ s, c ≠ '\n' ∧ c ≠ '\r') :
    (strtok s is_delim = none ∧ split_words s = []) ∨
    ∃ w rest, strtok s is_delim = some (w, rest) ∧ split_words s = w :: split_words rest ∧
      ∀ c ∈ rest, c ∈ s := by
  rw [split_words_dropWhile s h]
  have hsub : ∀ c ∈ s.dropWhile is_delim, c ∈ s :=
    fun c hc => (List.dropWhile_sublist _).subset hc
  unfold strtok
  cases ht : s.dropWhile is_delim with
  | nil => exact Or.inl ⟨rfl, split_words_nil⟩
  | cons x xs =>
    right
    rw [ht] at hsub
    have hxnd : is_delim x = false := by
      have := List.head?_dropWhile_not is_delim s
      rw [ht] at this
      simpa using this
    refine ⟨_, _, rfl, ?_, ?_⟩
    · have hne : ((x :: xs).takeWhile (fun c => !is_delim c)).isEmpty = false := by
        rw [List.takeWhile_cons_of_pos (by simp [hxnd])]; rfl
      unfold split_words
      rw [splitOnP_blank_eq (x :: xs) (fun c hc => h c (hsub c hc)), List.filter_cons]
      simp only [hne, Bool.not_false, if_true]
      congr 1
      cases hd : (x :: xs).dropWhile (fun c => !is_delim c) with
      | nil => simp
      | cons d r => simp
    · intro c hc
      apply hsub
      exact (List.dropWhile_sublist _).subset (List.mem_of_mem_drop hc)

theorem tokenize_loop_none (n : Int) (cap : Nat) : tokenize_loop n cap none = .ok [] := by
  cases cap <;> rfl

theorem tokenize_loop_words (n : Int) (cap : Nat) (s : CStr)
    (hcr : ∀ c ∈ s, c ≠ '\n' ∧ c ≠ '\r') (hcount : (split_words s).length ≤ cap)
    (hq : ∀ w ∈ split_words s, w.head? ≠ some '"') :
    tokenize_loop n cap (strtok s is_delim) = classify_words n (split_words s) := by
  induction cap generalizing s with
  | zero =>
    have : split_words s = [] := List.length_eq_zero.mp (Nat.le_zero.mp hcount)
    rw [this]
    cases strtok s is_delim <;> rfl
  | succ cap ih =>
    rcases strtok_split_words s hcr with ⟨h1, h2⟩ | ⟨w, rest, h1, h2, h3⟩
    · rw [h1, h2]; rfl
    · rw [h2] at hcount hq
      have hrec := ih rest (fun c hc => hcr c (h3 c hc))
        (by simpa using hcount) (fun v hv => hq v (List.mem_cons_of_mem _ hv))
      have hw := hq w (List.mem_cons_self _ _)
      rw [h1, h2]
      simp only [tokenize_loop, classify_words, hw, if_false, hrec]

theorem tokenize_line_eq_classify (line : CStr) (n : Int) (hlen : line.length ≤ 1023)
    (hcr : ∀ c ∈ line, c ≠ '\n' ∧ c ≠ '\r') (hcount : (split_words line).length ≤ 16)
    (hq : ∀ w ∈ split_words line, w.head? ≠ some '"') :
    tokenize_line line n = classify_words n (split_words line) := by
  unfold tokenize_line
  split_ifs with h0
  · rw [List.length_eq_zero.mp h0, split_words_nil]; rfl
  · rw [List.take_of_length_le hlen]
    exact tokenize_loop_words n 16 line hcr hcount hq
theorem classify_words_cons (n : Int) (w : CStr) (ws : List CStr) :
    classify_words n (w :: ws) =
      if word_ok w = true then
        match classify_words n ws with
        | .ok ts => .ok (⟨token_kind w, w.take (MAX_TOKEN_LENGTH - 1), n⟩ :: ts)
        | .error e => .error e
      else
        .error ⟨n, if starts_integer w = true then .invalid_integer_format else .invalid_token,
          w⟩ := by
  simp only [classify_words]
  unfold word_ok token_kind
  by_cases h1 : (string_to_comparison w).isSome = true
  · simp [h1]
  · by_cases h2 : starts_integer w = true
    · by_cases h3 : parse_integer w = INT64_MIN
      · simp [h1, h2, h3]
      · simp [h1, h2, h3]
    · by_cases h4 : string_to_opcode w = .OP_INVALID
      · by_cases h5 : is_valid_identifier w = true
        · simp [h1, h2, h4, h5]
        · simp [h1, h2, h4, h5]
      · simp [h1, h2, h4]

theorem none_of_these_not_ok (w : CStr) (h : none_of_these w = true) :
    word_ok w = false ∧ starts_integer w = false := by
  simp only [none_of_these, Bool.and_eq_true, Bool.not_eq_true', decide_eq_true_eq,
    Option.isNone_iff_eq_none] at h
  obtain ⟨⟨⟨h1, h2⟩, h3⟩, h4⟩ := h
  refine ⟨?_, h2⟩
  simp [word_ok, h1, h2, h3, h4]

theorem classify_words_ok (n : Int) (ws : List CStr) (toks : List token_t)
    (h : classify_words n ws = .ok toks) :
    toks = ws.map (fun w => ⟨token_kind w, w.take (MAX_TOKEN_LENGTH - 1), n⟩) ∧
    ∀ w ∈ ws, word_ok w = true := by
  induction ws generalizing toks with
  | nil =>
    simp only [classify_words] at h
    cases h
    exact ⟨rfl, fun w hw => by cases hw⟩
  | cons w ws ih =>
    rw [classify_words_cons] at h
    by_cases hw : word_ok w = true
    · rw [if_pos hw] at h
      cases hc : classify_words n ws with
      | error e => rw [hc] at h; cases h
      | ok ts =>
        rw [hc] at h
        cases h
        obtain ⟨h1, h2⟩ := ih ts hc
        refine ⟨by rw [h1]; rfl, ?_⟩
        intro v hv
        rcases List.mem_cons.mp hv with rfl | hv
        · exact hw
        · exact h2 v hv
    · rw [if_neg hw] at h; cases h

theorem classify_words_all_ok (n : Int) (ws : List CStr) (h : ∀ w ∈ ws, word_ok w = true) :
    classify_words n ws =
      .ok (ws.map (fun w => ⟨token_kind w, w.take (MAX_TOKEN_LENGTH - 1), n⟩)) := by
  induction ws with
  | nil => rfl
  | cons w ws ih =>
    rw [classify_words_cons, if_pos (h w (List.mem_cons_self _ _)),
      ih (fun v hv => h v (List.mem_cons_of_mem _ hv))]
    rfl

theorem classify_words_error (n : Int) (ws : List CStr) (e : error_t)
    (h : classify_words n ws = .error e) :
    e.line = n ∧ (e.message = .invalid_token ∨ e.message = .invalid_integer_format) := by
  induction ws with
  | nil => simp only [classify_words] at h; cases h
  | cons w ws ih =>
    rw [classify_words_cons] at h
    by_cases hw : word_ok w = true
    · rw [if_pos hw] at h
      cases hc : classify_words n ws with
      | error e1 => rw [hc] at h; cases h; exact ih hc
      | ok ts => rw [hc] at h; cases h
    · rw [if_neg hw] at h
      cases h
      refine ⟨rfl, ?_⟩
      by_cases hs : starts_integer w = true
      · right; simp [hs]
      · left; simp [hs]

theorem classify_words_first_bad (n : Int) (pre : List CStr) (w : CStr) (post : List CStr)
    (hpre : ∀ v ∈ pre, word_ok v = true) (hw : none_of_these w = true) :
    classify_words n (pre ++ w :: post) = .error ⟨n, .invalid_token, w⟩ := by
  induction pre with
  | nil =>
    obtain ⟨h1, h2⟩ := none_of_these_not_ok w hw
    rw [List.nil_append, classify_words_cons]
    simp [h1, h2]
  | cons v pre ih =>
    rw [List.cons_append, classify_words_cons, if_pos (hpre v (List.mem_cons_self _ _)),
      ih (fun u hu => hpre u (List.mem_cons_of_mem _ hu))]

/-! ## Lexer: string literals -/

theorem strrchr_none (w : CStr) (q : Char) (h : q ∉ w) : strrchr w q = none := by
  induction w with
  | nil => rfl
  | cons x xs ih =>
    simp only [List.mem_cons, not_or] at h
    simp only [strrchr, ih h.2]
    rw [if_neg (fun hx => h.1 hx.symm)]

theorem strrchr_append_last (c : CStr) (q : Char) (h : q ∉ c) :
    strrchr (c ++ [q]) q = some c.length := by
  induction c with
  | nil => simp [strrchr]
  | cons x xs ih =>
    simp only [List.mem_cons, not_or] at h
    show strrchr (x :: (xs ++ [q])) q = _
    simp only [strrchr, ih h.2, List.length_cons]

theorem strchr_append_first (c : CStr) (q : Char) (post : CStr) (h : q ∉ c) :
    strchr (c ++ q :: post) q = some c.length := by
  induction c with
  | nil => simp [strchr]
  | cons x xs ih =>
    simp only [List.mem_cons, not_or] at h
    show strchr (x :: (xs ++ q :: post)) q = _
    simp only [strchr, ih h.2, List.length_cons]
    rw [if_neg (fun hx => h.1 hx.symm)]
    rfl

theorem strchr_isSome_of_mem (c : CStr) (q : Char) (h : q ∈ c) : (strchr c q).isSome = true := by
  induction c with
  | nil => cases h
  | cons x xs ih =>
    simp only [strchr]
    by_cases hx : x = q
    · simp [hx]
    · rw [if_neg hx]
      rcases List.mem_cons.mp h with h | h
      · exact absurd h.symm hx
      · have := ih h
        cases hs : strchr xs q with
        | none => rw [hs] at this; cases this
        | some i => rfl

theorem string_literal_same_word (n : Int) (c rest : CStr) (hne : c ≠ []) (hq : '"' ∉ c)
    (hlen : c.length ≤ 511) : string_literal n ('"' :: (c ++ ['"'])) rest = .ok c := by
  have hpos : 0 < c.length := List.length_pos.mpr hne
  simp only [string_literal, List.drop_succ_cons, List.drop_zero, strrchr_append_last c '"' hq,
    hpos, if_true, MAX_STRING_LENGTH]
  rw [List.take_left' rfl, List.take_of_length_le hlen]

theorem string_literal_later_word (n : Int) (w c1 post : CStr) (hw : '"' ∉ w) (hc : '"' ∉ c1)
    (hlen : w.length + 1 + c1.length ≤ 511) :
    string_literal n ('"' :: w) (c1 ++ '"' :: post) = .ok (w ++ ' ' :: c1) := by
  have hw511 : w.length ≤ 511 := by omega
  have htok : strtok (c1 ++ '"' :: post) (fun _ => false) = some (c1 ++ '"' :: post, []) := by
    unfold strtok
    cases hcp : c1 ++ '"' :: post with
    | nil => simp at hcp
    | cons x xs =>
      have hd : xs.dropWhile (fun _ => true) = [] := List.dropWhile_eq_nil_iff.mpr (by simp)
      simp [hd]
  simp only [string_literal, List.drop_succ_cons, List.drop_zero, strrchr_none w '"' hw,
    MAX_STRING_LENGTH, htok, strchr_append_first c1 '"' post hc,
    List.take_of_length_le hw511]
  have h1 : w.length < 512 - 1 := by omega
  rw [if_pos h1]
  simp only [List.take_left' rfl]
  rw [List.take_of_length_le (by omega)]
  simp

theorem strtok_cons (x : Char) (t : CStr) (hx : is_delim x = false) :
    strtok (x :: t) is_delim =
      some ((x :: t).takeWhile (fun c => !is_delim c),
        ((x :: t).dropWhile (fun c => !is_delim c)).drop 1) := by
  unfold strtok
  rw [List.dropWhile_cons_of_neg (by simp [hx])]

theorem strtok_all (t : CStr) (hne : t ≠ []) (h : ∀ x ∈ t, is_delim x = false) :
    strtok t is_delim = some (t, []) := by
  cases t with
  | nil => exact absurd rfl hne
  | cons x xs =>
    have h1 : (x :: xs).takeWhile (fun c => !is_delim c) = x :: xs :=
      List.takeWhile_eq_self_iff.mpr (fun y hy => by simp [h y hy])
    have h2 : (x :: xs).dropWhile (fun c => !is_delim c) = [] :=
      List.dropWhile_eq_nil_iff.mpr (fun y hy => by simp [h y hy])
    rw [strtok_cons x xs (h x (List.mem_cons_self _ _)), h1, h2]
    rfl

theorem strtok_first (w : CStr) (d : Char) (r : CStr) (hne : w ≠ [])
    (h : ∀ x ∈ w, is_delim x = false) (hd : is_delim d = true) :
    strtok (w ++ d :: r) is_delim = some (w, r) := by
  cases w with
  | nil => exact absurd rfl hne
  | cons x xs =>
    have hall : ∀ y ∈ x :: xs, (fun c => !is_delim c) y = true := fun y hy => by simp [h y hy]
    have h1 : ((x :: xs) ++ d :: r).takeWhile (fun c => !is_delim c) = x :: xs := by
      rw [List.takeWhile_append_of_pos hall, List.takeWhile_cons_of_neg (by simp [hd])]
      simp
    have h2 : ((x :: xs) ++ d :: r).dropWhile (fun c => !is_delim c) = d :: r := by
      rw [List.dropWhile_append_of_pos hall, List.dropWhile_cons_of_neg (by simp [hd])]
    rw [List.cons_append, strtok_cons x _ (h x (List.mem_cons_self _ _)), ← List.cons_append,
      h1, h2]
    rfl

theorem is_delim_false (x : Char) (h1 : x ≠ ' ') (h2 : x ≠ '\t' ∧ x ≠ '\n' ∧ x ≠ '\r') :
    is_delim x = false := by
  simp [is_delim, h1, h2.1, h2.2.1, h2.2.2]

/-- The string branch on a literal with non-empty contents `c` that holds no double quote and
whose only delimiter characters are spaces: the token text is `c`. -/
theorem tokenize_loop_string (n : Int) (cap : Nat) (c : CStr) (hne : c ≠ []) (hq : '"' ∉ c)
    (hws : ∀ x ∈ c, x ≠ '\t' ∧ x ≠ '\n' ∧ x ≠ '\r') (hlen : c.length ≤ 255) :
    tokenize_loop n (cap + 1) (strtok ('"' :: (c ++ ['"'])) is_delim) =
      .ok [⟨.TOKEN_STRING, c, n⟩] := by
  have hqd : is_delim '"' = false := by decide
  by_cases hsp : ' ' ∈ c
  · obtain ⟨w, c1, hc, hw⟩ := List.eq_append_cons_of_mem hsp
    subst hc
    have hwd : ∀ x ∈ '"' :: w, is_delim x = false := by
      intro x hx
      rcases List.mem_cons.mp hx with rfl | hx
      · exact hqd
      · exact is_delim_false x (fun h => hw (h ▸ hx)) (hws x (by simp [hx]))
    have hst : strtok ('"' :: (w ++ ' ' :: c1 ++ ['"'])) is_delim =
        some ('"' :: w, c1 ++ ['"']) := by
      have := strtok_first ('"' :: w) ' ' (c1 ++ ['"']) (by simp) hwd (by decide)
      simpa using this
    have hqw : '"' ∉ w := fun h => hq (by simp [h])
    have hqc : '"' ∉ c1 := fun h => hq (by simp [h])
    simp only [List.length_append, List.length_cons] at hlen
    have hlit := string_literal_later_word n w c1 [] hqw hqc (by omega)
    rw [hst]
    simp only [tokenize_loop, List.head?_cons, if_true, hlit, MAX_TOKEN_LENGTH]
    rw [List.take_of_length_le (by simp; omega)]
  · have hall : ∀ x ∈ '"' :: (c ++ ['"']), is_delim x = false := by
      intro x hx
      simp only [List.mem_cons, List.mem_append, List.mem_singleton, List.not_mem_nil,
        or_false] at hx
      rcases hx with rfl | hx | rfl
      · exact hqd
      · exact is_delim_false x (fun h => hsp (h ▸ hx)) (hws x hx)
      · exact hqd
    rw [strtok_all _ (by simp) hall]
    have hlit := string_literal_same_word n c [] hne hq (by omega)
    simp only [tokenize_loop, List.head?_cons, if_true, hlit, MAX_TOKEN_LENGTH]
    rw [List.take_of_length_le hlen]
theorem tokenize_line_out_line (n : Int) (c : CStr) (hne : c ≠ []) (hq : '"' ∉ c)
    (hws : ∀ x ∈ c, x ≠ '\t' ∧ x ≠ '\n' ∧ x ≠ '\r') (hlen : c.length ≤ 255) :
    tokenize_line (out_line c) n =
      .ok [⟨.TOKEN_OPCODE, ['o', 'u', 't'], n⟩, ⟨.TOKEN_STRING, c, n⟩] := by
  have hlen1 : (out_line c).length ≤ 1023 := by
    simp only [out_line, List.length_append, List.length_cons, List.length_nil]; omega
  have hne1 : (out_line c).length ≠ 0 := by
    simp [out_line]
  have hst : strtok (out_line c) is_delim = some (['o', 'u', 't'], '"' :: (c ++ ['"'])) := by
    have := strtok_first ['o', 'u', 't'] ' ' ('"' :: (c ++ ['"'])) (by simp) (by decide)
      (by decide)
    simpa [out_line] using this
  unfold tokenize_line
  rw [if_neg hne1, List.take_of_length_le hlen1, hst]
  have h1 : (['o', 'u', 't'] : CStr).head? = some '"' ↔ False := by decide
  have h2 : (string_to_comparison ['o', 'u', 't']).isSome = true ↔ False := by decide
  have h3 : starts_integer ['o', 'u', 't'] = true ↔ False := by decide
  have h4 : string_to_opcode ['o', 'u', 't'] ≠ .OP_INVALID := by decide
  have h5 : (['o', 'u', 't'] : CStr).take (MAX_TOKEN_LENGTH - 1) = ['o', 'u', 't'] := by decide
  have hrec := tokenize_loop_string n 14 c hne hq hws hlen
  show tokenize_loop n (15 + 1) (some (['o', 'u', 't'], '"' :: (c ++ ['"']))) = _
  rw [tokenize_loop, hrec]
  simp only [h1, h2, h3, h4, h5, if_false, if_true, ne_eq, not_false_eq_true]

theorem trim_line_out_line (c : CStr) (hws : ∀ x ∈ c, x ≠ '\t' ∧ x ≠ '\n' ∧ x ≠ '\r') :
    trim_line (out_line c) = out_line c := by
  unfold trim_line
  have h1 : (out_line c).takeWhile (fun x => x != '\n') = out_line c := by
    apply List.takeWhile_eq_self_iff.mpr
    intro x hx
    simp only [out_line, List.mem_append, List.mem_cons, List.mem_singleton, List.not_mem_nil,
      or_false] at hx
    rcases hx with ((rfl | rfl | rfl | rfl | rfl) | hx) | rfl
    · decide
    · decide
    · decide
    · decide
    · decide
    · simpa using (hws x hx).2.1
    · decide
  rw [h1]
  show ('o' :: ([ 'u', 't', ' ', '"'] ++ c ++ ['"'])).dropWhile isspace = _
  rw [List.dropWhile_cons_of_neg (by decide)]
  rfl

theorem parse_line_out_line (p : program_t) (n : Int) (c : CStr) (hne : c ≠ []) (hq : '"' ∉ c)
    (hws : ∀ x ∈ c, x ≠ '\t' ∧ x ≠ '\n' ∧ x ≠ '\r') (hlen : c.length ≤ 255)
    (hcount : p.instructions.length + 1 < MAX_LINES) :
    parse_line p (out_line c) n =
      .ok ⟨p.instructions ++ [⟨.OP_OUT, [c], n⟩], p.vars, p.labels⟩ := by
  have htok := tokenize_line_out_line n c hne hq hws hlen
  have hne1 : (out_line c).length ≠ 0 := by simp [out_line]
  have htake : c.take (MAX_TOKEN_LENGTH - 1) = c := List.take_of_length_le hlen
  have hop : string_to_opcode ['o', 'u', 't'] = .OP_OUT := by decide
  have hmk : make_instruction
      [⟨.TOKEN_OPCODE, ['o', 'u', 't'], n⟩, ⟨.TOKEN_STRING, c, n⟩] n = ⟨.OP_OUT, [c], n⟩ := by
    rw [make_instruction_short _ _ (by simp)]
    simp only [tok_value, List.get?_cons_zero, hop, List.drop_succ_cons,
      List.drop_zero, List.map_cons, List.map_nil, htake]
  have hcf : ∀ toks, check_format p ⟨.OP_OUT, [c], n⟩ toks n = .ok p.labels := by
    intro toks
    simp [check_format, instruction_t.arg_count]
  have h0 : tok_is [⟨.TOKEN_OPCODE, ['o', 'u', 't'], n⟩, ⟨.TOKEN_STRING, c, n⟩] 0
      .TOKEN_OPCODE = true := by
    simp [tok_is]
  have hge : ¬ (p.instructions.length + 1 ≥ MAX_LINES) := by omega
  unfold parse_line
  simp only [trim_line_out_line c hws, hne1, if_false, htok, List.length_cons, List.length_nil,
    h0, hmk, hcf, hge, Bool.not_true, Bool.false_eq_true]
  simp

theorem parse_program_out_line (c : CStr) (hne : c ≠ []) (hq : '"' ∉ c)
    (hws : ∀ x ∈ c, x ≠ '\t' ∧ x ≠ '\n' ∧ x ≠ '\r') (hlen : c.length ≤ 255) :
    parse_program [out_line c] = .ok ⟨[out_instruction c], [], []⟩ := by
  have h := parse_line_out_line ⟨[], [], []⟩ (0 + 1) c hne hq hws hlen (by decide)
  simp only [parse_program, parse_lines, h]
  rfl

theorem parse_invariant_label (p : program_t) (hinv : parse_invariant p) (l : label_t)
    (hl : l ∈ p.labels) :
    0 ≤ l.instruction_index ∧ l.instruction_index < (p.instructions.length : Int) ∧
    ∃ inst, p.instructions.get? l.instruction_index.toNat = some inst ∧
      inst.op = .OP_LABEL ∧ inst.arg 0 = l.name := by
  rw [hinv.2] at hl
  obtain ⟨i, inst, hget, hop, hname, hidx⟩ := label_entries_mem 0 _ l hl
  have hlt : i < p.instructions.length := by
    rcases Nat.lt_or_ge i p.instructions.length with hlt | hge
    · exact hlt
    · rw [List.get?_eq_none.mpr hge] at hget; cases hget
  simp only [Nat.zero_add] at hidx
  rw [hidx]
  refine ⟨Int.natCast_nonneg i, by exact_mod_cast hlt, inst, ?_, hop, hname⟩
  simpa using hget

theorem find_label_mem (p : program_t) (name : CStr) (h : find_label p name ≠ -1) :
    ∃ l ∈ p.labels, l.name = name ∧ find_label p name = l.instruction_index := by
  unfold find_label at h ⊢
  cases hf : p.labels.find? (fun l => l.name = name) with
  | none => rw [hf] at h; exact absurd rfl h
  | some l =>
    refine ⟨l, List.mem_of_find?_eq_some hf, ?_, rfl⟩
    simpa using List.find?_some hf

/-! ## Executor: the variable table -/

theorem find_none_of_not_has (vars : List variable_t) (name : CStr)
    (h : has_variable vars name = false) : vars.find? (fun v => v.name = name) = none := by
  rw [List.find?_eq_none]
  intro v hv
  unfold has_variable at h
  rw [List.any_eq_false] at h
  exact h v hv

theorem has_of_find_some (vars : List variable_t) (name : CStr) (v : variable_t)
    (h : vars.find? (fun v => v.name = name) = some v) : has_variable vars name = true := by
  unfold has_variable
  rw [List.any_eq_true]
  exact ⟨v, List.mem_of_find?_eq_some h, (List.find?_eq_some.mp h).1⟩

theorem value_of_append_zero (vars : List variable_t) (n m : CStr) :
    value_of (vars ++ [⟨n, 0⟩]) m = value_of vars m := by
  unfold value_of
  rw [List.find?_append]
  cases hf : vars.find? (fun v => v.name = m) with
  | some v => rfl
  | none =>
    simp only [Option.none_or, List.find?_cons, List.find?_nil]
    by_cases hn : n = m
    · simp [hn]
    · simp [hn]

theorem get_variable_value_ok (p : program_t) (name : CStr) (v : Int) (p1 : program_t)
    (h : get_variable_value p name = .ok (v, p1)) :
    v = value_of p.vars name ∧ p1.instructions = p.instructions ∧ p1.labels = p.labels ∧
    (p1 = p ∧ has_variable p.vars name = true ∨
      has_variable p.vars name = false ∧ p.vars.length < MAX_VARIABLES ∧
        p1.vars = p.vars ++ [⟨name.take (MAX_TOKEN_LENGTH - 1), 0⟩]) := by
  unfold get_variable_value at h
  unfold value_of
  cases hf : p.vars.find? (fun v => v.name = name) with
  | some w =>
    rw [hf] at h
    simp only [Except.ok.injEq, Prod.mk.injEq] at h
    obtain ⟨rfl, rfl⟩ := h
    exact ⟨rfl, rfl, rfl, Or.inl ⟨rfl, has_of_find_some _ _ _ hf⟩⟩
  | none =>
    rw [hf] at h
    simp only at h
    split_ifs at h with hfull
    simp only [Except.ok.injEq, Prod.mk.injEq] at h
    obtain ⟨rfl, rfl⟩ := h
    refine ⟨rfl, rfl, rfl, Or.inr ⟨?_, by omega, rfl⟩⟩
    by_contra hh
    have hh1 : has_variable p.vars name = true := by simpa using hh
    unfold has_variable at hh1
    rw [List.any_eq_true] at hh1
    obtain ⟨w, hw, hname⟩ := hh1
    rw [List.find?_eq_none] at hf
    exact hf w hw hname

theorem get_variable_value_preserves (p : program_t) (name : CStr) (v : Int) (p1 : program_t)
    (h : get_variable_value p name = .ok (v, p1)) (m : CStr) :
    value_of p1.vars m = value_of p.vars m := by
  rcases (get_variable_value_ok p name v p1 h).2.2.2 with ⟨rfl, -⟩ | ⟨-, -, hv⟩
  · rfl
  · rw [hv, value_of_append_zero]

theorem get_variable_value_error (p : program_t) (name : CStr) (e : error_t)
    (h : get_variable_value p name = .error e) :
    e = ⟨0, .too_many_variables, []⟩ ∧ has_variable p.vars name = false ∧
      MAX_VARIABLES ≤ p.vars.length := by
  unfold get_variable_value at h
  cases hf : p.vars.find? (fun v => v.name = name) with
  | some w => rw [hf] at h; cases h
  | none =>
    rw [hf] at h
    simp only at h
    split_ifs at h with hfull
    cases h
    refine ⟨rfl, ?_, hfull⟩
    unfold has_variable
    rw [List.any_eq_false]
    rw [List.find?_eq_none] at hf
    exact hf

theorem get_variable_value_room (p : program_t) (name : CStr)
    (h : has_variable p.vars name = true ∨ p.vars.length < MAX_VARIABLES) :
    ∃ p1, get_variable_value p name = .ok (value_of p.vars name, p1) := by
  cases hg : get_variable_value p name with
  | ok r =>
    obtain ⟨v, p1⟩ := r
    rw [(get_variable_value_ok p name v p1 hg).1]
    exact ⟨p1, rfl⟩
  | error e =>
    obtain ⟨-, h1, h2⟩ := get_variable_value_error p name e hg
    rcases h with h | h
    · rw [h1] at h; cases h
    · omega

theorem get_variable_value_length (p : program_t) (name : CStr) (v : Int) (p1 : program_t)
    (h : get_variable_value p name = .ok (v, p1)) :
    p.vars.length ≤ p1.vars.length ∧ p1.vars.length ≤ p.vars.length + 1 ∧
    ∀ m, has_variable p.vars m = true → has_variable p1.vars m = true := by
  rcases (get_variable_value_ok p name v p1 h).2.2.2 with ⟨rfl, -⟩ | ⟨-, -, hv⟩
  · exact ⟨le_refl _, by omega, fun m hm => hm⟩
  · rw [hv]
    refine ⟨by simp, by simp, ?_⟩
    intro m hm
    unfold has_variable at hm ⊢
    rw [List.any_append, hm]; rfl

theorem value_of_append_other (vars : List variable_t) (n m : CStr) (v : Int) (h : n ≠ m) :
    value_of (vars ++ [⟨n, v⟩]) m = value_of vars m := by
  unfold value_of
  rw [List.find?_append]
  cases hf : vars.find? (fun v => v.name = m) with
  | some w => rfl
  | none => simp [h]

theorem value_of_append_new (vars : List variable_t) (n : CStr) (v : Int)
    (h : has_variable vars n = false) : value_of (vars ++ [⟨n, v⟩]) n = v := by
  unfold value_of
  rw [List.find?_append, find_none_of_not_has vars n h]
  simp

theorem update_variable_none (name : CStr) (v : Int) (vars : List variable_t) :
    update_variable name v vars = none ↔ has_variable vars name = false := by
  induction vars with
  | nil => simp [update_variable, has_variable]
  | cons w more ih =>
    unfold has_variable at ih ⊢
    simp only [update_variable, List.any_cons]
    by_cases hw : w.name = name
    · simp [hw]
    · simp [hw, ih]

theorem update_variable_some (name : CStr) (v : Int) (vars vars1 : List variable_t)
    (h : update_variable name v vars = some vars1) :
    value_of vars1 name = v ∧ (∀ m, m ≠ name → value_of vars1 m = value_of vars m) ∧
    vars1.length = vars.length ∧ vars1.map (fun w => w.name) = vars.map (fun w => w.name) := by
  induction vars generalizing vars1 with
  | nil => simp [update_variable] at h
  | cons w more ih =>
    simp only [update_variable] at h
    by_cases hw : w.name = name
    · rw [if_pos hw] at h
      cases h
      refine ⟨by simp [value_of, hw], ?_, rfl, rfl⟩
      intro m hm
      have : ¬ w.name = m := fun h1 => hm (h1 ▸ hw.symm ▸ rfl)
      simp [value_of, List.find?_cons, this]
    · rw [if_neg hw] at h
      cases hu : update_variable name v more with
      | none => rw [hu] at h; cases h
      | some l =>
        rw [hu] at h
        cases h
        obtain ⟨h1, h2, h3, h4⟩ := ih l hu
        refine ⟨?_, ?_, by simp [h3], by simp [h4]⟩
        · have := h1
          unfold value_of at this ⊢
          simpa [List.find?_cons, hw] using this
        · intro m hm
          have := h2 m hm
          unfold value_of at this ⊢
          by_cases hwm : w.name = m
          · simp [List.find?_cons, hwm]
          · simpa [List.find?_cons, hwm] using this

theorem set_variable_value_ok (p : program_t) (name : CStr) (v : Int) (p1 : program_t)
    (h : set_variable_value p name v = .ok p1) :
    p1.instructions = p.instructions ∧ p1.labels = p.labels ∧
    (has_variable p.vars name = true ∧ update_variable name v p.vars = some p1.vars ∨
      has_variable p.vars name = false ∧ p.vars.length < MAX_VARIABLES ∧
        p1.vars = p.vars ++ [⟨name.take (MAX_TOKEN_LENGTH - 1), v⟩]) := by
  unfold set_variable_value at h
  cases hu : update_variable name v p.vars with
  | some l =>
    rw [hu] at h
    cases h
    refine ⟨rfl, rfl, Or.inl ⟨?_, rfl⟩⟩
    by_contra hh
    have := (update_variable_none name v p.vars).mpr (by simpa using hh)
    rw [hu] at this; cases this
  | none =>
    rw [hu] at h
    simp only at h
    split_ifs at h with hfull
    cases h
    exact ⟨rfl, rfl, Or.inr ⟨(update_variable_none name v p.vars).mp hu, by omega, rfl⟩⟩

theorem set_variable_value_value (p : program_t) (name : CStr) (v : Int) (p1 : program_t)
    (h : set_variable_value p name v = .ok p1) (hlen : name.length ≤ MAX_TOKEN_LENGTH - 1) :
    value_of p1.vars name = v ∧ ∀ m, m ≠ name → value_of p1.vars m = value_of p.vars m := by
  have htake : name.take (MAX_TOKEN_LENGTH - 1) = name := List.take_of_length_le hlen
  rcases (set_variable_value_ok p name v p1 h).2.2 with ⟨-, hu⟩ | ⟨hno, -, hv⟩
  · have := update_variable_some name v p.vars p1.vars hu
    exact ⟨this.1, this.2.1⟩
  · rw [hv, htake]
    exact ⟨value_of_append_new _ _ _ hno,
      fun m hm => value_of_append_other _ _ _ _ (fun h1 => hm h1.symm)⟩

theorem set_variable_value_error (p : program_t) (name : CStr) (v : Int) (e : error_t)
    (h : set_variable_value p name v = .error e) :
    e = ⟨0, .too_many_variables, []⟩ ∧ has_variable p.vars name = false ∧
      MAX_VARIABLES ≤ p.vars.length := by
  unfold set_variable_value at h
  cases hu : update_variable name v p.vars with
  | some l => rw [hu] at h; cases h
  | none =>
    rw [hu] at h
    simp only at h
    split_ifs at h with hfull
    cases h
    exact ⟨rfl, (update_variable_none name v p.vars).mp hu, hfull⟩

theorem set_variable_value_room (p : program_t) (name : CStr) (v : Int)
    (h : has_variable p.vars name = true ∨ p.vars.length < MAX_VARIABLES) :
    ∃ p1, set_variable_value p name v = .ok p1 := by
  cases hs : set_variable_value p name v with
  | ok p1 => exact ⟨p1, rfl⟩
  | error e =>
    obtain ⟨-, h1, h2⟩ := set_variable_value_error p name v e hs
    rcases h with h | h
    · rw [h1] at h; cases h
    · omega

theorem resolve_value_ok (p : program_t) (arg : CStr) (v : Int) (p1 : program_t)
    (h : resolve_value p arg = .ok (v, p1)) :
    v = resolved p.vars arg ∧ p1.instructions = p.instructions ∧ p1.labels = p.labels ∧
    (∀ m, value_of p1.vars m = value_of p.vars m) ∧
    p.vars.length ≤ p1.vars.length ∧ p1.vars.length ≤ p.vars.length + 1 ∧
    (p1 = p ∨ starts_integer arg = false ∧ has_variable p.vars arg = false ∧
        p1.vars = p.vars ++ [⟨arg.take (MAX_TOKEN_LENGTH - 1), 0⟩]) := by
  unfold resolve_value at h
  unfold resolved
  by_cases hs : starts_integer arg = true
  · rw [if_pos hs] at h
    simp only [Except.ok.injEq, Prod.mk.injEq] at h
    obtain ⟨rfl, rfl⟩ := h
    simp [hs]
  · rw [if_neg hs] at h
    have h1 := get_variable_value_ok p arg v p1 h
    have h2 := get_variable_value_length p arg v p1 h
    refine ⟨by simp [hs, h1.1], h1.2.1, h1.2.2.1, get_variable_value_preserves p arg v p1 h,
      h2.1, h2.2.1, ?_⟩
    rcases h1.2.2.2 with ⟨hp, -⟩ | ⟨hno, -, hv⟩
    · exact Or.inl hp
    · exact Or.inr ⟨by simpa using hs, hno, hv⟩

theorem resolve_value_error (p : program_t) (arg : CStr) (e : error_t)
    (h : resolve_value p arg = .error e) :
    e = ⟨0, .too_many_variables, []⟩ ∧ MAX_VARIABLES ≤ p.vars.length := by
  unfold resolve_value at h
  split_ifs at h
  have := get_variable_value_error p arg e h
  exact ⟨this.1, this.2.2⟩

theorem resolve_value_room (p : program_t) (arg : CStr) (h : p.vars.length < MAX_VARIABLES) :
    ∃ p1, resolve_value p arg = .ok (resolved p.vars arg, p1) := by
  cases hr : resolve_value p arg with
  | ok r =>
    obtain ⟨v, p1⟩ := r
    rw [(resolve_value_ok p arg v p1 hr).1]
    exact ⟨p1, rfl⟩
  | error e =>
    have := (resolve_value_error p arg e hr).2
    omega

theorem resolved_congr (vars1 vars2 : List variable_t) (arg : CStr)
    (h : ∀ m, value_of vars1 m = value_of vars2 m) : resolved vars1 arg = resolved vars2 arg := by
  unfold resolved
  rw [h arg]

/-! ## Executor: one instruction -/

theorem step_current (s : exec_t) (inst : instruction_t)
    (h : current_instruction s = some inst) : step s = exec_instruction s inst := by
  unfold current_instruction at h
  split_ifs at h with hpc
  have hlt : s.pc.toNat < s.program.instructions.length := by
    rcases Nat.lt_or_ge s.pc.toNat s.program.instructions.length with hlt | hge
    · exact hlt
    · rw [List.get?_eq_none.mpr hge] at h; cases h
  have hlt1 : s.pc < (s.program.instructions.length : Int) := by omega
  unfold step
  rw [if_pos hlt1, if_neg (by omega), h]

theorem current_instruction_lt (s : exec_t) (inst : instruction_t)
    (h : current_instruction s = some inst) :
    0 ≤ s.pc ∧ s.pc < (s.program.instructions.length : Int) ∧ inst ∈ s.program.instructions := by
  unfold current_instruction at h
  split_ifs at h with hpc
  have hlt : s.pc.toNat < s.program.instructions.length := by
    rcases Nat.lt_or_ge s.pc.toNat s.program.instructions.length with hlt | hge
    · exact hlt
    · rw [List.get?_eq_none.mpr hge] at h; cases h
  exact ⟨hpc, by omega, List.get?_mem h⟩

/-- The two operand reads of an arithmetic or comparison instruction: either both succeed,
with the values the table gives and no change of any value, or the table is full. -/
theorem operands_cases (p : program_t) (a b : CStr) :
    (∃ p1 p2, resolve_value p a = .ok (resolved p.vars a, p1) ∧
      resolve_value p1 b = .ok (resolved p.vars b, p2) ∧
      p2.instructions = p.instructions ∧ p2.labels = p.labels ∧
      (∀ m, value_of p2.vars m = value_of p.vars m) ∧
      p2.vars.length ≤ p.vars.length + 2 ∧
      ∃ extra, p2.vars = p.vars ++ extra ∧ extra.length ≤ 2 ∧
        ∀ v ∈ extra, v.value = 0 ∧
          (v.name = a.take (MAX_TOKEN_LENGTH - 1) ∨ v.name = b.take (MAX_TOKEN_LENGTH - 1))) ∨
    (resolve_value p a = .error too_many ∧ MAX_VARIABLES ≤ p.vars.length) ∨
    (∃ p1, resolve_value p a = .ok (resolved p.vars a, p1) ∧
      resolve_value p1 b = .error too_many ∧ MAX_VARIABLES ≤ p.vars.length + 1 ∧
      p1.instructions = p.instructions ∧ p1.labels = p.labels ∧
      (∀ m, value_of p1.vars m = value_of p.vars m)) := by
  cases h1 : resolve_value p a with
  | error e =>
    obtain ⟨rfl, hfull⟩ := resolve_value_error p a e h1
    exact Or.inr (Or.inl ⟨rfl, hfull⟩)
  | ok r1 =>
    obtain ⟨va, p1⟩ := r1
    obtain ⟨rfl, hi1, hl1, hv1, hlo1, hhi1, hx1⟩ := resolve_value_ok p a va p1 h1
    cases h2 : resolve_value p1 b with
    | error e =>
      obtain ⟨rfl, hfull⟩ := resolve_value_error p1 b e h2
      exact Or.inr (Or.inr ⟨p1, rfl, h2, by omega, hi1, hl1, hv1⟩)
    | ok r2 =>
      obtain ⟨vb, p2⟩ := r2
      obtain ⟨rfl, hi2, hl2, hv2, hlo2, hhi2, hx2⟩ := resolve_value_ok p1 b vb p2 h2
      left
      refine ⟨p1, p2, rfl, ?_, hi2.trans hi1, hl2.trans hl1,
        fun m => (hv2 m).trans (hv1 m), by omega, ?_⟩
      · rw [h2, resolved_congr p1.vars p.vars b hv1]
      · rcases hx1 with rfl | ⟨-, -, hvars1⟩
        · rcases hx2 with rfl | ⟨-, -, hvars2⟩
          · exact ⟨[], by simp, by simp, by simp⟩
          · exact ⟨[⟨b.take (MAX_TOKEN_LENGTH - 1), 0⟩], hvars2, by simp, by simp⟩
        · rcases hx2 with rfl | ⟨-, -, hvars2⟩
          · exact ⟨[⟨a.take (MAX_TOKEN_LENGTH - 1), 0⟩], hvars1, by simp, by simp⟩
          · refine ⟨[⟨a.take (MAX_TOKEN_LENGTH - 1), 0⟩, ⟨b.take (MAX_TOKEN_LENGTH - 1), 0⟩],
              by rw [hvars2, hvars1]; simp, by simp, ?_⟩
            intro v hv
            simp only [List.mem_cons, List.mem_singleton, List.not_mem_nil, or_false] at hv
            rcases hv with rfl | rfl
            · exact ⟨rfl, Or.inl rfl⟩
            · exact ⟨rfl, Or.inr rfl⟩

/-- The write of the destination: either it succeeds, the destination then reads as the value
written and every other name reads as before, or the table is full. -/
theorem store_cases (p : program_t) (d : CStr) (r : Int) :
    (∃ p1, set_variable_value p d r = .ok p1 ∧
      p1.instructions = p.instructions ∧ p1.labels = p.labels ∧
      (d.length ≤ MAX_TOKEN_LENGTH - 1 →
        value_of p1.vars d = r ∧ ∀ m, m ≠ d → value_of p1.vars m = value_of p.vars m)) ∨
    (set_variable_value p d r = .error too_many ∧ MAX_VARIABLES ≤ p.vars.length) := by
  cases h : set_variable_value p d r with
  | error e =>
    obtain ⟨rfl, -, hfull⟩ := set_variable_value_error p d r e h
    exact Or.inr ⟨rfl, hfull⟩
  | ok p1 =>
    have h1 := set_variable_value_ok p d r p1 h
    exact Or.inl ⟨p1, rfl, h1.1, h1.2.1, fun hlen => set_variable_value_value p d r p1 h hlen⟩

theorem exec_arith_cases (s : exec_t) (inst : instruction_t) (f : Int → Int → Int) :
    (∃ s1, exec_arith s inst f = .next s1 ∧ s1.pc = s.pc + 1 ∧ s1.out = s.out ∧
      s1.program.instructions = s.program.instructions ∧
      s1.program.labels = s.program.labels ∧
      ((inst.arg 0).length ≤ MAX_TOKEN_LENGTH - 1 →
        value_of s1.program.vars (inst.arg 0) =
          wrap64 (f (resolved s.program.vars (inst.arg 1))
            (resolved s.program.vars (inst.arg 2))) ∧
        ∀ m, m ≠ inst.arg 0 → value_of s1.program.vars m = value_of s.program.vars m)) ∨
    (∃ s1, exec_arith s inst f = .fail too_many s1 ∧
      MAX_VARIABLES ≤ s.program.vars.length + 2) := by
  unfold exec_arith
  rcases operands_cases s.program (inst.arg 1) (inst.arg 2) with
    ⟨p1, p2, h1, h2, hi, hl, hv, hlen, -⟩ | ⟨h1, hfull⟩ | ⟨p1, h1, h2, hfull, -, -, -⟩
  · rw [h1]; simp only [h2]
    rcases store_cases p2 (inst.arg 0)
        (wrap64 (f (resolved s.program.vars (inst.arg 1))
          (resolved s.program.vars (inst.arg 2)))) with ⟨p3, h3, hi3, hl3, hval⟩ | ⟨h3, hfull⟩
    · left
      rw [h3]
      refine ⟨_, rfl, rfl, rfl, hi3.trans hi, hl3.trans hl, ?_⟩
      intro hd
      obtain ⟨hv1, hv2⟩ := hval hd
      exact ⟨hv1, fun m hm => (hv2 m hm).trans (hv m)⟩
    · right
      rw [h3]
      exact ⟨_, rfl, by omega⟩
  · right
    rw [h1]
    exact ⟨_, rfl, by omega⟩
  · right
    rw [h1]; simp only [h2]
    exact ⟨_, rfl, by omega⟩

theorem exec_cmp_cases (s : exec_t) (inst : instruction_t) (hop : inst.op = .OP_CMP)
    (op : comparison_t) (hc : string_to_comparison (inst.arg 2) = some op) :
    (∃ s1, exec_instruction s inst = .next s1 ∧ s1.pc = s.pc + 1 ∧ s1.out = s.out ∧
      s1.program.instructions = s.program.instructions ∧
      s1.program.labels = s.program.labels ∧
      ((inst.arg 0).length ≤ MAX_TOKEN_LENGTH - 1 →
        value_of s1.program.vars (inst.arg 0) =
          comparison_value op (resolved s.program.vars (inst.arg 1))
            (resolved s.program.vars (inst.arg 3)) ∧
        ∀ m, m ≠ inst.arg 0 → value_of s1.program.vars m = value_of s.program.vars m)) ∨
    (∃ s1, exec_instruction s inst = .fail too_many s1 ∧
      MAX_VARIABLES ≤ s.program.vars.length + 2) := by
  unfold exec_instruction
  simp only [hop]
  rcases operands_cases s.program (inst.arg 1) (inst.arg 3) with
    ⟨p1, p2, h1, h2, hi, hl, hv, hlen, -⟩ | ⟨h1, hfull⟩ | ⟨p1, h1, h2, hfull, -, -, -⟩
  · rw [h1]; simp only [h2, hc]
    have hres : compare_values (some op) (resolved s.program.vars (inst.arg 1))
        (resolved s.program.vars (inst.arg 3)) =
        some (comparison_value op (resolved s.program.vars (inst.arg 1))
          (resolved s.program.vars (inst.arg 3))) := by
      cases op <;> rfl
    rw [hres]
    simp only
    rcases store_cases p2 (inst.arg 0)
        (comparison_value op (resolved s.program.vars (inst.arg 1))
          (resolved s.program.vars (inst.arg 3))) with ⟨p3, h3, hi3, hl3, hval⟩ | ⟨h3, hfull⟩
    · left
      rw [h3]
      refine ⟨_, rfl, rfl, rfl, hi3.trans hi, hl3.trans hl, ?_⟩
      intro hd
      obtain ⟨hv1, hv2⟩ := hval hd
      exact ⟨hv1, fun m hm => (hv2 m hm).trans (hv m)⟩
    · right
      rw [h3]
      exact ⟨_, rfl, by omega⟩
  · right
    rw [h1]
    exact ⟨_, rfl, by omega⟩
  · right
    rw [h1]; simp only [h2]
    exact ⟨_, rfl, by omega⟩

theorem exec_div_cases (s : exec_t) (inst : instruction_t) (hop : inst.op = .OP_DIV) :
    (resolved s.program.vars (inst.arg 2) ≠ 0 ∧
      ∃ s1, exec_instruction s inst = .next s1 ∧ s1.pc = s.pc + 1 ∧ s1.out = s.out ∧
      s1.program.instructions = s.program.instructions ∧
      s1.program.labels = s.program.labels ∧
      ((inst.arg 0).length ≤ MAX_TOKEN_LENGTH - 1 →
        value_of s1.program.vars (inst.arg 0) =
          wrap64 (Int.tdiv (resolved s.program.vars (inst.arg 1))
            (resolved s.program.vars (inst.arg 2))) ∧
        ∀ m, m ≠ inst.arg 0 → value_of s1.program.vars m = value_of s.program.vars m)) ∨
    (resolved s.program.vars (inst.arg 2) = 0 ∧
      ∃ s1, exec_instruction s inst =
          .fail ⟨inst.line_number, .runtime_division_by_zero, []⟩ s1 ∧
        s1.pc = s.pc ∧ s1.out = s.out ∧
        s1.program.instructions = s.program.instructions ∧
        s1.program.labels = s.program.labels ∧
        (∀ m, value_of s1.program.vars m = value_of s.program.vars m) ∧
        ∃ extra, s1.program.vars = s.program.vars ++ extra ∧ extra.length ≤ 2 ∧
          ∀ v ∈ extra, v.value = 0 ∧
            (v.name = (inst.arg 1).take (MAX_TOKEN_LENGTH - 1) ∨
              v.name = (inst.arg 2).take (MAX_TOKEN_LENGTH - 1))) ∨
    (∃ s1, exec_instruction s inst = .fail too_many s1 ∧
      MAX_VARIABLES ≤ s.program.vars.length + 2 ∧
      (resolved s.program.vars (inst.arg 2) = 0 →
        MAX_VARIABLES ≤ s.program.vars.length + 1)) ∨
    (resolved s.program.vars (inst.arg 1) = INT64_MIN ∧
      resolved s.program.vars (inst.arg 2) = -1 ∧
      ∃ s1, exec_instruction s inst = .fail ⟨0, .division_overflow_trap, []⟩ s1 ∧
        s1.pc = s.pc ∧ s1.out = s.out ∧
        s1.program.instructions = s.program.instructions ∧
        s1.program.labels = s.program.labels ∧
        (∀ m, value_of s1.program.vars m = value_of s.program.vars m)) := by
  unfold exec_instruction
  simp only [hop]
  rcases operands_cases s.program (inst.arg 1) (inst.arg 2) with
    ⟨p1, p2, h1, h2, hi, hl, hv, hlen, hextra⟩ | ⟨h1, hfull⟩ | ⟨p1, h1, h2, hfull, -, -, -⟩
  · rw [h1]; simp only [h2]
    by_cases hb : resolved s.program.vars (inst.arg 2) = 0
    · right; left
      rw [if_pos hb]
      exact ⟨hb, _, rfl, rfl, rfl, hi, hl, hv, hextra⟩
    · rw [if_neg hb]
      by_cases htrap : resolved s.program.vars (inst.arg 1) = INT64_MIN ∧
          resolved s.program.vars (inst.arg 2) = -1
      · right; right; right
        rw [if_pos htrap]
        exact ⟨htrap.1, htrap.2, _, rfl, rfl, rfl, hi, hl, hv⟩
      · rw [if_neg htrap]
        rcases store_cases p2 (inst.arg 0)
            (wrap64 (Int.tdiv (resolved s.program.vars (inst.arg 1))
              (resolved s.program.vars (inst.arg 2)))) with
          ⟨p3, h3, hi3, hl3, hval⟩ | ⟨h3, hfull⟩
        · left
          rw [h3]
          refine ⟨hb, _, rfl, rfl, rfl, hi3.trans hi, hl3.trans hl, ?_⟩
          intro hd
          obtain ⟨hv1, hv2⟩ := hval hd
          exact ⟨hv1, fun m hm => (hv2 m hm).trans (hv m)⟩
        · right; right; left
          rw [h3]
          exact ⟨_, rfl, by omega, fun h0 => absurd h0 hb⟩
  · right; right; left
    rw [h1]
    exact ⟨_, rfl, by omega, fun _ => by omega⟩
  · right; right; left
    rw [h1]; simp only [h2]
    exact ⟨_, rfl, by omega, fun _ => by omega⟩

theorem exec_arithmetic_cases (s : exec_t) (inst : instruction_t)
    (hop : inst.op = .OP_ADD ∨ inst.op = .OP_SUB ∨ inst.op = .OP_MUL ∨
      (inst.op = .OP_DIV ∧ resolved s.program.vars (inst.arg 2) ≠ 0 ∧
        ¬ (resolved s.program.vars (inst.arg 1) = INT64_MIN ∧
          resolved s.program.vars (inst.arg 2) = -1))) :
    (∃ s1, exec_instruction s inst = .next s1 ∧ s1.pc = s.pc + 1 ∧ s1.out = s.out ∧
      s1.program.instructions = s.program.instructions ∧
      s1.program.labels = s.program.labels ∧
      ((inst.arg 0).length ≤ MAX_TOKEN_LENGTH - 1 →
        value_of s1.program.vars (inst.arg 0) =
          wrap64 (arith_result inst.op (resolved s.program.vars (inst.arg 1))
            (resolved s.program.vars (inst.arg 2))) ∧
        ∀ m, m ≠ inst.arg 0 → value_of s1.program.vars m = value_of s.program.vars m)) ∨
    (∃ s1, exec_instruction s inst = .fail too_many s1 ∧
      MAX_VARIABLES ≤ s.program.vars.length + 2) := by
  rcases hop with hop | hop | hop | ⟨hop, hnz, hnt⟩
  · have h : exec_instruction s inst = exec_arith s inst (fun a b => a + b) := by
      unfold exec_instruction; simp only [hop]
    rw [h, hop]
    exact exec_arith_cases s inst (fun a b => a + b)
  · have h : exec_instruction s inst = exec_arith s inst (fun a b => a - b) := by
      unfold exec_instruction; simp only [hop]
    rw [h, hop]
    exact exec_arith_cases s inst (fun a b => a - b)
  · have h : exec_instruction s inst = exec_arith s inst (fun a b => a * b) := by
      unfold exec_instruction; simp only [hop]
    rw [h, hop]
    exact exec_arith_cases s inst (fun a b => a * b)
  · rcases exec_div_cases s inst hop with
      ⟨-, s1, h1, hrest⟩ | ⟨hz, -⟩ | ⟨s1, h1, hfull, -⟩ | ⟨ha, hb, -⟩
    · rw [hop]
      exact Or.inl ⟨s1, h1, hrest⟩
    · exact absurd hz hnz
    · exact Or.inr ⟨s1, h1, hfull⟩
    · exact absurd ⟨ha, hb⟩ hnt

theorem find_label_congr (p q : program_t) (h : p.labels = q.labels) (name : CStr) :
    find_label p name = find_label q name := by
  unfold find_label
  rw [h]

theorem exec_if_cases (s : exec_t) (inst : instruction_t) (hop : inst.op = .OP_IF) :
    (∃ p1, get_variable_value s.program (inst.arg 0) =
        .ok (value_of s.program.vars (inst.arg 0), p1) ∧
      p1.instructions = s.program.instructions ∧ p1.labels = s.program.labels ∧
      (∀ m, value_of p1.vars m = value_of s.program.vars m) ∧
      (p1 = s.program ∨ has_variable s.program.vars (inst.arg 0) = false ∧
        p1.vars = s.program.vars ++ [⟨(inst.arg 0).take (MAX_TOKEN_LENGTH - 1), 0⟩]) ∧
      exec_instruction s inst =
        if value_of s.program.vars (inst.arg 0) ≠ 0 then
          if find_label s.program (inst.arg 2) = -1 then
            .fail ⟨inst.line_number, .undefined_label, inst.arg 2⟩ { s with program := p1 }
          else .next { s with program := p1, pc := find_label s.program (inst.arg 2) }
        else .next { s with program := p1, pc := s.pc + 1 }) ∨
    (exec_instruction s inst = .fail too_many s ∧
      has_variable s.program.vars (inst.arg 0) = false ∧
      MAX_VARIABLES ≤ s.program.vars.length) := by
  unfold exec_instruction
  simp only [hop]
  cases hg : get_variable_value s.program (inst.arg 0) with
  | error e =>
    obtain ⟨rfl, hno, hfull⟩ := get_variable_value_error _ _ e hg
    exact Or.inr ⟨rfl, hno, hfull⟩
  | ok r =>
    obtain ⟨v, p1⟩ := r
    obtain ⟨rfl, hi, hl, hx⟩ := get_variable_value_ok _ _ v p1 hg
    left
    refine ⟨p1, rfl, hi, hl, get_variable_value_preserves _ _ _ p1 hg, ?_, ?_⟩
    · rcases hx with ⟨hp, -⟩ | ⟨hno, -, hv⟩
      · exact Or.inl hp
      · exact Or.inr ⟨hno, hv⟩
    · simp only [find_label_congr p1 s.program hl]

theorem exec_goto_eq (s : exec_t) (inst : instruction_t) (hop : inst.op = .OP_GOTO) :
    exec_instruction s inst =
      if find_label s.program (inst.arg 0) = -1 then
        .fail ⟨inst.line_number, .undefined_label, inst.arg 0⟩ s
      else .next { s with pc := find_label s.program (inst.arg 0) } := by
  unfold exec_instruction
  simp only [hop]

theorem exec_label_eq (s : exec_t) (inst : instruction_t) (hop : inst.op = .OP_LABEL) :
    exec_instruction s inst = .next { s with pc := s.pc + 1 } := by
  unfold exec_instruction
  simp only [hop]


/-! ## Executor: outcomes of a validated program -/

theorem exec_instruction_fail_pc (s : exec_t) (inst : instruction_t) (e : error_t) (s1 : exec_t)
    (h : exec_instruction s inst = .fail e s1) : s1.pc = s.pc ∧ s1.out = s.out := by
  unfold exec_instruction at h
  split at h
  all_goals (try unfold exec_arith at h)
  all_goals (try simp only at h)
  all_goals (repeat' split at h)
  all_goals (first | (cases h; exact ⟨rfl, rfl⟩) | cases h)

theorem exec_set_cases (s : exec_t) (inst : instruction_t) (hop : inst.op = .OP_SET) :
    (∃ s1, exec_instruction s inst = .next s1 ∧ s1.pc = s.pc + 1 ∧ s1.out = s.out ∧
      s1.program.instructions = s.program.instructions ∧
      s1.program.labels = s.program.labels ∧
      ((inst.arg 0).length ≤ MAX_TOKEN_LENGTH - 1 →
        value_of s1.program.vars (inst.arg 0) = resolved s.program.vars (inst.arg 1) ∧
        ∀ m, m ≠ inst.arg 0 → value_of s1.program.vars m = value_of s.program.vars m)) ∨
    (∃ s1, exec_instruction s inst = .fail too_many s1 ∧
      MAX_VARIABLES ≤ s.program.vars.length + 1) := by
  unfold exec_instruction
  simp only [hop]
  cases h1 : resolve_value s.program (inst.arg 1) with
  | error e =>
    obtain ⟨rfl, hfull⟩ := resolve_value_error _ _ e h1
    exact Or.inr ⟨_, rfl, by omega⟩
  | ok r =>
    obtain ⟨v, p1⟩ := r
    obtain ⟨rfl, hi, hl, hv, -, hlen, -⟩ := resolve_value_ok _ _ v p1 h1
    simp only
    rcases store_cases p1 (inst.arg 0) (resolved s.program.vars (inst.arg 1)) with
      ⟨p2, h2, hi2, hl2, hval⟩ | ⟨h2, hfull⟩
    · left
      rw [h2]
      refine ⟨_, rfl, rfl, rfl, hi2.trans hi, hl2.trans hl, ?_⟩
      intro hd
      obtain ⟨hv1, hv2⟩ := hval hd
      exact ⟨hv1, fun m hm => (hv2 m hm).trans (hv m)⟩
    · right
      rw [h2]
      exact ⟨_, rfl, by omega⟩

theorem exec_out_cases (s : exec_t) (inst : instruction_t) (hop : inst.op = .OP_OUT) :
    (∃ s1, exec_instruction s inst = .next s1 ∧ s1.pc = s.pc + 1 ∧
      s1.program.instructions = s.program.instructions ∧
      s1.program.labels = s.program.labels ∧
      (∀ m, value_of s1.program.vars m = value_of s.program.vars m)) ∨
    (∃ s1, exec_instruction s inst = .fail too_many s1 ∧
      MAX_VARIABLES ≤ s.program.vars.length) := by
  unfold exec_instruction
  simp only [hop]
  split_ifs with hraw
  · exact Or.inl ⟨_, rfl, rfl, rfl, rfl, fun _ => rfl⟩
  · cases h1 : resolve_value s.program (inst.arg 0) with
    | error e =>
      obtain ⟨rfl, hfull⟩ := resolve_value_error _ _ e h1
      exact Or.inr ⟨_, rfl, hfull⟩
    | ok r =>
      obtain ⟨v, p1⟩ := r
      obtain ⟨-, hi, hl, hv, -⟩ := resolve_value_ok _ _ v p1 h1
      exact Or.inl ⟨_, rfl, rfl, hi, hl, hv⟩

/-- Every outcome of one instruction: the loop goes on with the same instructions and labels
and the counter either advanced by one or set to the index of the label of a jump; or the
instruction is `halt`; or the instruction fails, with the counter unchanged, on a full table,
on a zero divisor, on a label without entry, on a `cmp` without operator, or on `OP_INVALID`. -/
theorem exec_instruction_outcome (s : exec_t) (inst : instruction_t) :
    (∃ s1, exec_instruction s inst = .next s1 ∧
      s1.program.instructions = s.program.instructions ∧
      s1.program.labels = s.program.labels ∧
      (s1.pc = s.pc + 1 ∨
        (inst.op = .OP_IF ∧ s1.pc = find_label s.program (inst.arg 2) ∧
          find_label s.program (inst.arg 2) ≠ -1) ∨
        (inst.op = .OP_GOTO ∧ s1.pc = find_label s.program (inst.arg 0) ∧
          find_label s.program (inst.arg 0) ≠ -1))) ∨
    (exec_instruction s inst = .done s ∧ inst.op = .OP_HALT) ∨
    (∃ e s1, exec_instruction s inst = .fail e s1 ∧ s1.pc = s.pc ∧
      (e = too_many ∨
        (e.message = .runtime_division_by_zero ∨ e.message = .division_overflow_trap) ∨
        (e.message = .undefined_label ∧
          ((inst.op = .OP_IF ∧ find_label s.program (inst.arg 2) = -1) ∨
            (inst.op = .OP_GOTO ∧ find_label s.program (inst.arg 0) = -1))) ∨
        (e.message = .invalid_comparison_operator ∧ inst.op = .OP_CMP ∧
          string_to_comparison (inst.arg 2) = none) ∨
        (e.message = .unknown_instruction ∧ inst.op = .OP_INVALID))) := by
  have hfail : ∀ e s1, exec_instruction s inst = .fail e s1 → s1.pc = s.pc :=
    fun e s1 h => (exec_instruction_fail_pc s inst e s1 h).1
  have harith : inst.op = .OP_ADD ∨ inst.op = .OP_SUB ∨ inst.op = .OP_MUL ∨
      (inst.op = .OP_DIV ∧ resolved s.program.vars (inst.arg 2) ≠ 0 ∧
        ¬ (resolved s.program.vars (inst.arg 1) = INT64_MIN ∧
          resolved s.program.vars (inst.arg 2) = -1)) → _ :=
    fun hop => exec_arithmetic_cases s inst hop
  cases hop : inst.op with
  | OP_SET =>
    rcases exec_set_cases s inst hop with ⟨s1, h, hpc, -, hi, hl, -⟩ | ⟨s1, h, -⟩
    · exact Or.inl ⟨s1, h, hi, hl, Or.inl hpc⟩
    · exact Or.inr (Or.inr ⟨_, s1, h, hfail _ _ h, Or.inl rfl⟩)
  | OP_OUT =>
    rcases exec_out_cases s inst hop with ⟨s1, h, hpc, hi, hl, -⟩ | ⟨s1, h, -⟩
    · exact Or.inl ⟨s1, h, hi, hl, Or.inl hpc⟩
    · exact Or.inr (Or.inr ⟨_, s1, h, hfail _ _ h, Or.inl rfl⟩)
  | OP_ADD =>
    rcases harith (Or.inl hop) with ⟨s1, h, hpc, -, hi, hl, -⟩ | ⟨s1, h, -⟩
    · exact Or.inl ⟨s1, h, hi, hl, Or.inl hpc⟩
    · exact Or.inr (Or.inr ⟨_, s1, h, hfail _ _ h, Or.inl rfl⟩)
  | OP_SUB =>
    rcases harith (Or.inr (Or.inl hop)) with ⟨s1, h, hpc, -, hi, hl, -⟩ | ⟨s1, h, -⟩
    · exact Or.inl ⟨s1, h, hi, hl, Or.inl hpc⟩
    · exact Or.inr (Or.inr ⟨_, s1, h, hfail _ _ h, Or.inl rfl⟩)
  | OP_MUL =>
    rcases harith (Or.inr (Or.inr (Or.inl hop))) with ⟨s1, h, hpc, -, hi, hl, -⟩ | ⟨s1, h, -⟩
    · exact Or.inl ⟨s1, h, hi, hl, Or.inl hpc⟩
    · exact Or.inr (Or.inr ⟨_, s1, h, hfail _ _ h, Or.inl rfl⟩)
  | OP_DIV =>
    rcases exec_div_cases s inst hop with
      ⟨-, s1, h, hpc, -, hi, hl, -⟩ | ⟨-, s1, h, hpc, -⟩ | ⟨s1, h, -⟩ | ⟨-, -, s1, h, hpc, -⟩
    · exact Or.inl ⟨s1, h, hi, hl, Or.inl hpc⟩
    · exact Or.inr (Or.inr ⟨_, s1, h, hpc, Or.inr (Or.inl (Or.inl rfl))⟩)
    · exact Or.inr (Or.inr ⟨_, s1, h, hfail _ _ h, Or.inl rfl⟩)
    · exact Or.inr (Or.inr ⟨_, s1, h, hpc, Or.inr (Or.inl (Or.inr rfl))⟩)
  | OP_CMP =>
    cases hc : string_to_comparison (inst.arg 2) with
    | some op =>
      rcases exec_cmp_cases s inst hop op hc with ⟨s1, h, hpc, -, hi, hl, -⟩ | ⟨s1, h, -⟩
      · exact Or.inl ⟨s1, h, hi, hl, Or.inl hpc⟩
      · exact Or.inr (Or.inr ⟨_, s1, h, hfail _ _ h, Or.inl rfl⟩)
    | none =>
      right; right
      have hex : ∃ e s1, exec_instruction s inst = .fail e s1 ∧
          (e = too_many ∨ e.message = .invalid_comparison_operator) := by
        unfold exec_instruction
        simp only [hop, hc]
        rcases operands_cases s.program (inst.arg 1) (inst.arg 3) with
          ⟨p1, p2, h1, h2, -⟩ | ⟨h1, -⟩ | ⟨p1, h1, h2, -⟩
        · rw [h1]; simp only [h2, compare_values]
          exact ⟨_, _, rfl, Or.inr rfl⟩
        · rw [h1]
          exact ⟨_, _, rfl, Or.inl rfl⟩
        · rw [h1]; simp only [h2]
          exact ⟨_, _, rfl, Or.inl rfl⟩
      obtain ⟨e, s1, h, he⟩ := hex
      refine ⟨e, s1, h, hfail _ _ h, ?_⟩
      rcases he with he | he
      · exact Or.inl he
      · exact Or.inr (Or.inr (Or.inr (Or.inl ⟨he, rfl, rfl⟩)))
  | OP_IF =>
    rcases exec_if_cases s inst hop with ⟨p1, -, hi, hl, -, -, heq⟩ | ⟨heq, -, -⟩
    · by_cases hcnd : value_of s.program.vars (inst.arg 0) ≠ 0
      · rw [if_pos hcnd] at heq
        by_cases hf : find_label s.program (inst.arg 2) = -1
        · rw [if_pos hf] at heq
          exact Or.inr (Or.inr ⟨_, _, heq, rfl,
            Or.inr (Or.inr (Or.inl ⟨rfl, Or.inl ⟨rfl, hf⟩⟩))⟩)
        · rw [if_neg hf] at heq
          exact Or.inl ⟨_, heq, hi, hl, Or.inr (Or.inl ⟨rfl, rfl, hf⟩)⟩
      · rw [if_neg hcnd] at heq
        exact Or.inl ⟨_, heq, hi, hl, Or.inl rfl⟩
    · exact Or.inr (Or.inr ⟨_, _, heq, rfl, Or.inl rfl⟩)
  | OP_GOTO =>
    have heq := exec_goto_eq s inst hop
    by_cases hf : find_label s.program (inst.arg 0) = -1
    · rw [if_pos hf] at heq
      exact Or.inr (Or.inr ⟨_, _, heq, rfl,
        Or.inr (Or.inr (Or.inl ⟨rfl, Or.inr ⟨rfl, hf⟩⟩))⟩)
    · rw [if_neg hf] at heq
      exact Or.inl ⟨_, heq, rfl, rfl, Or.inr (Or.inr ⟨rfl, rfl, hf⟩)⟩
  | OP_LABEL =>
    exact Or.inl ⟨_, exec_label_eq s inst hop, rfl, rfl, Or.inl rfl⟩
  | OP_HALT =>
    refine Or.inr (Or.inl ⟨?_, rfl⟩)
    unfold exec_instruction
    simp only [hop]
  | OP_INVALID =>
    refine Or.inr (Or.inr ⟨⟨inst.line_number, .unknown_instruction, []⟩, s, ?_, rfl,
      Or.inr (Or.inr (Or.inr (Or.inr ⟨rfl, rfl⟩)))⟩)
    unfold exec_instruction
    simp only [hop]
/-- In a parsed program every label that `find_label` finds is bound to the index of an
instruction of the program. -/
theorem find_label_in_range (p : program_t) (hinv : parse_invariant p) (name : CStr)
    (h : find_label p name ≠ -1) :
    0 ≤ find_label p name ∧ find_label p name < (p.instructions.length : Int) := by
  obtain ⟨l, hl, -, heq⟩ := find_label_mem p name h
  obtain ⟨h0, h1, -⟩ := parse_invariant_label p hinv l hl
  rw [heq]
  exact ⟨h0, h1⟩

theorem step_safe (p : program_t) (hinv : parse_invariant p)
    (hval : validate_program p = .ok ()) (s : exec_t) (hs : state_of_run p s) :
    safe_outcome p (step s) := by
  obtain ⟨hi, hl, h0, hle⟩ := hs
  by_cases hlt : s.pc < (s.program.instructions.length : Int)
  · have hn : s.pc.toNat < s.program.instructions.length := by omega
    obtain ⟨inst, hget⟩ : ∃ inst, s.program.instructions.get? s.pc.toNat = some inst :=
      ⟨_, List.get?_eq_get hn⟩
    have hcur : current_instruction s = some inst := by
      unfold current_instruction
      rw [if_pos h0, hget]
    have hmem : inst ∈ p.instructions := by
      rw [← hi]; exact List.get?_mem hget
    have hconf := hinv.1 inst hmem
    have hvi := validate_instructions_ok p _ (validate_program_ok p hval).2.1 inst hmem
    have hfl : ∀ name, find_label s.program name = find_label p name :=
      fun name => find_label_congr _ _ hl name
    rw [hi] at hlt
    rw [step_current s inst hcur]
    rcases exec_instruction_outcome s inst with
      ⟨s1, h, hi1, hl1, hpc⟩ | ⟨h, -⟩ | ⟨e, s1, h, hpc, hk⟩
    · rw [h]
      refine ⟨hi1.trans hi, hl1.trans hl, ?_⟩
      rcases hpc with hpc | ⟨-, hpc, hne⟩ | ⟨-, hpc, hne⟩
      · rw [hpc]; omega
      · rw [hfl] at hpc hne
        obtain ⟨ha, hb⟩ := find_label_in_range p hinv _ hne
        rw [hpc]; omega
      · rw [hfl] at hpc hne
        obtain ⟨ha, hb⟩ := find_label_in_range p hinv _ hne
        rw [hpc]; omega
    · rw [h]
      exact ⟨hi, hl, h0, hle⟩
    · rw [h]
      rcases hk with rfl | hk | ⟨-, hk⟩ | ⟨-, hop, hc⟩ | ⟨-, hop⟩
      · exact ⟨Or.inl rfl, by rw [hpc]; exact h0, by rw [hpc]; exact hle⟩
      · exact ⟨Or.inr (Or.inl hk), by rw [hpc]; exact h0, by rw [hpc]; exact hle⟩
      · exfalso
        unfold validate_instruction at hvi
        rcases hk with ⟨hop, hf⟩ | ⟨hop, hf⟩
        · rw [hfl] at hf
          simp only [hop, hf, if_true] at hvi
          cases hvi
        · rw [hfl] at hf
          simp only [hop, hf, if_true] at hvi
          cases hvi
      · exfalso
        unfold conforms at hconf
        simp [hop, hc] at hconf
      · exfalso
        unfold conforms at hconf
        simp [hop] at hconf
  · have hstep : step s = .fail ⟨0, .program_ended_without_halt, []⟩ s := by
      unfold step
      rw [if_neg hlt]
    rw [hstep]
    exact ⟨Or.inr (Or.inr rfl), h0, hle⟩

theorem run_safe (p : program_t) (hinv : parse_invariant p)
    (hval : validate_program p = .ok ()) (fuel : Nat) (s : exec_t) (hs : state_of_run p s) :
    safe_outcome p (run fuel s) := by
  induction fuel generalizing s with
  | zero => exact hs
  | succ k ih =>
    have h1 := step_safe p hinv hval s hs
    unfold run
    cases hstep : step s with
    | next s1 =>
      rw [hstep] at h1
      exact ih s1 h1
    | done s1 =>
      rw [hstep] at h1
      exact h1
    | fail e s1 =>
      rw [hstep] at h1
      exact h1

theorem expected_failure_ne (e : error_t) (h : expected_failure e) :
    e.message ≠ .undefined_label ∧ e.message ≠ .unknown_instruction ∧
    e.message ≠ .invalid_comparison_operator ∧ e.message ≠ .invalid_memory_access := by
  rcases h with h | (h | h) | h <;> rw [h] <;>
    exact ⟨by decide, by decide, by decide, by decide⟩

/-! ## Parser: capacity checks -/

theorem check_format_labels_length (p : program_t) (inst : instruction_t)
    (tokens : List token_t) (n : Int) (labels : List label_t)
    (h : check_format p inst tokens n = .ok labels) (hp : p.labels.length ≤ MAX_LABELS) :
    labels.length ≤ MAX_LABELS := by
  unfold check_format at h
  split at h
  all_goals (try split_ifs at h)
  all_goals (first
    | (cases h; exact hp)
    | (cases h; simp only [List.length_append, List.length_singleton]; omega)
    | cases h)

theorem parse_line_capacity (p : program_t) (line : CStr) (n : Int) (p1 : program_t)
    (h : parse_line p line n = .ok p1)
    (hp : p.instructions.length < MAX_LINES ∧ p.labels.length ≤ MAX_LABELS) :
    p1.instructions.length < MAX_LINES ∧ p1.labels.length ≤ MAX_LABELS := by
  rcases parse_line_ok p line n p1 h with
    ⟨rfl, -⟩ | ⟨tokens, labels, -, -, -, ⟨-, hc, hlt, rfl⟩ | ⟨-, -, hc, hlt, rfl⟩⟩
  · exact hp
  · refine ⟨?_, check_format_labels_length p _ tokens n labels hc hp.2⟩
    simp only [List.length_append, List.length_singleton]
    omega
  · refine ⟨?_, check_format_labels_length _ _ tokens n labels hc hp.2⟩
    simp only [List.length_take]
    have hm : (MAX_LINES : Int) = 1024 := rfl
    have hm1 : MAX_LINES = 1024 := rfl
    omega

theorem parse_lines_capacity (p : program_t) (lines : List CStr) (n : Int) (p1 : program_t)
    (h : parse_lines p lines n = .ok p1)
    (hp : p.instructions.length < MAX_LINES ∧ p.labels.length ≤ MAX_LABELS) :
    p1.instructions.length < MAX_LINES ∧ p1.labels.length ≤ MAX_LABELS := by
  induction lines generalizing p n with
  | nil =>
    simp only [parse_lines] at h
    cases h; exact hp
  | cons line more ih =>
    simp only [parse_lines] at h
    cases h1 : parse_line p line (n + 1) with
    | error e => rw [h1] at h; cases h
    | ok p2 =>
      rw [h1] at h
      exact ih p2 (n + 1) h (parse_line_capacity p line (n + 1) p2 h1 hp)

theorem parse_line_halt (p : program_t) (n : Int) :
    parse_line p "halt".toList n =
      if p.instructions.length + 1 ≥ MAX_LINES then .error ⟨n, .program_too_long, []⟩
      else .ok ⟨p.instructions ++ [halt_instruction n], p.vars, p.labels⟩ := rfl

theorem parse_line_label (p : program_t) (n : Int) :
    parse_line p "label a".toList n =
      if p.labels.length ≥ MAX_LABELS then .error ⟨n, .too_many_labels, []⟩
      else if p.instructions.length + 1 ≥ MAX_LINES then .error ⟨n, .program_too_long, []⟩
      else .ok ⟨p.instructions ++ [label_instruction n], p.vars,
        p.labels ++ [⟨"a".toList, (p.instructions.length : Int)⟩]⟩ := by
  have ht : tokenize_line (trim_line "label a".toList) n =
      .ok [⟨.TOKEN_OPCODE, "label".toList, n⟩, ⟨.TOKEN_IDENTIFIER, "a".toList, n⟩] := rfl
  have hc : check_format p (label_instruction n)
      [⟨.TOKEN_OPCODE, "label".toList, n⟩, ⟨.TOKEN_IDENTIFIER, "a".toList, n⟩] n =
      if p.labels.length ≥ MAX_LABELS then .error ⟨n, .too_many_labels, []⟩
      else .ok (p.labels ++ [⟨"a".toList, (p.instructions.length : Int)⟩]) := rfl
  have hm : make_instruction
      [⟨.TOKEN_OPCODE, "label".toList, n⟩, ⟨.TOKEN_IDENTIFIER, "a".toList, n⟩] n =
      label_instruction n := rfl
  have hl : (trim_line "label a".toList).length = 7 := rfl
  unfold parse_line
  simp only [hl, ht, hm, hc]
  by_cases h : p.labels.length ≥ MAX_LABELS
  · simp only [h, if_true]
    rfl
  · simp only [h, if_false]
    rfl

theorem parse_lines_halt (k : Nat) (p : program_t) (n : Int)
    (h : p.instructions.length + k < MAX_LINES) :
    ∃ p1, parse_lines p (halt_lines k) n = .ok p1 ∧
      p1.instructions.length = p.instructions.length + k ∧
      (∀ inst ∈ p1.instructions, inst ∈ p.instructions ∨ inst.op = .OP_HALT) ∧
      p1.labels = p.labels ∧ p1.vars = p.vars := by
  induction k generalizing p n with
  | zero => exact ⟨p, rfl, rfl, fun inst hi => Or.inl hi, rfl, rfl⟩
  | succ k ih =>
    have hlt : ¬ (p.instructions.length + 1 ≥ MAX_LINES) := by omega
    have hstep : parse_lines p (halt_lines (k + 1)) n =
        parse_lines ⟨p.instructions ++ [halt_instruction (n + 1)], p.vars, p.labels⟩
          (halt_lines k) (n + 1) := by
      simp only [halt_lines, List.replicate_succ, parse_lines, parse_line_halt, if_neg hlt]
    obtain ⟨p1, h1, h2, h3, h4, h5⟩ :=
      ih ⟨p.instructions ++ [halt_instruction (n + 1)], p.vars, p.labels⟩ (n + 1)
        (by simp only [List.length_append, List.length_singleton]; omega)
    refine ⟨p1, hstep.trans h1, ?_, ?_, h4, h5⟩
    · rw [h2]; simp only [List.length_append, List.length_singleton]; omega
    · intro inst hi
      rcases h3 inst hi with hm | hm
      · rcases List.mem_append.mp hm with hm | hm
        · exact Or.inl hm
        · right
          rw [List.mem_singleton.mp hm]
          rfl
      · exact Or.inr hm

theorem parse_lines_halt_full (k : Nat) (p : program_t) (n : Int)
    (h : p.instructions.length + k = MAX_LINES) (hk : 0 < k) :
    parse_lines p (halt_lines k) n = .error ⟨n + k, .program_too_long, []⟩ := by
  induction k generalizing p n with
  | zero => exact absurd hk (lt_irrefl 0)
  | succ k ih =>
    by_cases hz : k = 0
    · subst hz
      have hge : p.instructions.length + 1 ≥ MAX_LINES := by omega
      simp only [halt_lines, List.replicate_succ, List.replicate_zero, parse_lines,
        parse_line_halt, if_pos hge]
      simp
    · have hlt : ¬ (p.instructions.length + 1 ≥ MAX_LINES) := by omega
      have hstep : parse_lines p (halt_lines (k + 1)) n =
          parse_lines ⟨p.instructions ++ [halt_instruction (n + 1)], p.vars, p.labels⟩
            (halt_lines k) (n + 1) := by
        simp only [halt_lines, List.replicate_succ, parse_lines, parse_line_halt, if_neg hlt]
      rw [hstep, ih _ (n + 1)
        (by simp only [List.length_append, List.length_singleton]; omega) (by omega)]
      congr 2
      push_cast
      ring

theorem parse_lines_label (k : Nat) (p : program_t) (n : Int)
    (h : p.instructions.length + k < MAX_LINES) (hl : p.labels.length + k ≤ MAX_LABELS) :
    ∃ p1, parse_lines p (label_lines k) n = .ok p1 ∧
      p1.instructions.length = p.instructions.length + k ∧
      p1.labels.length = p.labels.length + k ∧ p1.vars = p.vars := by
  induction k generalizing p n with
  | zero => exact ⟨p, rfl, rfl, rfl, rfl⟩
  | succ k ih =>
    have hlt : ¬ (p.instructions.length + 1 ≥ MAX_LINES) := by omega
    have hlt1 : ¬ (p.labels.length ≥ MAX_LABELS) := by omega
    have hstep : parse_lines p (label_lines (k + 1)) n =
        parse_lines ⟨p.instructions ++ [label_instruction (n + 1)], p.vars,
          p.labels ++ [⟨"a".toList, (p.instructions.length : Int)⟩]⟩
          (label_lines k) (n + 1) := by
      simp only [label_lines, List.replicate_succ, parse_lines, parse_line_label, if_neg hlt,
        if_neg hlt1]
    obtain ⟨p1, h1, h2, h3, h4⟩ :=
      ih ⟨p.instructions ++ [label_instruction (n + 1)], p.vars,
          p.labels ++ [⟨"a".toList, (p.instructions.length : Int)⟩]⟩ (n + 1)
        (by simp only [List.length_append, List.length_singleton]; omega)
        (by simp only [List.length_append, List.length_singleton]; omega)
    refine ⟨p1, hstep.trans h1, ?_, ?_, h4⟩
    · rw [h2]; simp only [List.length_append, List.length_singleton]; omega
    · rw [h3]; simp only [List.length_append, List.length_singleton]; omega

theorem parse_lines_label_full (k : Nat) (p : program_t) (n : Int)
    (h : p.instructions.length + k < MAX_LINES) (hl : p.labels.length + k = MAX_LABELS + 1)
    (hp : p.labels.length ≤ MAX_LABELS) :
    parse_lines p (label_lines k) n = .error ⟨n + k, .too_many_labels, []⟩ := by
  induction k generalizing p n with
  | zero => omega
  | succ k ih =>
    by_cases hz : p.labels.length ≥ MAX_LABELS
    · have hk : k = 0 := by omega
      subst hk
      simp only [label_lines, List.replicate_succ, List.replicate_zero, parse_lines,
        parse_line_label, if_pos hz]
      simp
    · have hlt : ¬ (p.instructions.length + 1 ≥ MAX_LINES) := by omega
      have hstep : parse_lines p (label_lines (k + 1)) n =
          parse_lines ⟨p.instructions ++ [label_instruction (n + 1)], p.vars,
            p.labels ++ [⟨"a".toList, (p.instructions.length : Int)⟩]⟩
            (label_lines k) (n + 1) := by
        simp only [label_lines, List.replicate_succ, parse_lines, parse_line_label, if_neg hlt,
          if_neg hz]
      rw [hstep, ih _ (n + 1)
        (by simp only [List.length_append, List.length_singleton]; omega)
        (by simp only [List.length_append, List.length_singleton]; omega)
        (by simp only [List.length_append, List.length_singleton]; omega)]
      congr 2
      push_cast
      ring

/-! ## Validator: the identifier check -/

theorem validate_args_ok (inst : instruction_t) (hop : inst.op ≠ .OP_OUT) (j : Nat)
    (args : List CStr) (h : validate_args inst j args = .ok ()) :
    ∀ arg ∈ args, passes_identifier_check arg = true := by
  induction args generalizing j with
  | nil => intro arg ha; cases ha
  | cons a more ih =>
    have hno : ¬ (inst.op = .OP_OUT ∧ j = 0) := fun hc => hop hc.1
    simp only [validate_args, if_neg hno] at h
    intro arg ha
    have hhead : passes_identifier_check a = true ∧ validate_args inst (j + 1) more = .ok () := by
      unfold passes_identifier_check
      by_cases h1 : starts_integer a = true
      · rw [if_pos h1] at h
        exact ⟨by simp [h1], h⟩
      · rw [if_neg h1] at h
        by_cases h2 : (string_to_comparison a).isSome = true
        · rw [if_pos h2] at h
          exact ⟨by simp [h2], h⟩
        · rw [if_neg h2] at h
          by_cases h3 : a = "goto".toList
          · rw [if_pos h3] at h
            exact ⟨by simp [h3], h⟩
          · rw [if_neg h3] at h
            by_cases h4 : is_valid_identifier a = true
            · simp only [h4, Bool.not_true, Bool.false_eq_true, if_false] at h
              exact ⟨by simp [h4], h⟩
            · simp only [Bool.not_eq_true] at h4
              simp only [h4, Bool.not_false, if_true] at h
              cases h
    rcases List.mem_cons.mp ha with rfl | hm
    · exact hhead.1
    · exact ih (j + 1) hhead.2 arg hm

theorem validate_identifiers_ok (l : List instruction_t)
    (h : validate_identifiers l = .ok ()) :
    ∀ inst ∈ l, validate_args inst 0 inst.args = .ok () := by
  induction l with
  | nil => intro inst hi; cases hi
  | cons x more ih =>
    intro inst hi
    simp only [validate_identifiers] at h
    cases hx : validate_args x 0 x.args with
    | error e => rw [hx] at h; cases h
    | ok u =>
      rw [hx] at h
      rcases List.mem_cons.mp hi with rfl | hmem
      · exact hx
      · exact ih h inst hmem

theorem arg_mem (inst : instruction_t) (j : Nat) (hj : j < inst.arg_count) :
    inst.arg j ∈ inst.args := by
  unfold instruction_t.arg_count at hj
  unfold instruction_t.arg
  rw [List.getD_eq_getElem _ _ hj]
  exact List.getElem_mem hj

theorem is_identifier_text_valid (s : CStr) (h : is_identifier_text s = true) :
    is_valid_identifier s = true := by
  unfold is_identifier_text at h
  simp only [Bool.and_eq_true] at h
  exact h.1

/-- Outside the operand positions the shape table fixes the form of every argument. -/
theorem conforms_well_formed (inst : instruction_t) (hc : conforms inst = true)
    (hop : inst.op ≠ .OP_OUT) (j : Nat) (hj : j < inst.arg_count)
    (hpos : is_operand_position inst.op j = false) :
    well_formed_argument (inst.arg j) = true := by
  unfold conforms at hc
  unfold well_formed_argument
  have hid : ∀ s, is_identifier_text s = true →
      (is_integer_text s || (string_to_comparison s).isSome || decide (s = "goto".toList) ||
        is_valid_identifier s) = true := by
    intro s hs
    simp [is_identifier_text_valid s hs]
  have harith : inst.arg_count = 3 ∧ is_identifier_text (inst.arg 0) = true →
      (j == 1 || j == 2) = false →
      (is_integer_text (inst.arg j) || (string_to_comparison (inst.arg j)).isSome ||
        decide (inst.arg j = "goto".toList) || is_valid_identifier (inst.arg j)) = true := by
    intro hc hpos
    obtain ⟨hn, h0⟩ := hc
    rw [hn] at hj
    interval_cases j
    · exact hid _ h0
    · simp at hpos
    · simp at hpos
  have hone : inst.arg_count = 1 ∧ is_identifier_text (inst.arg 0) = true →
      (is_integer_text (inst.arg j) || (string_to_comparison (inst.arg j)).isSome ||
        decide (inst.arg j = "goto".toList) || is_valid_identifier (inst.arg j)) = true := by
    intro hc
    obtain ⟨hn, h0⟩ := hc
    rw [hn] at hj
    interval_cases j
    exact hid _ h0
  cases hopc : inst.op <;> simp only [hopc, Bool.and_eq_true, beq_iff_eq, Bool.or_eq_true,
    decide_eq_true_eq, is_operand_position] at hc hpos
  · obtain ⟨⟨hn, h0⟩, h1⟩ := hc
    rw [hn] at hj
    interval_cases j
    · exact hid _ h0
    · rcases h1 with h1 | h1
      · simp [h1]
      · exact hid _ h1
  · exact absurd hopc hop
  · exact harith hc hpos
  · exact harith hc hpos
  · exact harith hc hpos
  · exact harith hc hpos
  · obtain ⟨⟨hn, h0⟩, h2⟩ := hc
    rw [hn] at hj
    interval_cases j
    · exact hid _ h0
    · simp at hpos
    · simp [h2]
    · simp at hpos
  · obtain ⟨⟨⟨hn, h0⟩, h1⟩, h2⟩ := hc
    rw [hn] at hj
    interval_cases j
    · exact hid _ h0
    · simp [h1]
    · exact hid _ h2
  · exact hone hc
  · exact hone hc
  · rw [hc] at hj
    exact absurd hj (Nat.not_lt_zero _)
  · exact absurd hc (by simp)

/-! ## Executor: value resolution -/

theorem is_integer_text_starts (s : CStr) (h : is_integer_text s = true) :
    starts_integer s = true := by
  cases s with
  | nil => simp [is_integer_text] at h
  | cons c rest =>
    simp only [is_integer_text] at h
    by_cases hc : c = '-'
    · subst hc
      simp only [if_true, Bool.and_eq_true, Bool.not_eq_true', List.isEmpty_eq_false] at h
      cases rest with
      | nil => exact absurd rfl h.1
      | cons d more =>
        have hd : isdigit d = true := by
          have := h.2
          simp only [List.all_cons, Bool.and_eq_true] at this
          exact this.1
        simp [starts_integer, hd]
    · simp only [hc, if_false, Bool.and_eq_true] at h
      simp [starts_integer, h.1]

/-- On a well-formed integer text `strtoll` reads everything and returns the clamped value. -/
theorem strtoll_integer_text (s : CStr) (h : is_integer_text s = true) :
    strtoll s = (clamp64 (integer_value s), []) := by
  cases s with
  | nil => simp [is_integer_text] at h
  | cons c rest =>
    simp only [is_integer_text] at h
    by_cases hc : c = '-'
    · subst hc
      simp only [if_true, Bool.and_eq_true, Bool.not_eq_true', List.isEmpty_eq_false] at h
      obtain ⟨hne, hall⟩ := h
      have hsp : isspace '-' = false := by decide
      have htake : rest.takeWhile isdigit = rest :=
        List.takeWhile_eq_self_iff.mpr (fun d hd => List.all_eq_true.mp hall d hd)
      have hdrop : rest.dropWhile isdigit = [] :=
        List.dropWhile_eq_nil_iff.mpr (fun d hd => List.all_eq_true.mp hall d hd)
      simp only [strtoll, List.dropWhile_cons, hsp, Bool.false_eq_true, if_false, if_true,
        htake, hdrop, hne, integer_value]
    · simp only [hc, if_false, Bool.and_eq_true] at h
      obtain ⟨hd, hall⟩ := h
      have hsp := isdigit_not_isspace c hd
      have h2 := isdigit_ne_plus c hd
      have hall1 : ∀ d ∈ c :: rest, isdigit d = true := by
        intro d hm
        rcases List.mem_cons.mp hm with rfl | hm
        · exact hd
        · exact List.all_eq_true.mp hall d hm
      have htake : (c :: rest).takeWhile isdigit = c :: rest :=
        List.takeWhile_eq_self_iff.mpr hall1
      have hdrop : (c :: rest).dropWhile isdigit = [] :=
        List.dropWhile_eq_nil_iff.mpr hall1
      have hds : (c :: rest).dropWhile isspace = c :: rest := by
        simp only [List.dropWhile_cons, hsp, Bool.false_eq_true, if_false]
      unfold strtoll
      simp only [hds, hc, h2, if_false, htake, hdrop, integer_value]
      simp

theorem parse_integer_integer_text (s : CStr) (h : is_integer_text s = true) :
    parse_integer s = clamp64 (integer_value s) := by
  unfold parse_integer
  rw [strtoll_integer_text s h]
  simp

theorem parse_integer_junk (s : CStr) (hs : starts_integer s = true)
    (hn : is_integer_text s = false) : parse_integer s = INT64_MIN := by
  by_contra hp
  rw [is_integer_text_of_parse s hs hp] at hn
  cases hn

theorem clamp64_of_range (v : Int) (h1 : INT64_MIN ≤ v) (h2 : v ≤ INT64_MAX) :
    clamp64 v = v := by
  unfold clamp64
  rw [if_neg (by omega), if_neg (by omega)]

theorem resolve_value_literal (p : program_t) (arg : CStr) (h : starts_integer arg = true) :
    resolve_value p arg = .ok (parse_integer arg, p) := by
  unfold resolve_value
  rw [if_pos h]

theorem resolve_value_variable (p : program_t) (arg : CStr) (h : starts_integer arg = false) :
    resolve_value p arg = get_variable_value p arg := by
  unfold resolve_value
  simp [h]

theorem get_variable_value_present (p : program_t) (name : CStr)
    (h : has_variable p.vars name = true) :
    get_variable_value p name = .ok (value_of p.vars name, p) := by
  cases hg : get_variable_value p name with
  | ok r =>
    obtain ⟨v, p1⟩ := r
    obtain ⟨hv, -, -, ⟨hp, -⟩ | ⟨hno, -⟩⟩ := get_variable_value_ok p name v p1 hg
    · rw [hv, hp]
    · rw [h] at hno; cases hno
  | error e =>
    obtain ⟨-, hno, -⟩ := get_variable_value_error p name e hg
    rw [h] at hno; cases hno

theorem get_variable_value_absent (p : program_t) (name : CStr)
    (h : has_variable p.vars name = false) :
    get_variable_value p name =
      if p.vars.length ≥ MAX_VARIABLES then .error too_many
      else .ok (0, { p with vars := p.vars ++ [⟨name.take (MAX_TOKEN_LENGTH - 1), 0⟩] }) := by
  unfold get_variable_value
  rw [find_none_of_not_has _ _ h]
  rfl

/-! ## Lexer: identifiers -/

theorem char_le_iff (a b : Char) : a ≤ b ↔ a.toNat ≤ b.toNat := by
  rw [Char.le_def]
  exact Iff.rfl

theorem char_mem_range (c : Char) (lo n : Nat) (h1 : lo ≤ c.toNat) (h2 : c.toNat < lo + n) :
    c ∈ (List.range' lo n).map Char.ofNat := by
  rw [List.mem_map]
  exact ⟨c.toNat, List.mem_range'_1.mpr ⟨h1, h2⟩, Char.ofNat_toNat c⟩

theorem isalpha_iff (c : Char) : isalpha c = true ↔ c ∈ ascii_letters := by
  constructor
  · intro h
    simp only [isalpha, Bool.or_eq_true, Bool.and_eq_true, decide_eq_true_eq, char_le_iff] at h
    have hl : ascii_letters =
        (List.range' 97 26).map Char.ofNat ++ (List.range' 65 26).map Char.ofNat := by decide
    rw [hl, List.mem_append]
    rcases h with ⟨h1, h2⟩ | ⟨h1, h2⟩
    · left
      apply char_mem_range
      · exact h1
      · have : 'z'.toNat = 122 := rfl
        omega
    · right
      apply char_mem_range
      · exact h1
      · have : 'Z'.toNat = 90 := rfl
        omega
  · intro h
    have hall : ∀ d ∈ ascii_letters, isalpha d = true := by decide
    exact hall c h

theorem isdigit_iff (c : Char) : isdigit c = true ↔ c ∈ ascii_digits := by
  constructor
  · intro h
    simp only [isdigit, Bool.and_eq_true, decide_eq_true_eq, char_le_iff] at h
    have hl : ascii_digits = (List.range' 48 10).map Char.ofNat := by decide
    rw [hl]
    apply char_mem_range
    · exact h.1
    · have : '9'.toNat = 57 := rfl
      omega
  · intro h
    have hall : ∀ d ∈ ascii_digits, isdigit d = true := by decide
    exact hall c h

theorem contains_eq_isalpha (c : Char) : ascii_letters.contains c = isalpha c := by
  rw [Bool.eq_iff_iff, List.contains_iff_exists_mem_beq, isalpha_iff]; simp

theorem contains_eq_isdigit (c : Char) : ascii_digits.contains c = isdigit c := by
  rw [Bool.eq_iff_iff, List.contains_iff_exists_mem_beq, isdigit_iff]; simp

theorem is_valid_identifier_eq_pattern (s : CStr) :
    is_valid_identifier s = matches_identifier_pattern s := by
  cases s with
  | nil => rfl
  | cons c rest =>
    simp only [is_valid_identifier, matches_identifier_pattern, contains_eq_isalpha,
      contains_eq_isdigit, isalnum]

theorem is_valid_identifier_iff (s : CStr) :
    is_valid_identifier s = true ↔
      ∃ c rest, s = c :: rest ∧ (c ∈ ascii_letters ∨ c = '_') ∧
        ∀ d ∈ rest, d ∈ ascii_letters ∨ d ∈ ascii_digits ∨ d = '_' := by
  cases s with
  | nil => simp [is_valid_identifier]
  | cons c rest =>
    simp only [is_valid_identifier, isalnum, Bool.and_eq_true, Bool.or_eq_true, beq_iff_eq,
      List.all_eq_true, isalpha_iff, isdigit_iff]
    constructor
    · rintro ⟨h1, h2⟩
      exact ⟨c, rest, rfl, h1, fun d hd => by
        rcases h2 d hd with (h | h) | h
        · exact Or.inl h
        · exact Or.inr (Or.inl h)
        · exact Or.inr (Or.inr h)⟩
    · rintro ⟨c1, rest1, heq, h1, h2⟩
      cases heq
      exact ⟨h1, fun d hd => by
        rcases h2 d hd with h | h | h
        · exact Or.inl (Or.inl h)
        · exact Or.inl (Or.inr h)
        · exact Or.inr h⟩

theorem is_valid_identifier_mem (s : CStr) (h : is_valid_identifier s = true) (c : Char)
    (hc : c ∈ s) : c ∈ ascii_letters ∨ c ∈ ascii_digits ∨ c = '_' := by
  obtain ⟨c1, rest, rfl, h1, h2⟩ := (is_valid_identifier_iff s).mp h
  rcases List.mem_cons.mp hc with rfl | hm
  · rcases h1 with h1 | h1
    · exact Or.inl h1
    · exact Or.inr (Or.inr h1)
  · exact h2 c hm

/-! ## Executor: literal divisors -/

theorem clamp64_eq_zero (v : Int) : clamp64 v = 0 ↔ v = 0 := by
  unfold clamp64
  have h1 : INT64_MIN = -9223372036854775808 := rfl
  have h2 : INT64_MAX = 9223372036854775807 := rfl
  split_ifs with ha hb
  · rw [h1] at ha ⊢
    constructor <;> intro h <;> omega
  · rw [h2] at hb ⊢
    constructor <;> intro h <;> omega
  · rfl

theorem resolved_integer_text (vars : List variable_t) (arg : CStr)
    (h : is_integer_text arg = true) : resolved vars arg = clamp64 (integer_value arg) := by
  unfold resolved
  rw [if_pos (is_integer_text_starts arg h), parse_integer_integer_text arg h]

/-! ## Lexer: string literals of several words -/

/-- The string branch on a literal whose first word `w` ends at the delimiter `d`: the token
text is `w`, one space, and the rest of the line up to the next double quote as it stands. -/
theorem tokenize_loop_multiword (n : Int) (cap : Nat) (w : CStr) (d : Char) (c1 post : CStr)
    (hw : ∀ x ∈ w, is_delim x = false) (hqw : '"' ∉ w) (hd : is_delim d = true)
    (hqc : '"' ∉ c1) (hlen : w.length + 1 + c1.length ≤ 255) :
    tokenize_loop n (cap + 1) (strtok ('"' :: w ++ d :: (c1 ++ '"' :: post)) is_delim) =
      .ok [⟨.TOKEN_STRING, w ++ ' ' :: c1, n⟩] := by
  have hqd : is_delim '"' = false := by decide
  have hwd : ∀ x ∈ '"' :: w, is_delim x = false := by
    intro x hx
    rcases List.mem_cons.mp hx with rfl | hx
    · exact hqd
    · exact hw x hx
  have hst : strtok ('"' :: w ++ d :: (c1 ++ '"' :: post)) is_delim =
      some ('"' :: w, c1 ++ '"' :: post) :=
    strtok_first ('"' :: w) d (c1 ++ '"' :: post) (by simp) hwd hd
  have hlit := string_literal_later_word n w c1 post hqw hqc (by omega)
  rw [hst]
  simp only [tokenize_loop, List.head?_cons, if_true, hlit, MAX_TOKEN_LENGTH]
  rw [List.take_of_length_le (by simp; omega)]

theorem tokenize_line_out_multiword (n : Int) (w : CStr) (d : Char) (c1 post : CStr)
    (hw : ∀ x ∈ w, is_delim x = false) (hqw : '"' ∉ w) (hd : is_delim d = true)
    (hqc : '"' ∉ c1) (hlen : w.length + 1 + c1.length ≤ 255) (hpost : post.length ≤ 512) :
    tokenize_line (out_literal_line (w ++ d :: c1) post) n =
      .ok [⟨.TOKEN_OPCODE, ['o', 'u', 't'], n⟩, ⟨.TOKEN_STRING, w ++ ' ' :: c1, n⟩] := by
  have hlen1 : (out_literal_line (w ++ d :: c1) post).length ≤ 1023 := by
    simp only [out_literal_line, List.length_append, List.length_cons, List.length_nil]; omega
  have hne1 : (out_literal_line (w ++ d :: c1) post).length ≠ 0 := by
    simp [out_literal_line]
  have hst : strtok (out_literal_line (w ++ d :: c1) post) is_delim =
      some (['o', 'u', 't'], '"' :: w ++ d :: (c1 ++ '"' :: post)) := by
    have := strtok_first ['o', 'u', 't'] ' ' ('"' :: w ++ d :: (c1 ++ '"' :: post)) (by simp)
      (by decide) (by decide)
    simpa [out_literal_line] using this
  unfold tokenize_line
  rw [if_neg hne1, List.take_of_length_le hlen1, hst]
  have h1 : (['o', 'u', 't'] : CStr).head? = some '"' ↔ False := by decide
  have h2 : (string_to_comparison ['o', 'u', 't']).isSome = true ↔ False := by decide
  have h3 : starts_integer ['o', 'u', 't'] = true ↔ False := by decide
  have h4 : string_to_opcode ['o', 'u', 't'] ≠ .OP_INVALID := by decide
  have h5 : (['o', 'u', 't'] : CStr).take (MAX_TOKEN_LENGTH - 1) = ['o', 'u', 't'] := by decide
  have hrec := tokenize_loop_multiword n 14 w d c1 post hw hqw hd hqc hlen
  show tokenize_loop n (15 + 1) (some (['o', 'u', 't'], '"' :: w ++ d :: (c1 ++ '"' :: post))) = _
  rw [tokenize_loop, hrec]
  simp only [h1, h2, h3, h4, h5, if_false, if_true, ne_eq, not_false_eq_true]

/-! ## Executor: the variable table as a map -/

theorem has_variable_iff_mem (p : program_t) (n : CStr) :
    has_variable p.vars n = true ↔ n ∈ variable_names p := by
  unfold has_variable variable_names
  simp only [List.any_eq_true, decide_eq_true_eq, List.mem_map]

theorem has_variable_false_iff (p : program_t) (n : CStr) :
    has_variable p.vars n = false ↔ n ∉ variable_names p := by
  rw [← has_variable_iff_mem]
  simp

theorem value_of_absent (vars : List variable_t) (n : CStr)
    (h : has_variable vars n = false) : value_of vars n = 0 := by
  unfold value_of
  rw [find_none_of_not_has vars n h]

/-- One call on a table whose names are pairwise distinct, for a name that fits the name
buffer and is present or finds room. -/
theorem apply_call_map (p : program_t) (c : store_call)
    (hnd : (variable_names p).Nodup) (hlen : c.name.length ≤ MAX_TOKEN_LENGTH - 1)
    (hroom : has_variable p.vars c.name = true ∨ p.vars.length < MAX_VARIABLES) :
    ∃ p1, apply_call p c = .ok p1 ∧ (variable_names p1).Nodup ∧
      variable_names p1 =
        variable_names p ++ (if has_variable p.vars c.name then [] else [c.name]) ∧
      (∀ m, m ≠ c.name → value_of p1.vars m = value_of p.vars m) ∧
      (∀ n v, c = .set n v → get_variable_value p1 n = .ok (v, p1)) ∧
      (∀ n, c = .get n → get_variable_value p n = .ok (value_of p.vars n, p1) ∧
        value_of p1.vars n = value_of p.vars n ∧
        get_variable_value p1 n = .ok (value_of p.vars n, p1)) := by
  have htake : c.name.take (MAX_TOKEN_LENGTH - 1) = c.name := List.take_of_length_le hlen
  cases c with
  | get n =>
    simp only [store_call.name] at hlen hroom htake ⊢
    by_cases hhas : has_variable p.vars n = true
    · have hg := get_variable_value_present p n hhas
      refine ⟨p, ?_, hnd, ?_, fun _ _ => rfl, ?_, ?_⟩
      · simp only [apply_call, hg]
      · simp [hhas]
      · intro n1 v h; cases h
      · intro n1 h
        cases h
        exact ⟨hg, rfl, hg⟩
    · simp only [Bool.not_eq_true] at hhas
      have hr : ¬ (p.vars.length ≥ MAX_VARIABLES) := by
        rcases hroom with h | h
        · rw [hhas] at h; cases h
        · omega
      have hg := get_variable_value_absent p n hhas
      rw [if_neg hr, htake] at hg
      have hnames : variable_names { p with vars := p.vars ++ [⟨n, 0⟩] } =
          variable_names p ++ [n] := by
        simp [variable_names]
      have hhas1 : has_variable ({ p with vars := p.vars ++ [⟨n, 0⟩] } : program_t).vars n
          = true := by
        rw [has_variable_iff_mem, hnames]
        simp
      have hv0 : value_of (p.vars ++ [⟨n, 0⟩]) n = value_of p.vars n :=
        value_of_append_zero p.vars n n
      refine ⟨{ p with vars := p.vars ++ [⟨n, 0⟩] }, ?_, ?_, ?_, ?_, ?_, ?_⟩
      · simp only [apply_call, hg]
      · rw [hnames]
        exact List.Nodup.append hnd (List.nodup_singleton n)
          (by
            rw [List.disjoint_singleton]
            exact (has_variable_false_iff p n).mp hhas)
      · rw [hnames]; simp [hhas]
      · intro m _
        exact value_of_append_zero p.vars n m
      · intro n1 v h; cases h
      · intro n1 h
        cases h
        refine ⟨?_, hv0, ?_⟩
        · rw [hg, value_of_absent p.vars n hhas]
        · have := get_variable_value_present _ n hhas1
          rw [this]
          show Except.ok (value_of (p.vars ++ [⟨n, 0⟩]) n, _) = _
          rw [hv0]
  | set n v =>
    simp only [store_call.name] at hlen hroom htake ⊢
    obtain ⟨p1, hs⟩ := set_variable_value_room p n v hroom
    have hval := set_variable_value_value p n v p1 hs hlen
    have hnames : variable_names p1 =
        variable_names p ++ (if has_variable p.vars n then [] else [n]) := by
      rcases (set_variable_value_ok p n v p1 hs).2.2 with ⟨hhas, hu⟩ | ⟨hno, -, hv⟩
      · have := (update_variable_some n v p.vars p1.vars hu).2.2.2
        simp only [variable_names, this, hhas, if_true, List.append_nil]
      · simp [variable_names, hv, htake, hno]
    have hnd1 : (variable_names p1).Nodup := by
      rw [hnames]
      by_cases hhas : has_variable p.vars n = true
      · simp only [hhas, if_true, List.append_nil]
        exact hnd
      · simp only [Bool.not_eq_true] at hhas
        simp only [hhas, Bool.false_eq_true, if_false]
        exact List.Nodup.append hnd (List.nodup_singleton n)
          (by
            rw [List.disjoint_singleton]
            exact (has_variable_false_iff p n).mp hhas)
    have hhas1 : has_variable p1.vars n = true := by
      rw [has_variable_iff_mem, hnames]
      by_cases hhas : has_variable p.vars n = true
      · simp only [hhas, if_true, List.append_nil]
        exact (has_variable_iff_mem p n).mp hhas
      · simp [hhas]
    refine ⟨p1, ?_, hnd1, hnames, hval.2, ?_, ?_⟩
    · simp only [apply_call, hs]
    · intro n1 v1 h
      cases h
      rw [get_variable_value_present p1 n hhas1, hval.1]
    · intro n1 h; cases h

theorem nodup_length_le_dedup (l seen : List CStr) (hnd : l.Nodup) (hsub : ∀ x ∈ l, x ∈ seen) :
    l.length ≤ seen.dedup.length := by
  have hs : l ⊆ seen.dedup := fun x hx => List.mem_dedup.mpr (hsub x hx)
  exact (List.subperm_of_subset hnd hs).length_le

/-- A call whose name is among at most `MAX_VARIABLES` names that include every name of the
table finds its name present or finds room. -/
theorem call_has_room (p : program_t) (n : CStr) (seen : List CStr)
    (hnd : (variable_names p).Nodup) (hsub : ∀ x ∈ variable_names p, x ∈ seen)
    (hn : n ∈ seen) (hcount : seen.dedup.length ≤ MAX_VARIABLES) :
    has_variable p.vars n = true ∨ p.vars.length < MAX_VARIABLES := by
  by_cases hhas : has_variable p.vars n = true
  · exact Or.inl hhas
  · right
    simp only [Bool.not_eq_true] at hhas
    have hnot := (has_variable_false_iff p n).mp hhas
    have hnd1 : (n :: variable_names p).Nodup := List.nodup_cons.mpr ⟨hnot, hnd⟩
    have hle := nodup_length_le_dedup (n :: variable_names p) seen hnd1 (by
      intro x hx
      rcases List.mem_cons.mp hx with rfl | hx
      · exact hn
      · exact hsub x hx)
    simp only [List.length_cons, variable_names, List.length_map] at hle
    omega

theorem apply_calls_map (calls : List store_call) (p : program_t) (seen : List CStr)
    (hnd : (variable_names p).Nodup) (hsub : ∀ x ∈ variable_names p, x ∈ seen)
    (hlen : ∀ c ∈ calls, c.name.length ≤ MAX_TOKEN_LENGTH - 1)
    (hcount : (seen ++ calls.map store_call.name).dedup.length ≤ MAX_VARIABLES) :
    ∃ p1, apply_calls p calls = .ok p1 ∧ (variable_names p1).Nodup ∧
      (∀ x ∈ variable_names p1, x ∈ seen ++ calls.map store_call.name) ∧
      (∀ x ∈ variable_names p, x ∈ variable_names p1) := by
  induction calls generalizing p seen with
  | nil =>
    refine ⟨p, rfl, hnd, ?_, fun x hx => hx⟩
    intro x hx
    simp [hsub x hx]
  | cons c more ih =>
    have hroom := call_has_room p c.name (seen ++ (c :: more).map store_call.name) hnd
      (fun x hx => List.mem_append_left _ (hsub x hx)) (by simp) hcount
    obtain ⟨p1, h1, hnd1, hnames, -⟩ :=
      apply_call_map p c hnd (hlen c (List.mem_cons_self _ _)) hroom
    have hsub1 : ∀ x ∈ variable_names p1, x ∈ seen ++ [c.name] := by
      intro x hx
      rw [hnames] at hx
      rcases List.mem_append.mp hx with hx | hx
      · exact List.mem_append_left _ (hsub x hx)
      · split_ifs at hx
        · cases hx
        · exact List.mem_append_right _ hx
    have hassoc : seen ++ [c.name] ++ more.map store_call.name =
        seen ++ (c :: more).map store_call.name := by simp
    obtain ⟨p2, h2, hnd2, hsub2, hkeep⟩ := ih p1 (seen ++ [c.name]) hnd1 hsub1
      (fun x hx => hlen x (List.mem_cons_of_mem _ hx)) (by rw [hassoc]; exact hcount)
    refine ⟨p2, ?_, hnd2, ?_, ?_⟩
    · simp only [apply_calls, h1, h2]
    · intro x hx
      rw [← hassoc]
      exact hsub2 x hx
    · intro x hx
      apply hkeep
      rw [hnames]
      exact List.mem_append_left _ hx

theorem apply_calls_append (a b : List store_call) (p p1 : program_t)
    (h : apply_calls p a = .ok p1) : apply_calls p (a ++ b) = apply_calls p1 b := by
  induction a generalizing p with
  | nil =>
    simp only [apply_calls] at h
    cases h
    rfl
  | cons c more ih =>
    simp only [apply_calls, List.cons_append] at h ⊢
    cases hc : apply_call p c with
    | error e => rw [hc] at h; cases h
    | ok p2 =>
      rw [hc] at h
      exact ih p2 h

/-! ## Executor: the names in the variable table -/

theorem name_ok_take (n : CStr) (h : name_ok n = true) :
    name_ok (n.take (MAX_TOKEN_LENGTH - 1)) = true := by
  unfold name_ok at h ⊢
  simp only [Bool.or_eq_true] at h ⊢
  rcases h with h | h
  · exact Or.inl (is_valid_identifier_take n 254 h)
  · right
    have hlen := string_to_comparison_length n h
    have : n.take (MAX_TOKEN_LENGTH - 1) = n :=
      List.take_of_length_le (by simp only [MAX_TOKEN_LENGTH]; omega)
    rw [this]; exact h

theorem names_ok_append (vars : List variable_t) (n : CStr) (v : Int)
    (h : names_ok vars) (hn : name_ok n = true) :
    names_ok (vars ++ [⟨n.take (MAX_TOKEN_LENGTH - 1), v⟩]) := by
  intro w hw
  rcases List.mem_append.mp hw with hw | hw
  · exact h w hw
  · rw [List.mem_singleton.mp hw]
    exact name_ok_take n hn

theorem get_variable_value_names (p : program_t) (n : CStr) (v : Int) (p1 : program_t)
    (h : get_variable_value p n = .ok (v, p1)) (hp : names_ok p.vars)
    (hn : name_ok n = true) : names_ok p1.vars := by
  rcases (get_variable_value_ok p n v p1 h).2.2.2 with ⟨rfl, -⟩ | ⟨-, -, hv⟩
  · exact hp
  · rw [hv]
    exact names_ok_append _ _ _ hp hn

theorem set_variable_value_names (p : program_t) (n : CStr) (v : Int) (p1 : program_t)
    (h : set_variable_value p n v = .ok p1) (hp : names_ok p.vars)
    (hn : name_ok n = true) : names_ok p1.vars := by
  rcases (set_variable_value_ok p n v p1 h).2.2 with ⟨-, hu⟩ | ⟨-, -, hv⟩
  · have hmap := (update_variable_some n v p.vars p1.vars hu).2.2.2
    intro w hw
    have hmem : w.name ∈ p1.vars.map (fun w => w.name) := List.mem_map.mpr ⟨w, hw, rfl⟩
    rw [hmap] at hmem
    obtain ⟨w0, hw0, heq⟩ := List.mem_map.mp hmem
    rw [← heq]
    exact hp w0 hw0
  · rw [hv]
    exact names_ok_append _ _ _ hp hn

theorem resolve_value_names (p : program_t) (a : CStr) (v : Int) (p1 : program_t)
    (h : resolve_value p a = .ok (v, p1)) (hp : names_ok p.vars)
    (ha : operand_ok a = true) : names_ok p1.vars := by
  by_cases hs : starts_integer a = true
  · rw [resolve_value_literal p a hs] at h
    cases h
    exact hp
  · simp only [Bool.not_eq_true] at hs
    rw [resolve_value_variable p a hs] at h
    unfold operand_ok at ha
    simp only [hs, Bool.false_or] at ha
    exact get_variable_value_names p a v p1 h hp ha

theorem first_is_digit_starts (a : CStr) (h : first_is_digit a = true) :
    starts_integer a = true := by
  cases a with
  | nil => simp [first_is_digit] at h
  | cons c rest =>
    simp only [first_is_digit] at h
    simp [starts_integer, h]

/-- The variable names after one instruction, whatever its outcome. -/
theorem exec_instruction_names (s : exec_t) (inst : instruction_t)
    (hp : names_ok s.program.vars) (hn : operands_named inst = true) :
    names_ok (exec_instruction s inst).state.program.vars := by
  have harith : ∀ f, name_ok (inst.arg 0) = true → operand_ok (inst.arg 1) = true →
      operand_ok (inst.arg 2) = true →
      names_ok (exec_arith s inst f).state.program.vars := by
    intro f h0 h1 h2
    unfold exec_arith
    cases hr1 : resolve_value s.program (inst.arg 1) with
    | error e => exact hp
    | ok r1 =>
      obtain ⟨a, p1⟩ := r1
      have hp1 := resolve_value_names _ _ _ _ hr1 hp h1
      simp only
      cases hr2 : resolve_value p1 (inst.arg 2) with
      | error e => exact hp1
      | ok r2 =>
        obtain ⟨b, p2⟩ := r2
        have hp2 := resolve_value_names _ _ _ _ hr2 hp1 h2
        simp only
        cases hs : set_variable_value p2 (inst.arg 0) (wrap64 (f a b)) with
        | error e => exact hp2
        | ok p3 => exact set_variable_value_names _ _ _ _ hs hp2 h0
  unfold operands_named at hn
  unfold exec_instruction
  cases hop : inst.op <;> simp only [hop, Bool.and_eq_true] at hn ⊢
  · cases hr1 : resolve_value s.program (inst.arg 1) with
    | error e => exact hp
    | ok r1 =>
      obtain ⟨a, p1⟩ := r1
      have hp1 := resolve_value_names _ _ _ _ hr1 hp hn.2
      simp only
      cases hs : set_variable_value p1 (inst.arg 0) a with
      | error e => exact hp1
      | ok p2 => exact set_variable_value_names _ _ _ _ hs hp1 hn.1
  · split_ifs with hraw
    · exact hp
    · cases hr1 : resolve_value s.program (inst.arg 0) with
      | error e => exact hp
      | ok r1 =>
        obtain ⟨a, p1⟩ := r1
        simp only [Bool.or_eq_true, Bool.and_eq_true, Bool.not_eq_true', not_or, not_and,
          Bool.not_eq_false] at hraw
        have hop1 : operand_ok (inst.arg 0) = true := by
          unfold operand_ok name_ok
          by_cases hd : first_is_digit (inst.arg 0) = true
          · simp [first_is_digit_starts _ hd]
          · simp only [Bool.not_eq_true] at hd
            simp [hraw.2 hd]
        exact resolve_value_names _ _ _ _ hr1 hp hop1
  · exact harith _ hn.1.1 hn.1.2 hn.2
  · exact harith _ hn.1.1 hn.1.2 hn.2
  · exact harith _ hn.1.1 hn.1.2 hn.2
  · cases hr1 : resolve_value s.program (inst.arg 1) with
    | error e => exact hp
    | ok r1 =>
      obtain ⟨a, p1⟩ := r1
      have hp1 := resolve_value_names _ _ _ _ hr1 hp hn.1.2
      simp only
      cases hr2 : resolve_value p1 (inst.arg 2) with
      | error e => exact hp1
      | ok r2 =>
        obtain ⟨b, p2⟩ := r2
        have hp2 := resolve_value_names _ _ _ _ hr2 hp1 hn.2
        simp only
        split_ifs
        · exact hp2
        · exact hp2
        · cases hs : set_variable_value p2 (inst.arg 0) (wrap64 (Int.tdiv a b)) with
          | error e => exact hp2
          | ok p3 => exact set_variable_value_names _ _ _ _ hs hp2 hn.1.1
  · cases hr1 : resolve_value s.program (inst.arg 1) with
    | error e => exact hp
    | ok r1 =>
      obtain ⟨a, p1⟩ := r1
      have hp1 := resolve_value_names _ _ _ _ hr1 hp hn.1.2
      simp only
      cases hr2 : resolve_value p1 (inst.arg 3) with
      | error e => exact hp1
      | ok r2 =>
        obtain ⟨b, p2⟩ := r2
        have hp2 := resolve_value_names _ _ _ _ hr2 hp1 hn.2
        simp only
        cases hcv : compare_values (string_to_comparison (inst.arg 2)) a b with
        | none => exact hp2
        | some r =>
          simp only
          cases hs : set_variable_value p2 (inst.arg 0) r with
          | error e => exact hp2
          | ok p3 => exact set_variable_value_names _ _ _ _ hs hp2 hn.1.1
  · cases hg : get_variable_value s.program (inst.arg 0) with
    | error e => exact hp
    | ok r1 =>
      obtain ⟨c, p1⟩ := r1
      have hp1 := get_variable_value_names _ _ _ _ hg hp hn
      simp only
      split_ifs <;> exact hp1
  · split_ifs <;> exact hp
  · exact hp
  · exact hp
  · exact hp

theorem passes_operand_ok (a : CStr) (h : passes_identifier_check a = true) :
    operand_ok a = true := by
  unfold passes_identifier_check at h
  unfold operand_ok name_ok
  simp only [Bool.or_eq_true, decide_eq_true_eq] at h ⊢
  rcases h with ((h | h) | h) | h
  · exact Or.inl h
  · exact Or.inr (Or.inr h)
  · subst h
    exact Or.inr (Or.inl (by decide))
  · exact Or.inr (Or.inl h)

theorem operands_named_of_validated (inst : instruction_t) (hc : conforms inst = true)
    (hv : validate_args inst 0 inst.args = .ok ()) : operands_named inst = true := by
  have hid : ∀ a, is_identifier_text a = true → name_ok a = true := by
    intro a ha
    unfold name_ok
    simp [is_identifier_text_valid a ha]
  have hopnd : inst.op ≠ .OP_OUT → ∀ j, j < inst.arg_count → operand_ok (inst.arg j) = true :=
    fun hop j hj => passes_operand_ok _ (validate_args_ok inst hop 0 _ hv _ (arg_mem inst j hj))
  unfold conforms at hc
  unfold operands_named
  cases hop : inst.op <;>
    simp only [hop, Bool.and_eq_true, beq_iff_eq, Bool.or_eq_true, decide_eq_true_eq] at hc ⊢
  · exact ⟨hid _ hc.1.2, hopnd (by rw [hop]; decide) 1 (by rw [hc.1.1]; decide)⟩
  · have h := hopnd (by rw [hop]; decide)
    exact ⟨⟨hid _ hc.2, h 1 (by rw [hc.1]; decide)⟩, h 2 (by rw [hc.1]; decide)⟩
  · have h := hopnd (by rw [hop]; decide)
    exact ⟨⟨hid _ hc.2, h 1 (by rw [hc.1]; decide)⟩, h 2 (by rw [hc.1]; decide)⟩
  · have h := hopnd (by rw [hop]; decide)
    exact ⟨⟨hid _ hc.2, h 1 (by rw [hc.1]; decide)⟩, h 2 (by rw [hc.1]; decide)⟩
  · have h := hopnd (by rw [hop]; decide)
    exact ⟨⟨hid _ hc.2, h 1 (by rw [hc.1]; decide)⟩, h 2 (by rw [hc.1]; decide)⟩
  · have h := hopnd (by rw [hop]; decide)
    exact ⟨⟨hid _ hc.1.2, h 1 (by rw [hc.1.1]; decide)⟩, h 3 (by rw [hc.1.1]; decide)⟩
  · exact hid _ hc.1.1.2

theorem parse_line_vars (p : program_t) (line : CStr) (n : Int) (p1 : program_t)
    (h : parse_line p line n = .ok p1) : p1.vars = p.vars := by
  rcases parse_line_ok p line n p1 h with
    ⟨rfl, -⟩ | ⟨tokens, labels, -, -, -, ⟨-, -, -, rfl⟩ | ⟨-, -, -, -, rfl⟩⟩
  · rfl
  · rfl
  · rfl

theorem parse_lines_vars (p : program_t) (lines : List CStr) (n : Int) (p1 : program_t)
    (h : parse_lines p lines n = .ok p1) : p1.vars = p.vars := by
  induction lines generalizing p n with
  | nil => simp only [parse_lines] at h; cases h; rfl
  | cons line more ih =>
    simp only [parse_lines] at h
    cases hl : parse_line p line (n + 1) with
    | error e => rw [hl] at h; cases h
    | ok p2 =>
      rw [hl] at h
      rw [ih p2 (n + 1) h, parse_line_vars p line (n + 1) p2 hl]

theorem step_next_instructions (s s1 : exec_t) (h : step s = .next s1) :
    s1.program.instructions = s.program.instructions := by
  unfold step at h
  split_ifs at h with hlt hneg
  cases hget : s.program.instructions.get? s.pc.toNat with
  | none => rw [hget] at h; cases h
  | some inst =>
    rw [hget] at h
    simp only at h
    rcases exec_instruction_outcome s inst with
      ⟨s2, h2, hi2, -⟩ | ⟨h2, -⟩ | ⟨e, s2, h2, -⟩
    · rw [h2] at h
      cases h
      exact hi2
    · rw [h2] at h; cases h
    · rw [h2] at h; cases h

theorem step_names (p : program_t) (hconf : ∀ inst ∈ p.instructions, conforms inst = true)
    (hval : validate_program p = .ok ()) (s : exec_t)
    (hi : s.program.instructions = p.instructions) (hn : names_ok s.program.vars) :
    names_ok (step s).state.program.vars := by
  unfold step
  split_ifs with hlt hneg
  · exact hn
  · cases hget : s.program.instructions.get? s.pc.toNat with
    | none => exact hn
    | some inst =>
      have hmem : inst ∈ p.instructions := by
        rw [← hi]; exact List.get?_mem hget
      have hargs := validate_identifiers_ok _ (validate_program_ok p hval).2.2.2 inst hmem
      exact exec_instruction_names s inst hn
        (operands_named_of_validated inst (hconf inst hmem) hargs)
  · exact hn

theorem run_names (p : program_t) (hconf : ∀ inst ∈ p.instructions, conforms inst = true)
    (hval : validate_program p = .ok ()) (fuel : Nat) (s : exec_t)
    (hi : s.program.instructions = p.instructions) (hn : names_ok s.program.vars) :
    names_ok (run fuel s).state.program.vars := by
  induction fuel generalizing s with
  | zero => exact hn
  | succ k ih =>
    have h2 := step_names p hconf hval s hi hn
    unfold run
    cases hstep : step s with
    | next s1 =>
      rw [hstep] at h2
      exact ih s1 ((step_next_instructions s s1 hstep).trans hi) h2
    | done s1 =>
      rw [hstep] at h2
      exact h2
    | fail e s1 =>
      rw [hstep] at h2
      exact h2

/-! ## Parser: the copy past `args` -/

theorem tokenize_six_token_line (n : Int) :
    tokenize_line (trim_line six_token_line) n = .ok (six_tokens n) := rfl

/-- The line `out a b c d "\x01"` as the 1024th instruction: the count falls to 1. -/
theorem parse_line_six_token_last (p : program_t) (n : Int)
    (h : p.instructions.length + 1 = MAX_LINES) :
    parse_line p six_token_line n =
      .ok ⟨(p.instructions ++ [(⟨.OP_OUT, ["a".toList], 0⟩ : instruction_t)]).take 1,
        p.vars, p.labels⟩ := by
  have hl : (trim_line six_token_line).length ≠ 0 := by decide
  have hmk : make_instruction (six_tokens n) n = ⟨.OP_OUT, ["a".toList], 0⟩ := rfl
  have hc : int_at (spilled_text (six_tokens n)) 8 = 0 := rfl
  have hsp : 5 < (six_tokens n).length ∧ p.instructions.length + 1 = MAX_LINES :=
    ⟨by simp [six_tokens], h⟩
  have h0 : tok_is (six_tokens n) 0 .TOKEN_OPCODE = true := rfl
  have hlen : (six_tokens n).length ≠ 0 := by simp [six_tokens]
  have hcf : ∀ q : program_t,
      check_format q ⟨.OP_OUT, ["a".toList], 0⟩ (six_tokens n) n = .ok q.labels :=
    fun q => rfl
  unfold parse_line
  simp only [if_neg hl, tokenize_six_token_line, if_neg hlen, h0, hmk, hc, if_pos hsp, hcf,
    Bool.not_true, Bool.false_eq_true, if_false]
  rfl

/-- The line `out a b c d "\x01"` on any other row: it is stored as `out a`, line 0. -/
theorem parse_line_six_token (p : program_t) (n : Int)
    (h : p.instructions.length + 1 < MAX_LINES) :
    parse_line p six_token_line n =
      .ok ⟨p.instructions ++ [⟨.OP_OUT, ["a".toList], 0⟩], p.vars, p.labels⟩ := by
  have hl : (trim_line six_token_line).length ≠ 0 := by decide
  have hmk : make_instruction (six_tokens n) n = ⟨.OP_OUT, ["a".toList], 0⟩ := rfl
  have hsp : ¬ (5 < (six_tokens n).length ∧ p.instructions.length + 1 = MAX_LINES) := by
    intro hc
    omega
  have h0 : tok_is (six_tokens n) 0 .TOKEN_OPCODE = true := rfl
  have hlen : (six_tokens n).length ≠ 0 := by simp [six_tokens]
  have hcf : check_format p ⟨.OP_OUT, ["a".toList], 0⟩ (six_tokens n) n = .ok p.labels := rfl
  have hge : ¬ (p.instructions.length + 1 ≥ MAX_LINES) := by omega
  unfold parse_line
  simp only [if_neg hl, tokenize_six_token_line, if_neg hlen, h0, hmk, if_neg hsp, hcf,
    if_neg hge, Bool.not_true, Bool.false_eq_true, if_false]

theorem parse_lines_append (a b : List CStr) (p p1 : program_t) (n : Int)
    (h : parse_lines p a n = .ok p1) :
    parse_lines p (a ++ b) n = parse_lines p1 b (n + a.length) := by
  induction a generalizing p n with
  | nil =>
    simp only [parse_lines] at h
    cases h
    simp
  | cons line more ih =>
    simp only [parse_lines, List.cons_append] at h ⊢
    cases hl : parse_line p line (n + 1) with
    | error e => rw [hl] at h; cases h
    | ok p2 =>
      rw [hl] at h
      refine (ih p2 (n + 1) h).trans ?_
      congr 1
      simp only [List.length_cons]
      push_cast
      ring

theorem parse_lines_halt_prefix (k : Nat) (p : program_t) (n : Int)
    (h : p.instructions.length + k < MAX_LINES) :
    ∃ extra, extra.length = k ∧
      parse_lines p (List.replicate k "halt".toList) n =
        .ok ⟨p.instructions ++ extra, p.vars, p.labels⟩ := by
  induction k generalizing p n with
  | zero => exact ⟨[], rfl, by simp [parse_lines]⟩
  | succ k ih =>
    have hlt : ¬ (p.instructions.length + 1 ≥ MAX_LINES) := by omega
    obtain ⟨extra, hlen, hp⟩ :=
      ih ⟨p.instructions ++ [halt_instruction (n + 1)], p.vars, p.labels⟩ (n + 1)
        (by simp only [List.length_append, List.length_singleton]; omega)
    refine ⟨halt_instruction (n + 1) :: extra, by simp [hlen], ?_⟩
    simp only [List.replicate_succ, parse_lines, parse_line_halt, if_neg hlt, hp]
    simp

theorem stale_label_source_length : stale_label_source.length = 1025 := by
  unfold stale_label_source
  rw [List.length_append, List.length_append, List.length_replicate]
  rfl

theorem stale_label_source_row : stale_label_source.get? 1023 = some six_token_line := by
  unfold stale_label_source
  rw [List.get?_eq_getElem?, List.getElem?_append_right (by decide),
    List.getElem?_append_right (by rw [List.length_replicate]; decide),
    List.length_replicate]
  rfl

set_option maxRecDepth 100000 in
/-- The parse of `stale_label_source`. -/
theorem parse_stale_label_source : parse_program stale_label_source = .ok stale_label_program := by
  have h7 : parse_lines ⟨[], [], []⟩
      ["goto L".toList, "halt".toList, "halt".toList, "halt".toList, "halt".toList,
        "halt".toList, "label L".toList] 0 =
      .ok ⟨[⟨.OP_GOTO, ["L".toList], 1⟩, ⟨.OP_HALT, [], 2⟩, ⟨.OP_HALT, [], 3⟩,
          ⟨.OP_HALT, [], 4⟩, ⟨.OP_HALT, [], 5⟩, ⟨.OP_HALT, [], 6⟩,
          ⟨.OP_LABEL, ["L".toList], 7⟩], [], [⟨"L".toList, 6⟩]⟩ := by decide
  unfold parse_program stale_label_source
  rw [parse_lines_append _ _ _ _ _ h7]
  obtain ⟨extra, hlen, hh⟩ := parse_lines_halt_prefix 1016
    ⟨[⟨.OP_GOTO, ["L".toList], 1⟩, ⟨.OP_HALT, [], 2⟩, ⟨.OP_HALT, [], 3⟩,
      ⟨.OP_HALT, [], 4⟩, ⟨.OP_HALT, [], 5⟩, ⟨.OP_HALT, [], 6⟩,
      ⟨.OP_LABEL, ["L".toList], 7⟩], [], [⟨"L".toList, 6⟩]⟩
    (0 + ((["goto L".toList, "halt".toList, "halt".toList, "halt".toList, "halt".toList,
      "halt".toList, "label L".toList] : List CStr).length : Int)) (by decide)
  rw [parse_lines_append _ _ _ _ _ hh]
  simp only [parse_lines]
  rw [parse_line_six_token_last _ _
    (by simp only [List.length_append, List.length_cons, List.length_nil, hlen]; rfl)]
  simp only [List.cons_append, List.take_succ_cons, List.take_zero]
  rw [parse_line_halt]
  simp only [List.length_cons, List.length_nil]
  rfl

/-! ## Parser: lines of more than six tokens -/

/-- A string literal ends its line: in what the tokenizer returns, a String token is the last
token. -/
theorem tokenize_loop_string_last (n : Int) (cap : Nat) (tok : Option (CStr × CStr))
    (ts : List token_t) (h : tokenize_loop n cap tok = .ok ts) :
    ∀ (i : Nat) (t : token_t), ts.get? i = some t → t.type = .TOKEN_STRING →
      i + 1 = ts.length := by
  induction cap generalizing tok ts with
  | zero =>
    simp only [tokenize_loop] at h
    cases h; intro i t ht; cases ht
  | succ cap ih =>
    cases tok with
    | none =>
      simp only [tokenize_loop] at h
      cases h; intro i t ht; cases ht
    | some pr =>
      obtain ⟨token, rest⟩ := pr
      simp only [tokenize_loop] at h
      have hcons : ∀ (ty : token_type_t) (ts1 : List token_t), ty ≠ .TOKEN_STRING →
          tokenize_loop n cap (strtok rest is_delim) = .ok ts1 →
          ∀ (i : Nat) (t : token_t),
            ((⟨ty, token.take (MAX_TOKEN_LENGTH - 1), n⟩ : token_t) :: ts1).get? i = some t →
            t.type = .TOKEN_STRING →
            i + 1 = ((⟨ty, token.take (MAX_TOKEN_LENGTH - 1), n⟩ : token_t) :: ts1).length := by
        intro ty ts1 hty hl i t hi hs
        cases i with
        | zero =>
          simp only [List.get?_cons_zero, Option.some.injEq] at hi
          subst hi
          exact absurd hs hty
        | succ j =>
          simp only [List.get?_cons_succ] at hi
          have := ih _ _ hl j t hi hs
          simp only [List.length_cons]
          omega
      split_ifs at h with h1 h2 h3 h4 h5 h6
      · cases hs : string_literal n token rest with
        | error e => rw [hs] at h; cases h
        | ok text =>
          rw [hs] at h
          cases h
          intro i t hi _
          cases i with
          | zero => rfl
          | succ j => simp at hi
      · cases hl : tokenize_loop n cap (strtok rest is_delim) with
        | error e => rw [hl] at h; cases h
        | ok ts1 =>
          rw [hl] at h
          cases h
          exact hcons _ ts1 (by decide) hl
      · cases hl : tokenize_loop n cap (strtok rest is_delim) with
        | error e => rw [hl] at h; cases h
        | ok ts1 =>
          rw [hl] at h
          cases h
          exact hcons _ ts1 (by decide) hl
      · cases hl : tokenize_loop n cap (strtok rest is_delim) with
        | error e => rw [hl] at h; cases h
        | ok ts1 =>
          rw [hl] at h
          cases h
          exact hcons _ ts1 (by decide) hl
      · cases hl : tokenize_loop n cap (strtok rest is_delim) with
        | error e => rw [hl] at h; cases h
        | ok ts1 =>
          rw [hl] at h
          cases h
          exact hcons _ ts1 (by decide) hl

/-- The first byte of a token that is no string literal is a letter, a digit, `_`, `-` or the
first character of a comparison operator: its code is above 4. -/
theorem token_first_byte (t : token_t) (h : token_ok t) (hty : t.type ≠ .TOKEN_STRING) :
    5 ≤ byte_at t.value 0 := by
  obtain ⟨-, hk⟩ := h
  have hletter : ∀ c : Char, c ∈ ascii_letters → 5 ≤ c.toNat % 256 := by decide
  have hdigit : ∀ c : Char, c ∈ ascii_digits → 5 ≤ c.toNat % 256 := by decide
  cases hc : t.type with
  | TOKEN_STRING => exact absurd hc hty
  | TOKEN_OPCODE =>
    rw [hc] at hk
    rcases string_to_opcode_valid _ hk with h | h | h | h | h | h | h | h | h | h | h <;>
      (rw [h]; decide)
  | TOKEN_COMPARISON =>
    rw [hc] at hk
    rcases string_to_comparison_some _ hk with h | h | h | h | h | h <;> (rw [h]; decide)
  | TOKEN_IDENTIFIER =>
    rw [hc] at hk
    simp only [is_identifier_text, Bool.and_eq_true] at hk
    obtain ⟨hv, -⟩ := hk
    cases hval : t.value with
    | nil => rw [hval] at hv; cases hv
    | cons c cs =>
      rw [hval] at hv
      simp only [is_valid_identifier, Bool.and_eq_true, Bool.or_eq_true, beq_iff_eq] at hv
      show 5 ≤ c.toNat % 256
      rcases hv.1 with ha | hu
      · exact hletter c ((isalpha_iff c).mp ha)
      · rw [hu]; decide
  | TOKEN_INTEGER =>
    rw [hc] at hk
    cases hval : t.value with
    | nil => rw [hval] at hk; cases hk
    | cons c cs =>
      rw [hval] at hk
      simp only [is_integer_text] at hk
      show 5 ≤ c.toNat % 256
      split_ifs at hk with hm
      · rw [hm]; decide
      · simp only [Bool.and_eq_true] at hk
        exact hdigit c ((isdigit_iff c).mp hk.1)

theorem tokenize_line_string_last (line : CStr) (n : Int) (ts : List token_t)
    (h : tokenize_line line n = .ok ts) (i : Nat) (t : token_t) (hi : ts.get? i = some t)
    (hs : t.type = .TOKEN_STRING) : i + 1 = ts.length := by
  unfold tokenize_line at h
  split_ifs at h
  · cases h; cases hi
  · exact tokenize_loop_string_last n _ _ ts h i t hi hs

theorem byte_at_lt (text : CStr) (i : Nat) : byte_at text i < 256 := by
  unfold byte_at
  cases text.get? i with
  | none => decide
  | some c => exact Nat.mod_lt _ (by decide)

theorem byte_at_take (text : CStr) (k : Nat) : byte_at (text.take (k + 1)) 0 = byte_at text 0 := by
  cases text with
  | nil => rfl
  | cons c cs => rfl

/-- An integer between 0 and 4 read at the head of a text: the first byte is that integer. -/
theorem int_at_small (text : CStr) (h0 : 0 ≤ int_at text 0) (h4 : int_at text 0 ≤ 4) :
    byte_at text 0 ≤ 4 := by
  have b0 := byte_at_lt text 0
  have b1 := byte_at_lt text 1
  have b2 := byte_at_lt text 2
  have b3 := byte_at_lt text 3
  unfold int_at at h0 h4
  simp only [Nat.zero_add] at h0 h4
  split_ifs at h0 h4 with hu
  · omega
  · omega

/-- A line that `parse_line` stores has at most six tokens: of seven tokens the sixth is no
string literal, so the integer that the copy into `args[4]` leaves in `arg_count` is the arity
of no opcode. The copies into `args[5]` and beyond, which reach the following rows of the
array and, from the last three rows, `instruction_count`, are therefore made on rejected lines
only. -/
theorem parse_line_token_count (p : program_t) (line : CStr) (n : Int) (p1 : program_t)
    (tokens : List token_t) (h : parse_line p line n = .ok p1)
    (ht : tokenize_line (trim_line line) n = .ok tokens) : tokens.length ≤ 6 := by
  by_contra hlong
  have hfmt : ∃ q labels, check_format q (make_instruction tokens n) tokens n = .ok labels := by
    rcases parse_line_ok p line n p1 h with ⟨-, h1 | h1⟩ | ⟨tokens1, labels, -, ht1, -, h2⟩
    · unfold tokenize_line at ht
      rw [h1] at ht
      simp only [List.length_nil, if_true] at ht
      cases ht
      simp at hlong
    · rw [h1] at ht
      cases ht
      simp at hlong
    · rw [ht1] at ht
      cases ht
      rcases h2 with ⟨-, hc, -⟩ | ⟨-, -, hc, -⟩
      · exact ⟨_, _, hc⟩
      · exact ⟨_, _, hc⟩
  obtain ⟨q, labels, hc⟩ := hfmt
  have harity := check_format_arity q _ tokens n labels hc
  have hnot : ¬ tokens.length ≤ 5 := by omega
  have hsmall : 0 ≤ int_at (spilled_text tokens) 0 ∧ int_at (spilled_text tokens) 0 ≤ 4 := by
    by_contra hcon
    have hmk : (make_instruction tokens n).arg_count = tokens.length - 1 := by
      unfold make_instruction
      rw [if_neg hnot, if_neg hcon]
      simp [instruction_t.arg_count]
    omega
  have hbyte := int_at_small _ hsmall.1 hsmall.2
  have hlt : 5 < tokens.length := by omega
  obtain ⟨t, hget⟩ : ∃ t, tokens.get? 5 = some t :=
    ⟨tokens.get ⟨5, hlt⟩, List.get?_eq_get hlt⟩
  have hval : tok_value tokens 5 = t.value := by
    unfold tok_value
    rw [hget]
  have hmem : t ∈ tokens := List.get?_mem hget
  have hok := (tokenize_line_token_ok _ n tokens ht t hmem).1
  unfold spilled_text at hbyte
  rw [hval, show MAX_TOKEN_LENGTH - 1 = 254 + 1 from rfl, byte_at_take] at hbyte
  by_cases hs : t.type = .TOKEN_STRING
  · have := tokenize_line_string_last _ n tokens ht 5 t hget hs
    omega
  · have := token_first_byte t hok hs
    omega

/-! # The claims -/

/-- C1 (as amended): for every literal contents `c` that is non-empty, holds no double quote,
no tab, CR or LF, fits the token length limit of 255 characters, and either contains a space or
neither starts with a digit nor is a valid identifier: the source line `out "c"` parses to the
single instruction `out` with argument `c`, and executing that instruction appends `c` and a
newline to the output and leaves every variable as it was, whatever the variables are. -/
theorem out_string_literal_prints_text (c : CStr) (hne : c ≠ []) (hq : '"' ∉ c)
    (hws : ∀ x ∈ c, x ≠ '\t' ∧ x ≠ '\n' ∧ x ≠ '\r') (hlen : c.length ≤ 255)
    (hraw : printed_raw c) :
    parse_program [out_line c] = .ok ⟨[out_instruction c], [], []⟩ ∧
    ∀ (vars : List variable_t) (out : CStr),
      step ⟨⟨[out_instruction c], vars, []⟩, 0, out⟩ =
        .next ⟨⟨[out_instruction c], vars, []⟩, 1, out ++ c ++ ['\n']⟩ := by
  refine ⟨parse_program_out_line c hne hq hws hlen, ?_⟩
  intro vars out
  have hcond : ((strchr c ' ').isSome || c.head? = some '"' ||
      (!first_is_digit c && !is_valid_identifier c)) = true := by
    rcases hraw with hsp | ⟨hd, hid⟩
    · simp [strchr_isSome_of_mem c ' ' hsp]
    · simp [hd, hid]
  have hget : (out_instruction c).arg 0 = c := rfl
  have hopc : (out_instruction c).op = .OP_OUT := rfl
  have hexec : ∀ s : exec_t, exec_instruction s (out_instruction c) =
      .next { s with pc := s.pc + 1, out := s.out ++ c ++ ['\n'] } := by
    intro s
    unfold exec_instruction
    simp only [hopc, hget]
    rw [if_pos hcond]
  unfold step
  simp only [List.length_cons, List.length_nil]
  rw [if_pos (by decide), if_neg (by decide)]
  simp only [Int.toNat_zero, List.get?_cons_zero, hexec]
  rfl

/-- Witness of C1 (as amended) on the contents `Hello world`. -/
theorem out_string_literal_prints_text_witness :
    parse_program [out_line "Hello world".toList] =
      .ok ⟨[out_instruction "Hello world".toList], [], []⟩ ∧
    ∀ (vars : List variable_t) (out : CStr),
      step ⟨⟨[out_instruction "Hello world".toList], vars, []⟩, 0, out⟩ =
        .next ⟨⟨[out_instruction "Hello world".toList], vars, []⟩, 1,
          out ++ "Hello world".toList ++ ['\n']⟩ :=
  out_string_literal_prints_text "Hello world".toList (by decide) (by decide) (by decide)
    (by decide) (Or.inl (by decide))

/-- C1, counterexample: the line `out "Hello"` parses to `out` with argument `Hello`, and
executing it prints `0` and a newline, not `Hello`, and creates the variable `Hello`. -/
theorem out_one_word_literal_prints_zero :
    "Hello".toList ≠ [] ∧ '"' ∉ "Hello".toList ∧ "Hello".toList.length ≤ 255 ∧
    parse_program [out_line "Hello".toList] = .ok ⟨[out_instruction "Hello".toList], [], []⟩ ∧
    step ⟨⟨[out_instruction "Hello".toList], [], []⟩, 0, []⟩ =
      .next ⟨⟨[out_instruction "Hello".toList], [⟨"Hello".toList, 0⟩], []⟩, 1, "0\n".toList⟩ ∧
    step ⟨⟨[out_instruction "Hello".toList], [], []⟩, 0, []⟩ ≠
      .next ⟨⟨[out_instruction "Hello".toList], [], []⟩, 1, "Hello\n".toList⟩ := by
  refine ⟨by decide, by decide, by decide, by decide, by decide, by decide⟩

/-- C2: the seven-line counting program parses to the expected record, passes validation,
and with any fuel of at least 17 iterations returns success at `halt` having printed the three
lines 1, 2, 3, with x = 4 and c = 0 in the final variable table. -/
theorem loop_program_outputs_1_2_3 :
    parse_program loop_source = .ok loop_program ∧
    validate_program loop_program = .ok () ∧
    ∀ k : Nat, execute_program (17 + k) loop_program =
      .done ⟨{ loop_program with vars := [⟨"x".toList, 4⟩, ⟨"c".toList, 0⟩] }, 6,
        "1\n2\n3\n".toList⟩ := by
  refine ⟨by decide, by decide, ?_⟩
  intro k
  exact run_add 17 k _ _ (by decide) (by intro s1 h; cases h)

/-- C3 (as amended): for a line of at most 1023 characters without CR or LF, made of at most
16 words separated by runs of spaces and tabs, none starting with a double quote and each of at
most 255 characters: when `tokenize_line` succeeds it returns one token per word, in order,
with the word's text, the given line number and the kind of the word; it succeeds when every
word can be classified; it fails when some word is none of the four kinds, with the
invalid-token error naming the first such word if the words before it are well-formed;
`set x 10` gives Opcode, Identifier, Integer; empty and blank lines give no token. -/
theorem tokenize_line_words (line : CStr) (n : Int) (hlen : line.length ≤ 1023)
    (hcr : ∀ c ∈ line, c ≠ '\n' ∧ c ≠ '\r') (hcount : (split_words line).length ≤ 16)
    (hq : ∀ w ∈ split_words line, w.head? ≠ some '"')
    (hword : ∀ w ∈ split_words line, w.length ≤ 255) :
    (∀ toks, tokenize_line line n = .ok toks →
      toks = (split_words line).map (fun w => ⟨token_kind w, w, n⟩)) ∧
    ((∀ w ∈ split_words line, word_ok w = true) →
      tokenize_line line n = .ok ((split_words line).map (fun w => ⟨token_kind w, w, n⟩))) ∧
    ((∃ w ∈ split_words line, none_of_these w = true) →
      ∃ e, tokenize_line line n = .error e ∧ e.line = n ∧
        (e.message = .invalid_token ∨ e.message = .invalid_integer_format)) ∧
    (∀ pre w post, split_words line = pre ++ w :: post →
      (∀ v ∈ pre, word_ok v = true) → none_of_these w = true →
      tokenize_line line n = .error ⟨n, .invalid_token, w⟩) ∧
    (split_words line = [] → tokenize_line line n = .ok []) ∧
    tokenize_line "set x 10".toList 1 =
      .ok [⟨.TOKEN_OPCODE, "set".toList, 1⟩, ⟨.TOKEN_IDENTIFIER, "x".toList, 1⟩,
           ⟨.TOKEN_INTEGER, "10".toList, 1⟩] ∧
    tokenize_line [] n = .ok [] := by
  have heq := tokenize_line_eq_classify line n hlen hcr hcount hq
  have hmap : (split_words line).map
        (fun w => (⟨token_kind w, w.take (MAX_TOKEN_LENGTH - 1), n⟩ : token_t)) =
      (split_words line).map (fun w => ⟨token_kind w, w, n⟩) := by
    apply List.map_congr_left
    intro w hw
    have htake : w.take (MAX_TOKEN_LENGTH - 1) = w := List.take_of_length_le (hword w hw)
    rw [htake]
  refine ⟨?_, ?_, ?_, ?_, ?_, by decide, rfl⟩
  · intro toks h
    rw [heq] at h
    rw [← hmap]
    exact (classify_words_ok n _ toks h).1
  · intro h
    rw [heq, classify_words_all_ok n _ h, hmap]
  · rintro ⟨w, hw, hbad⟩
    cases hc : classify_words n (split_words line) with
    | ok toks =>
      have := (classify_words_ok n _ toks hc).2 w hw
      rw [(none_of_these_not_ok w hbad).1] at this
      cases this
    | error e =>
      rw [heq, hc]
      exact ⟨e, rfl, classify_words_error n _ e hc⟩
  · intro pre w post hsplit hpre hbad
    rw [heq, hsplit]
    exact classify_words_first_bad n pre w post hpre hbad
  · intro h
    rw [heq, h]; rfl

/-- Witness of C3 (as amended) on the line `cmp  c x <= 3` with a doubled space. -/
theorem tokenize_line_words_witness :
    tokenize_line "cmp  c x <= 3".toList 5 =
      .ok ((split_words "cmp  c x <= 3".toList).map (fun w => ⟨token_kind w, w, 5⟩)) :=
  (tokenize_line_words "cmp  c x <= 3".toList 5 (by decide) (by decide) (by decide)
    (by decide) (by decide)).2.1 (by decide)

set_option maxRecDepth 100000 in
/-- C3, counterexample: a line made of one word of 256 letters is tokenized without error,
but the token carries only the first 255 characters of the word. -/
theorem tokenize_line_cuts_long_word :
    split_words (List.replicate 256 'a') = [List.replicate 256 'a'] ∧
    (List.replicate 256 'a').head? ≠ some '"' ∧
    tokenize_line (List.replicate 256 'a') 1 =
      .ok [⟨.TOKEN_IDENTIFIER, List.replicate 255 'a', 1⟩] ∧
    tokenize_line (List.replicate 256 'a') 1 ≠
      .ok ((split_words (List.replicate 256 'a')).map (fun w => ⟨token_kind w, w, 1⟩)) := by
  refine ⟨by decide, by decide, by decide, by decide⟩

/-- C4: on the line `out ""` the closing quote stands in the same word as the opening one, yet
`tokenize_line` fails with the unterminated-string error instead of returning a String token
with empty text; a literal with one character is returned as the claim says. -/
theorem tokenize_line_empty_literal_fails :
    tokenize_line "out \"\"".toList 1 = .error ⟨1, .unterminated_string_literal, []⟩ ∧
    tokenize_line "out \"a\"".toList 1 =
      .ok [⟨.TOKEN_OPCODE, "out".toList, 1⟩, ⟨.TOKEN_STRING, "a".toList, 1⟩] := by
  refine ⟨by decide, by decide⟩

/-- C5: the decimal text of the least signed 64-bit value is a well-formed integer word, yet
`parse_integer` returns for it the very value it uses to signal a malformed literal, so
`tokenize_line` rejects the word with the invalid-integer error (the next value up is accepted). -/
theorem tokenize_line_int64_min_rejected :
    parse_integer "-9223372036854775808".toList = INT64_MIN ∧
    tokenize_line "set x -9223372036854775808".toList 1 =
      .error ⟨1, .invalid_integer_format, "-9223372036854775808".toList⟩ ∧
    tokenize_line "set x -9223372036854775807".toList 1 =
      .ok [⟨.TOKEN_OPCODE, "set".toList, 1⟩, ⟨.TOKEN_IDENTIFIER, "x".toList, 1⟩,
           ⟨.TOKEN_INTEGER, "-9223372036854775807".toList, 1⟩] := by
  refine ⟨by decide, by decide, by decide⟩

/-- C6: every instruction of a record that `parse_program` returns conforms to the shape table
(arity of its opcode, opcode never `OP_INVALID`, identifier arguments that are valid identifiers
and no instruction names, integer-or-identifier second argument of `set`, comparison operator
in `cmp`, the text `goto` in `if`); a line of at most five tokens whose tokens break the table
makes `parse_program` fail. The converse fails on a line of six tokens: the copy loop writes
the sixth token behind `args`, over `arg_count` and `line_number`, before the arity is tested,
so `out a b c d "\x01"`, whose tokens break the table, is accepted and stored as `out a` with
one argument and line number 0; followed by `halt` it is validated and prints the value of
`a`. -/
theorem parse_program_shape_table (lines : List CStr) :
    (∀ p, parse_program lines = .ok p →
      ∀ inst ∈ p.instructions, conforms inst = true ∧ inst.op ≠ .OP_INVALID) ∧
    (∀ (i : Nat) (line : CStr) (tokens : List token_t),
      lines.get? i = some line →
      tokenize_line (trim_line line) ((i : Int) + 1) = .ok tokens →
      tokens ≠ [] → tokens.length ≤ 5 → shape_ok tokens = false →
      ∃ e, parse_program lines = .error e) ∧
    (∃ e, parse_program ["set x".toList] = .error e) ∧
    tokenize_line (trim_line six_token_line) 1 = .ok (six_tokens 1) ∧
    shape_ok (six_tokens 1) = false ∧
    parse_program [six_token_line] =
      .ok ⟨[⟨.OP_OUT, ["a".toList], 0⟩], [], []⟩ ∧
    parse_program [six_token_line, "halt".toList] = .ok six_token_program ∧
    validate_program six_token_program = .ok () ∧
    execute_program 2 six_token_program =
      .done ⟨{ six_token_program with vars := [⟨"a".toList, 0⟩] }, 1, "0\n".toList⟩ := by
  refine ⟨?_, ?_, ⟨⟨1, .set_requires_2_arguments, "set variable value".toList⟩, by decide⟩,
    by decide, by decide, by decide, by decide, by decide, by decide⟩
  · intro p h inst hi
    have hc := parse_program_conforms lines p h inst hi
    refine ⟨hc, ?_⟩
    intro hop
    simp [conforms, hop] at hc
  · intro i line tokens hi ht hne hshort hshape
    cases hp : parse_program lines with
    | error e => exact ⟨e, rfl⟩
    | ok p =>
      exfalso
      have := parse_lines_shape _ lines 0 p hp i line hi tokens
        (by rw [← ht]; congr 1; ring) hne hshort
      rw [this] at hshape; cases hshape

/-- C7: in the record that `parse_program` returns for a source of fewer than `MAX_LINES`
lines, or without a line of more than five tokens, the label table is the list of one entry
per `label` instruction, in sequence order, and every entry holds an index inside the
instruction sequence at which stands the `label` instruction whose argument is the entry's
name; so it is for the counting program. It fails on `stale_label_source`, a source of 1025
lines whose 1024th instruction line has six tokens: the copy behind `args` of the last row
sets `instruction_count` to 0, the parse goes on and returns a record of two instructions,
neither of them a `label`, whose label table still holds `L` with the index 6. -/
theorem parse_program_label_table :
    (∀ lines p, parse_program lines = .ok p → keeps_count lines →
      p.labels = label_entries 0 p.instructions ∧
      ∀ l ∈ p.labels,
        0 ≤ l.instruction_index ∧ l.instruction_index < (p.instructions.length : Int) ∧
        ∃ inst, p.instructions.get? l.instruction_index.toNat = some inst ∧
          inst.op = .OP_LABEL ∧ inst.arg 0 = l.name) ∧
    keeps_count loop_source ∧ parse_program loop_source = .ok loop_program ∧
    stale_label_source.length = 1025 ∧
    stale_label_source.get? 1023 = some six_token_line ∧
    parse_program stale_label_source = .ok stale_label_program ∧
    stale_label_program.labels = [⟨"L".toList, 6⟩] ∧
    stale_label_program.instructions.length = 2 ∧
    label_entries 0 stale_label_program.instructions = [] := by
  refine ⟨?_, Or.inl (by decide), by decide, stale_label_source_length,
    stale_label_source_row, parse_stale_label_source, rfl, rfl, by decide⟩
  intro lines p h hk
  have hinv := parse_program_invariant lines p h hk
  exact ⟨hinv.2, fun l hl => parse_invariant_label p hinv l hl⟩

/-- C8: a program with a `goto L` or an `if c goto L` whose label names no entry of the label
table is rejected by `validate_program`; in an accepted program `find_label` differs from -1
on the label argument of every `goto` and `if`, and that label names an entry of the table;
when the program comes from `parse_program` on a source of fewer than `MAX_LINES` lines, or
without a line of more than five tokens, the index returned lies inside the instruction
sequence; `goto nowhere` without `label nowhere` is rejected with the undefined-label error. -/
theorem validate_program_undefined_label (p : program_t) :
    ((∃ inst ∈ p.instructions,
        (inst.op = .OP_GOTO ∧ ∀ l ∈ p.labels, l.name ≠ inst.arg 0) ∨
        (inst.op = .OP_IF ∧ ∀ l ∈ p.labels, l.name ≠ inst.arg 2)) →
      ∃ e, validate_program p = .error e) ∧
    (validate_program p = .ok () →
      ∀ inst ∈ p.instructions,
        (inst.op = .OP_GOTO →
          find_label p (inst.arg 0) ≠ -1 ∧ ∃ l ∈ p.labels, l.name = inst.arg 0) ∧
        (inst.op = .OP_IF →
          find_label p (inst.arg 2) ≠ -1 ∧ ∃ l ∈ p.labels, l.name = inst.arg 2)) ∧
    (∀ lines, parse_program lines = .ok p → keeps_count lines → validate_program p = .ok () →
      ∀ inst ∈ p.instructions,
        (inst.op = .OP_GOTO →
          0 ≤ find_label p (inst.arg 0) ∧
            find_label p (inst.arg 0) < (p.instructions.length : Int)) ∧
        (inst.op = .OP_IF →
          0 ≤ find_label p (inst.arg 2) ∧
            find_label p (inst.arg 2) < (p.instructions.length : Int))) ∧
    parse_program ["goto nowhere".toList, "halt".toList] = .ok goto_nowhere_program ∧
    validate_program goto_nowhere_program = .error ⟨1, .undefined_label, "nowhere".toList⟩ := by
  have hacc : validate_program p = .ok () →
      ∀ inst ∈ p.instructions,
        (inst.op = .OP_GOTO →
          find_label p (inst.arg 0) ≠ -1 ∧ ∃ l ∈ p.labels, l.name = inst.arg 0) ∧
        (inst.op = .OP_IF →
          find_label p (inst.arg 2) ≠ -1 ∧ ∃ l ∈ p.labels, l.name = inst.arg 2) := by
    intro h inst hi
    have hv := validate_instructions_ok p _ (validate_program_ok p h).2.1 inst hi
    constructor
    · intro hop
      have hne : find_label p (inst.arg 0) ≠ -1 := by
        intro heq
        simp [validate_instruction, hop, heq] at hv
      exact ⟨hne, find_label_ne_neg_one p _ hne⟩
    · intro hop
      have hne : find_label p (inst.arg 2) ≠ -1 := by
        intro heq
        simp [validate_instruction, hop, heq] at hv
      exact ⟨hne, find_label_ne_neg_one p _ hne⟩
  have hrange : ∀ lines, parse_program lines = .ok p → keeps_count lines →
      ∀ name, find_label p name ≠ -1 →
      0 ≤ find_label p name ∧ find_label p name < (p.instructions.length : Int) := by
    intro lines hp hk name hne
    obtain ⟨l, hl, -, hidx⟩ := find_label_mem p name hne
    have := parse_invariant_label p (parse_program_invariant lines p hp hk) l hl
    rw [hidx]
    exact ⟨this.1, this.2.1⟩
  refine ⟨?_, hacc, ?_, by decide, by decide⟩
  · rintro ⟨inst, hi, hbad⟩
    cases hv : validate_program p with
    | error e => exact ⟨e, rfl⟩
    | ok u =>
      exfalso
      have := hacc hv inst hi
      rcases hbad with ⟨hop, hno⟩ | ⟨hop, hno⟩
      · exact (this.1 hop).1 (find_label_eq_neg_one p _ hno)
      · exact (this.2 hop).1 (find_label_eq_neg_one p _ hno)
  · intro lines hp hk hv inst hi
    have := hacc hv inst hi
    exact ⟨fun hop => hrange lines hp hk _ (this.1 hop).1,
      fun hop => hrange lines hp hk _ (this.2 hop).1⟩

/-- Witness of C8 on the program `goto nowhere`, `halt` and on the counting program. -/
theorem validate_program_undefined_label_witness :
    (∃ e, validate_program goto_nowhere_program = .error e) ∧
    (∀ inst ∈ loop_program.instructions,
        (inst.op = .OP_GOTO →
          find_label loop_program (inst.arg 0) ≠ -1 ∧
            ∃ l ∈ loop_program.labels, l.name = inst.arg 0) ∧
        (inst.op = .OP_IF →
          find_label loop_program (inst.arg 2) ≠ -1 ∧
            ∃ l ∈ loop_program.labels, l.name = inst.arg 2)) ∧
    (∀ inst ∈ loop_program.instructions,
        (inst.op = .OP_GOTO →
          0 ≤ find_label loop_program (inst.arg 0) ∧
            find_label loop_program (inst.arg 0) < (loop_program.instructions.length : Int)) ∧
        (inst.op = .OP_IF →
          0 ≤ find_label loop_program (inst.arg 2) ∧
            find_label loop_program (inst.arg 2) < (loop_program.instructions.length : Int))) :=
  ⟨(validate_program_undefined_label goto_nowhere_program).1
      ⟨⟨.OP_GOTO, ["nowhere".toList], 1⟩, by decide, Or.inl ⟨rfl, by decide⟩⟩,
   (validate_program_undefined_label loop_program).2.1 (by decide),
   (validate_program_undefined_label loop_program).2.2.1 loop_source (by decide)
      (Or.inl (by decide)) (by decide)⟩

/-- C9: a program whose label table holds two entries with the same name is rejected with the
duplicate-label error (line 0, detail one of the label names), whatever the rest of the program
is; in an accepted program the label names are pairwise distinct; two `label loop` lines are
rejected with that error. -/
theorem validate_program_duplicate_label (p : program_t) :
    ((∃ i j : Fin p.labels.length, i ≠ j ∧ (p.labels.get i).name = (p.labels.get j).name) →
      ∃ name, validate_program p = .error ⟨0, .duplicate_label, name⟩ ∧
        name ∈ p.labels.map (fun l => l.name)) ∧
    (validate_program p = .ok () → (p.labels.map (fun l => l.name)).Nodup) ∧
    parse_program ["label loop".toList, "label loop".toList, "halt".toList] =
      .ok twice_loop_program ∧
    validate_program twice_loop_program = .error ⟨0, .duplicate_label, "loop".toList⟩ := by
  refine ⟨?_, ?_, by decide, by decide⟩
  · rintro ⟨i, j, hij, hname⟩
    cases hd : find_duplicate p.labels with
    | some name =>
      refine ⟨name, ?_, find_duplicate_some_mem _ _ hd⟩
      simp [validate_program, hd]
    | none =>
      exfalso
      have hnd := (find_duplicate_none_iff p.labels).mp hd
      rw [List.nodup_iff_injective_get] at hnd
      have hi : i.1 < (p.labels.map (fun l => l.name)).length := by simp
      have hj : j.1 < (p.labels.map (fun l => l.name)).length := by simp
      have := @hnd ⟨i.1, hi⟩ ⟨j.1, hj⟩ (by simpa using hname)
      apply hij
      apply Fin.ext
      simpa using congrArg Fin.val this
  · intro h
    exact (find_duplicate_none_iff p.labels).mp (validate_program_ok p h).1

/-- Witness of C9 on the program with two `label loop` lines and on the counting program. -/
theorem validate_program_duplicate_label_witness :
    (∃ name, validate_program twice_loop_program = .error ⟨0, .duplicate_label, name⟩ ∧
        name ∈ twice_loop_program.labels.map (fun l => l.name)) ∧
    (loop_program.labels.map (fun l => l.name)).Nodup :=
  ⟨(validate_program_duplicate_label twice_loop_program).1
      ⟨⟨0, by decide⟩, ⟨1, by decide⟩, by decide, by decide⟩,
   (validate_program_duplicate_label loop_program).2.1 (by decide)⟩

/-- C10: a program without any `halt` instruction is rejected by `validate_program`; when the
program is otherwise well-formed (it is accepted once a `halt` is appended) the error is the
missing-halt error with line number 0; every accepted program contains a `halt`. -/
theorem validate_program_missing_halt (p : program_t) :
    ((∀ inst ∈ p.instructions, inst.op ≠ .OP_HALT) →
      (∃ e, validate_program p = .error e) ∧
      ∀ n : Int,
        validate_program { p with instructions := p.instructions ++ [halt_instruction n] } =
          .ok () →
        validate_program p = .error ⟨0, .missing_halt, []⟩) ∧
    (validate_program p = .ok () → ∃ inst ∈ p.instructions, inst.op = .OP_HALT) ∧
    validate_program no_halt_program = .error ⟨0, .missing_halt, []⟩ := by
  have hacc : validate_program p = .ok () → ∃ inst ∈ p.instructions, inst.op = .OP_HALT := by
    intro h
    have hh := (validate_program_ok p h).2.2.1
    simp only [List.any_eq_true, decide_eq_true_eq] at hh
    exact hh
  refine ⟨?_, hacc, by decide⟩
  intro hno
  have hany : p.instructions.any (fun inst => inst.op = .OP_HALT) = false := by
    rw [List.any_eq_false]
    intro inst hi
    simpa using hno inst hi
  constructor
  · cases hv : validate_program p with
    | error e => exact ⟨e, rfl⟩
    | ok u =>
      obtain ⟨inst, hi, hop⟩ := hacc hv
      exact absurd hop (hno inst hi)
  · intro n h
    obtain ⟨hd, hv, -, -⟩ := validate_program_ok _ h
    simp only at hd hv
    have hv1 : validate_instructions p p.instructions = .ok () := by
      have happ := validate_instructions_append
        { p with instructions := p.instructions ++ [halt_instruction n] } p.instructions
        [halt_instruction n]
      rw [hv] at happ
      cases hp : validate_instructions p p.instructions with
      | ok u => rfl
      | error e =>
        exfalso
        have hsame : validate_instructions
            { p with instructions := p.instructions ++ [halt_instruction n] } p.instructions =
            validate_instructions p p.instructions := by
          generalize p.instructions ++ [halt_instruction n] = q
          generalize p.instructions = l
          induction l with
          | nil => rfl
          | cons x more ih =>
            simp only [validate_instructions]
            have hx : validate_instruction { p with instructions := q } x =
                validate_instruction p x := rfl
            rw [hx, ih]
        rw [hsame, hp] at happ
        cases happ
    simp [validate_program, hd, hv1, hany]

/-- Witness of C10 on the two-line program `set x 1`, `out x` and on the counting program. -/
theorem validate_program_missing_halt_witness :
    ((∃ e, validate_program no_halt_program = .error e) ∧
      ∀ n : Int,
        validate_program
          { no_halt_program with
            instructions := no_halt_program.instructions ++ [halt_instruction n] } = .ok () →
        validate_program no_halt_program = .error ⟨0, .missing_halt, []⟩) ∧
    (∃ inst ∈ loop_program.instructions, inst.op = .OP_HALT) :=
  ⟨(validate_program_missing_halt no_halt_program).1 (by decide),
   (validate_program_missing_halt loop_program).2.1 (by decide)⟩

/-- C11: a program with a `div` whose third argument is the text `0` is rejected by
`validate_program`, so no accepted program has such a `div`; the verdict of the validator does
not depend on the variable table, so a divisor that is a variable holding zero is not a reason
to reject; `div r a 0`, `halt` is rejected with the division-by-zero error, and `set z 0`,
`div r a z`, `halt` passes validation. -/
theorem validate_program_literal_zero_divisor (p : program_t) :
    ((∃ inst ∈ p.instructions, inst.op = .OP_DIV ∧ inst.arg 2 = "0".toList) →
      ∃ e, validate_program p = .error e) ∧
    (validate_program p = .ok () →
      ∀ inst ∈ p.instructions, inst.op = .OP_DIV → inst.arg 2 ≠ "0".toList) ∧
    (∀ vars, validate_program { p with vars := vars } = validate_program p) ∧
    parse_program ["div r a 0".toList, "halt".toList] = .ok div_literal_zero_program ∧
    validate_program div_literal_zero_program = .error ⟨1, .division_by_zero, []⟩ ∧
    parse_program ["set z 0".toList, "div r a z".toList, "halt".toList] =
      .ok div_variable_zero_program ∧
    validate_program div_variable_zero_program = .ok () := by
  have hacc : validate_program p = .ok () →
      ∀ inst ∈ p.instructions, inst.op = .OP_DIV → inst.arg 2 ≠ "0".toList := by
    intro h inst hi hop heq
    have hv := validate_instructions_ok p _ (validate_program_ok p h).2.1 inst hi
    simp [validate_instruction, hop, heq] at hv
  refine ⟨?_, hacc, ?_, by decide, by decide, by decide, by decide⟩
  · rintro ⟨inst, hi, hop, heq⟩
    cases hv : validate_program p with
    | error e => exact ⟨e, rfl⟩
    | ok u => exact absurd heq (hacc hv inst hi hop)
  · intro vars
    have hsame : ∀ l, validate_instructions { p with vars := vars } l =
        validate_instructions p l := by
      intro l
      induction l with
      | nil => rfl
      | cons x more ih =>
        simp only [validate_instructions]
        have hx : validate_instruction { p with vars := vars } x = validate_instruction p x :=
          rfl
        rw [hx, ih]
    unfold validate_program
    simp only [hsame]

/-- Witness of C11 on the program `div r a 0`, `halt` and on `set z 0`, `div r a z`, `halt`. -/
theorem validate_program_literal_zero_divisor_witness :
    (∃ e, validate_program div_literal_zero_program = .error e) ∧
    (∀ inst ∈ div_variable_zero_program.instructions,
      inst.op = .OP_DIV → inst.arg 2 ≠ "0".toList) :=
  ⟨(validate_program_literal_zero_divisor div_literal_zero_program).1
      ⟨⟨.OP_DIV, ["r".toList, "a".toList, "0".toList], 1⟩, by decide, rfl, rfl⟩,
   (validate_program_literal_zero_divisor div_variable_zero_program).2.1 (by decide)⟩

/-- C12 (as amended): when the instruction at the program counter is `div d a b` and `b`
resolves to 0, the step never completes: it fails with the runtime division-by-zero error of
that line whenever the table has room for the operands (two free entries suffice), and
otherwise can only abort on the full table; on the division-by-zero failure nothing is output,
the counter stays on the `div`, no name reads differently afterwards (`d` is not written), and
the table is the previous one followed by at most two new entries of value 0 named after the
operands `a` and `b` that a read had to create; further iterations are not run. -/
theorem div_by_zero_step (s : exec_t) (inst : instruction_t)
    (hcur : current_instruction s = some inst) (hop : inst.op = .OP_DIV)
    (hzero : resolved s.program.vars (inst.arg 2) = 0) :
    ((∃ s1, step s = .fail ⟨inst.line_number, .runtime_division_by_zero, []⟩ s1 ∧
        s1.pc = s.pc ∧ s1.out = s.out ∧
        s1.program.instructions = s.program.instructions ∧
        s1.program.labels = s.program.labels ∧
        (∀ m, value_of s1.program.vars m = value_of s.program.vars m) ∧
        ∃ extra, s1.program.vars = s.program.vars ++ extra ∧ extra.length ≤ 2 ∧
          ∀ v ∈ extra, v.value = 0 ∧
            (v.name = (inst.arg 1).take (MAX_TOKEN_LENGTH - 1) ∨
              v.name = (inst.arg 2).take (MAX_TOKEN_LENGTH - 1))) ∨
      (∃ s1, step s = .fail too_many s1 ∧ MAX_VARIABLES ≤ s.program.vars.length + 1)) ∧
    (s.program.vars.length + 2 ≤ MAX_VARIABLES →
      ∃ s1, step s = .fail ⟨inst.line_number, .runtime_division_by_zero, []⟩ s1) ∧
    (∀ k : Nat, run (k + 1) s = step s) := by
  rw [step_current s inst hcur]
  have hrun : ∀ k : Nat, run (k + 1) s = exec_instruction s inst := by
    intro k
    simp only [run, step_current s inst hcur]
    rcases exec_div_cases s inst hop with
      ⟨hne, -⟩ | ⟨-, s1, h1, -⟩ | ⟨s1, h1, -⟩ | ⟨-, hb, -⟩
    · exact absurd hzero hne
    · rw [h1]
    · rw [h1]
    · rw [hzero] at hb; cases hb
  rcases exec_div_cases s inst hop with
    ⟨hne, -⟩ | ⟨-, s1, h1, hrest⟩ | ⟨s1, h1, -, hfull⟩ | ⟨-, hb, -⟩
  · exact absurd hzero hne
  · exact ⟨Or.inl ⟨s1, h1, hrest⟩, fun _ => ⟨s1, h1⟩, hrun⟩
  · refine ⟨Or.inr ⟨s1, h1, hfull hzero⟩, ?_, hrun⟩
    intro hroom
    have := hfull hzero
    omega
  · rw [hzero] at hb; cases hb

/-- Witness of C12 (as amended): `div r a z` on the table where `z` is 0. -/
theorem div_by_zero_step_witness :
    ∃ s1, step (single_state ⟨.OP_DIV, ["r".toList, "a".toList, "z".toList], 2⟩
        [⟨"z".toList, 0⟩]) = .fail ⟨2, .runtime_division_by_zero, []⟩ s1 :=
  (div_by_zero_step
    (single_state ⟨.OP_DIV, ["r".toList, "a".toList, "z".toList], 2⟩ [⟨"z".toList, 0⟩])
    ⟨.OP_DIV, ["r".toList, "a".toList, "z".toList], 2⟩ (by decide) (by decide)
    (by decide)).2.1 (by decide)

/-- C12, counterexample: in `set z 0`, `div r a z`, `halt` the first instruction leaves the
table with the one entry `z = 0`; the `div` then fails with the runtime division-by-zero
error, and the table it leaves has the second entry `a = 0`. -/
theorem div_by_zero_creates_operand :
    run 1 ⟨div_variable_zero_program, 0, []⟩ =
      .next ⟨{ div_variable_zero_program with vars := [⟨"z".toList, 0⟩] }, 1, []⟩ ∧
    step ⟨{ div_variable_zero_program with vars := [⟨"z".toList, 0⟩] }, 1, []⟩ =
      .fail ⟨2, .runtime_division_by_zero, []⟩
        ⟨{ div_variable_zero_program with vars := [⟨"z".toList, 0⟩, ⟨"a".toList, 0⟩] }, 1, []⟩ ∧
    ([⟨"z".toList, 0⟩, ⟨"a".toList, 0⟩] : List variable_t) ≠ [⟨"z".toList, 0⟩] := by
  refine ⟨by decide, by decide, by decide⟩

/-- C13 (as amended): in every program that `parse_program` produces and `validate_program`
accepts, each argument of each instruction other than `out` passes the identifier check of
the validator: it starts as an integer (a digit, or `-` and a digit, whatever follows), or is
one of the six comparison operators, or is the keyword `goto`, or is a syntactically valid
identifier. Outside the operand positions (second and third argument of `add`, `sub`, `mul`,
`div`, second and fourth of `cmp`) the argument is well formed: an integer literal made of an
optional `-` and digits only, an operator, `goto` or a valid identifier; there, `1foo` does not
occur. The bare word `1foo` on a line is rejected by the tokenizer. -/
theorem validated_arguments_checked (lines : List CStr) (p : program_t)
    (hparse : parse_program lines = .ok p) (hvalid : validate_program p = .ok ())
    (inst : instruction_t) (hmem : inst ∈ p.instructions) (hop : inst.op ≠ .OP_OUT)
    (j : Nat) (hj : j < inst.arg_count) :
    passes_identifier_check (inst.arg j) = true ∧
    (is_operand_position inst.op j = false →
      well_formed_argument (inst.arg j) = true ∧ inst.arg j ≠ "1foo".toList) ∧
    tokenize_line "add x y 1foo".toList 1 =
      .error ⟨1, .invalid_integer_format, "1foo".toList⟩ := by
  have hconf := parse_program_conforms lines p hparse inst hmem
  have hargs := validate_identifiers_ok _ (validate_program_ok p hvalid).2.2.2 inst hmem
  refine ⟨validate_args_ok inst hop 0 _ hargs _ (arg_mem inst j hj), ?_, by decide⟩
  intro hpos
  have hwf := conforms_well_formed inst hconf hop j hj hpos
  refine ⟨hwf, ?_⟩
  intro heq
  rw [heq] at hwf
  revert hwf
  decide

theorem validated_arguments_checked_witness :
    parse_program loop_source = .ok loop_program ∧ validate_program loop_program = .ok () ∧
    (⟨.OP_SET, ["x".toList, "1".toList], 1⟩ : instruction_t) ∈ loop_program.instructions ∧
    opcode_t.OP_SET ≠ .OP_OUT ∧
    1 < (⟨.OP_SET, ["x".toList, "1".toList], 1⟩ : instruction_t).arg_count ∧
    is_operand_position .OP_SET 1 = false ∧
    well_formed_argument "1".toList = true ∧ "1".toList ≠ "1foo".toList :=
  ⟨by decide, by decide, by decide, by decide, by decide, by decide,
    (validated_arguments_checked loop_source loop_program (by decide) (by decide)
      ⟨.OP_SET, ["x".toList, "1".toList], 1⟩ (by decide) (by decide) 1 (by decide)).2.1
      (by decide)⟩

/-- C13, counterexample: the source `add x y "1foo"`, `halt` is parsed and accepted by
`validate_program`, and the third argument of its `add` is the text `1foo`, which is neither a
well-formed integer literal, nor a comparison operator, nor `goto`, nor a valid identifier. -/
theorem quoted_1foo_survives_validation :
    parse_program add_1foo_source = .ok add_1foo_program ∧
    validate_program add_1foo_program = .ok () ∧
    (∃ inst ∈ add_1foo_program.instructions,
      inst.op = .OP_ADD ∧ inst.arg 2 = "1foo".toList) ∧
    is_integer_text "1foo".toList = false ∧
    (string_to_comparison "1foo".toList).isSome = false ∧
    "1foo".toList ≠ "goto".toList ∧
    is_valid_identifier "1foo".toList = false ∧
    well_formed_argument "1foo".toList = false :=
  ⟨by decide, by decide, ⟨⟨.OP_ADD, ["x".toList, "y".toList, "1foo".toList], 1⟩, by decide,
    rfl, rfl⟩, by decide, by decide, by decide, by decide, by decide⟩

/-- C14: for every table with fewer than 256 variables and every name absent from it,
`get_variable_value` returns 0 and appends the one entry (name, 0), leaving the other entries
as they are; a second read of the name returns 0 again and leaves the table unchanged; the
program `out y`, `out y`, `halt` prints `0` twice. A name is the text of an argument of an
instruction, held in a `char[256]`: every caller of `get_variable_value` passes
`inst->args[k]`, so a name has at most 255 characters. -/
theorem get_variable_value_unset (p : program_t) (name : CStr)
    (habs : has_variable p.vars name = false) (hroom : p.vars.length < MAX_VARIABLES)
    (hlen : name.length ≤ 255) :
    get_variable_value p name = .ok (0, { p with vars := p.vars ++ [⟨name, 0⟩] }) ∧
    get_variable_value { p with vars := p.vars ++ [⟨name, 0⟩] } name =
      .ok (0, { p with vars := p.vars ++ [⟨name, 0⟩] }) ∧
    parse_program ["out y".toList, "out y".toList, "halt".toList] = .ok out_twice_program ∧
    validate_program out_twice_program = .ok () ∧
    ∀ k : Nat, execute_program (3 + k) out_twice_program =
      .done ⟨{ out_twice_program with vars := [⟨"y".toList, 0⟩] }, 2, "0\n0\n".toList⟩ := by
  have htake : name.take (MAX_TOKEN_LENGTH - 1) = name := List.take_of_length_le hlen
  have hfind := find_none_of_not_has p.vars name habs
  have hge : ¬ (p.vars.length ≥ MAX_VARIABLES) := by omega
  refine ⟨?_, ?_, by decide, by decide, ?_⟩
  · unfold get_variable_value
    rw [hfind]
    simp only [hge, if_false, htake]
  · unfold get_variable_value
    simp only [List.find?_append, hfind, Option.none_or, List.find?_cons, decide_True]
  · intro k
    exact run_add 3 k _ _ (by decide) (by intro s1 h; cases h)

/-- Witness of C14: reading `y` on the empty table. -/
theorem get_variable_value_unset_witness :
    get_variable_value empty_program "y".toList =
      .ok (0, { empty_program with vars := empty_program.vars ++ [⟨"y".toList, 0⟩] }) :=
  (get_variable_value_unset empty_program "y".toList (by decide) (by decide) (by decide)).1

/-- C15 (as amended): when the instruction at the program counter is `cmp d a OP b` with `OP` one of the
six operators, every step that completes leaves `d` reading 1 if the values of `a` and `b`
(read on the table before the step) are in the relation `OP`, and 0 otherwise, advances the
counter by one, prints nothing and changes the value of no other name; the step completes
whenever the table has three free entries and otherwise can only abort on the full table;
with a = 7 and b = 3, `cmp r a > b` sets r to 1 and `cmp r a < b` sets r to 0. -/
theorem cmp_step (s : exec_t) (inst : instruction_t) (op : comparison_t)
    (hcur : current_instruction s = some inst) (hop : inst.op = .OP_CMP)
    (hc : string_to_comparison (inst.arg 2) = some op)
    (hlen : (inst.arg 0).length ≤ MAX_TOKEN_LENGTH - 1) :
    (∀ s1, step s = .next s1 →
      value_of s1.program.vars (inst.arg 0) =
        comparison_value op (resolved s.program.vars (inst.arg 1))
          (resolved s.program.vars (inst.arg 3)) ∧
      (value_of s1.program.vars (inst.arg 0) = 0 ∨ value_of s1.program.vars (inst.arg 0) = 1) ∧
      s1.pc = s.pc + 1 ∧ s1.out = s.out ∧
      s1.program.instructions = s.program.instructions ∧
      s1.program.labels = s.program.labels ∧
      ∀ m, m ≠ inst.arg 0 → value_of s1.program.vars m = value_of s.program.vars m) ∧
    (s.program.vars.length + 3 ≤ MAX_VARIABLES → ∃ s1, step s = .next s1) ∧
    (∀ e s1, step s = .fail e s1 →
      e = too_many ∧ MAX_VARIABLES ≤ s.program.vars.length + 2) ∧
    (∀ s1, step s ≠ .done s1) ∧
    step (single_state ⟨.OP_CMP, ["r".toList, "a".toList, ">".toList, "b".toList], 1⟩
        [⟨"a".toList, 7⟩, ⟨"b".toList, 3⟩]) =
      .next ⟨⟨[⟨.OP_CMP, ["r".toList, "a".toList, ">".toList, "b".toList], 1⟩],
        [⟨"a".toList, 7⟩, ⟨"b".toList, 3⟩, ⟨"r".toList, 1⟩], []⟩, 1, []⟩ ∧
    step (single_state ⟨.OP_CMP, ["r".toList, "a".toList, "<".toList, "b".toList], 1⟩
        [⟨"a".toList, 7⟩, ⟨"b".toList, 3⟩]) =
      .next ⟨⟨[⟨.OP_CMP, ["r".toList, "a".toList, "<".toList, "b".toList], 1⟩],
        [⟨"a".toList, 7⟩, ⟨"b".toList, 3⟩, ⟨"r".toList, 0⟩], []⟩, 1, []⟩ := by
  rw [step_current s inst hcur]
  have h01 : ∀ a b, comparison_value op a b = 0 ∨ comparison_value op a b = 1 := by
    intro a b
    cases op <;> simp only [comparison_value] <;> split_ifs <;> simp
  refine ⟨?_, ?_, ?_, ?_, by decide, by decide⟩
  · intro s1 h
    rcases exec_cmp_cases s inst hop op hc with ⟨s2, h2, hpc, hout, hi, hl, hval⟩ | ⟨s2, h2, -⟩
    · rw [h2] at h
      cases h
      obtain ⟨hv1, hv2⟩ := hval hlen
      refine ⟨hv1, ?_, hpc, hout, hi, hl, hv2⟩
      rw [hv1]; exact h01 _ _
    · rw [h2] at h; cases h
  · intro hroom
    rcases exec_cmp_cases s inst hop op hc with ⟨s2, h2, -⟩ | ⟨s2, h2, hfull⟩
    · exact ⟨s2, h2⟩
    · omega
  · intro e s1 h
    rcases exec_cmp_cases s inst hop op hc with ⟨s2, h2, -⟩ | ⟨s2, h2, hfull⟩
    · rw [h2] at h; cases h
    · rw [h2] at h; cases h; exact ⟨rfl, hfull⟩
  · intro s1 h
    rcases exec_cmp_cases s inst hop op hc with ⟨s2, h2, -⟩ | ⟨s2, h2, -⟩
    · rw [h2] at h; cases h
    · rw [h2] at h; cases h

/-- Witness of C15 (as amended): `cmp r a >= b` with a = 7 and b = 3 completes. -/
theorem cmp_step_witness :
    ∃ s1, step (single_state ⟨.OP_CMP, ["r".toList, "a".toList, ">=".toList, "b".toList], 1⟩
        [⟨"a".toList, 7⟩, ⟨"b".toList, 3⟩]) = .next s1 :=
  (cmp_step
    (single_state ⟨.OP_CMP, ["r".toList, "a".toList, ">=".toList, "b".toList], 1⟩
      [⟨"a".toList, 7⟩, ⟨"b".toList, 3⟩])
    ⟨.OP_CMP, ["r".toList, "a".toList, ">=".toList, "b".toList], 1⟩ .CMP_GE
    (by decide) (by decide) (by decide) (by decide)).2.1 (by decide)


set_option maxRecDepth 1000000 in
/-- C15, counterexample: on a table that already holds 256 variables, the step of
`cmp r a > b` with `a` not yet in the table stores nothing in `r` and does not advance: the
read of `a` finds no room and the run aborts with the too-many-variables error. -/
theorem cmp_step_full_table :
    has_variable full_table "a".toList = false ∧ full_table.length = MAX_VARIABLES ∧
    step (single_state ⟨.OP_CMP, ["r".toList, "a".toList, ">".toList, "b".toList], 1⟩
        full_table) =
      .fail too_many
        (single_state ⟨.OP_CMP, ["r".toList, "a".toList, ">".toList, "b".toList], 1⟩
          full_table) := by
  refine ⟨by decide, by decide, by decide⟩

/-- C17 (as amended): value resolution. For every argument text that begins with a digit, or
with `-` followed by a digit, `resolve_value` returns `parse_integer` of the text and leaves
the program record as it is: for a well-formed integer text (optional `-`, then digits only)
this is the value of the decimal text clamped to the 64-bit range, hence exactly that value
when it lies between `INT64_MIN` and `INT64_MAX`, and for any other such text it is
`INT64_MIN`. Every Integer token the tokenizer returns is resolved to the clamped value of its
text. For every other argument text `resolve_value` is the variable lookup: the current value
and no change when the variable is present; 0 and a new entry, named by the first 255
characters of the text, with value 0 when it is absent and the table has fewer than
`MAX_VARIABLES` entries; the too-many-variables failure when it is absent and the table is
full. -/
theorem resolve_value_cases (p : program_t) (arg : CStr) :
    (starts_integer arg = true →
      resolve_value p arg = .ok (parse_integer arg, p) ∧
      (is_integer_text arg = true →
        parse_integer arg = clamp64 (integer_value arg) ∧
        (INT64_MIN ≤ integer_value arg → integer_value arg ≤ INT64_MAX →
          resolve_value p arg = .ok (integer_value arg, p))) ∧
      (is_integer_text arg = false → parse_integer arg = INT64_MIN)) ∧
    (∀ line n tokens t, tokenize_line line n = .ok tokens → t ∈ tokens →
      t.type = .TOKEN_INTEGER →
      resolve_value p t.value = .ok (clamp64 (integer_value t.value), p)) ∧
    (starts_integer arg = false →
      (has_variable p.vars arg = true →
        resolve_value p arg = .ok (value_of p.vars arg, p)) ∧
      (has_variable p.vars arg = false → p.vars.length < MAX_VARIABLES →
        value_of p.vars arg = 0 ∧
        resolve_value p arg =
          .ok (0, { p with vars := p.vars ++ [⟨arg.take (MAX_TOKEN_LENGTH - 1), 0⟩] })) ∧
      (has_variable p.vars arg = false → MAX_VARIABLES ≤ p.vars.length →
        resolve_value p arg = .error too_many)) := by
  refine ⟨?_, ?_, ?_⟩
  · intro hs
    refine ⟨resolve_value_literal p arg hs, ?_, parse_integer_junk arg hs⟩
    intro hi
    refine ⟨parse_integer_integer_text arg hi, ?_⟩
    intro h1 h2
    rw [resolve_value_literal p arg hs, parse_integer_integer_text arg hi,
      clamp64_of_range _ h1 h2]
  · intro line n tokens t ht hm hty
    have hok := (tokenize_line_token_ok line n tokens ht t hm).1.2
    rw [hty] at hok
    simp only at hok
    rw [resolve_value_literal p _ (is_integer_text_starts _ hok),
      parse_integer_integer_text _ hok]
  · intro hs
    rw [resolve_value_variable p arg hs]
    refine ⟨get_variable_value_present p arg, ?_, ?_⟩
    · intro hno hroom
      rw [get_variable_value_absent p arg hno, if_neg (by omega)]
      refine ⟨?_, rfl⟩
      unfold value_of
      rw [find_none_of_not_has _ _ hno]
    · intro hno hfull
      rw [get_variable_value_absent p arg hno, if_pos hfull]

/-- C17, counterexample: the tokenizer accepts the word `9223372036854775808` as an Integer
token, and `resolve_value` returns 9223372036854775807 for it, not the value of the decimal
text; for the text `1foo`, which begins with a digit, it returns `INT64_MIN`. -/
theorem resolve_value_clamps_integer_token :
    tokenize_line "set x 9223372036854775808".toList 1 =
      .ok [⟨.TOKEN_OPCODE, "set".toList, 1⟩, ⟨.TOKEN_IDENTIFIER, "x".toList, 1⟩,
        ⟨.TOKEN_INTEGER, "9223372036854775808".toList, 1⟩] ∧
    integer_value "9223372036854775808".toList = 9223372036854775808 ∧
    resolve_value empty_program "9223372036854775808".toList =
      .ok (9223372036854775807, empty_program) ∧
    starts_integer "1foo".toList = true ∧
    resolve_value empty_program "1foo".toList = .ok (-9223372036854775808, empty_program) := by
  refine ⟨by decide, by decide, by decide, by decide, by decide⟩

/-- C18 (as amended): one step of `if c goto L` reads the variable `c`, creating it with value
0 when it is absent and the table has room (on a full table the run aborts instead); when it
completes, the counter is the index that `find_label` gives for `L` if the value of `c` is
not zero and `L` is in the label table, and the counter plus one if the value is zero; with a
non-zero value and no entry for `L` the step fails with the undefined-label error. One step
of `goto L` sets the counter to the index of `L`, or fails with the undefined-label error when
`L` has no entry; one step of `label` adds one to the counter. None of the three changes the
value of any name or prints anything. -/
theorem jump_step (s : exec_t) (inst : instruction_t)
    (hcur : current_instruction s = some inst) :
    (inst.op = .OP_IF →
      (∀ s1, step s = .next s1 →
        s1.pc = (if value_of s.program.vars (inst.arg 0) ≠ 0
          then find_label s.program (inst.arg 2) else s.pc + 1) ∧
        s1.out = s.out ∧ s1.program.instructions = s.program.instructions ∧
        s1.program.labels = s.program.labels ∧
        (∀ m, value_of s1.program.vars m = value_of s.program.vars m) ∧
        (s1.program = s.program ∨ has_variable s.program.vars (inst.arg 0) = false ∧
          s1.program.vars =
            s.program.vars ++ [⟨(inst.arg 0).take (MAX_TOKEN_LENGTH - 1), 0⟩])) ∧
      ((has_variable s.program.vars (inst.arg 0) = true ∨
          s.program.vars.length < MAX_VARIABLES) →
        (value_of s.program.vars (inst.arg 0) = 0 ∨ find_label s.program (inst.arg 2) ≠ -1) →
        ∃ s1, step s = .next s1) ∧
      (∀ e s1, step s = .fail e s1 →
        (e = too_many ∧ has_variable s.program.vars (inst.arg 0) = false ∧
          MAX_VARIABLES ≤ s.program.vars.length) ∨
        (e = ⟨inst.line_number, .undefined_label, inst.arg 2⟩ ∧
          value_of s.program.vars (inst.arg 0) ≠ 0 ∧
          find_label s.program (inst.arg 2) = -1)) ∧
      (∀ s1, step s ≠ .done s1)) ∧
    (inst.op = .OP_GOTO →
      step s =
        if find_label s.program (inst.arg 0) = -1 then
          .fail ⟨inst.line_number, .undefined_label, inst.arg 0⟩ s
        else .next { s with pc := find_label s.program (inst.arg 0) }) ∧
    (inst.op = .OP_LABEL → step s = .next { s with pc := s.pc + 1 }) := by
  rw [step_current s inst hcur]
  refine ⟨?_, exec_goto_eq s inst, exec_label_eq s inst⟩
  intro hop
  rcases exec_if_cases s inst hop with ⟨p1, hg, hi, hl, hv, hx, heq⟩ | ⟨heq, hno, hfull⟩
  · rw [heq]
    refine ⟨?_, ?_, ?_, ?_⟩
    · intro s1 h
      by_cases hc : value_of s.program.vars (inst.arg 0) ≠ 0
      · rw [if_pos hc] at h ⊢
        by_cases hf : find_label s.program (inst.arg 2) = -1
        · rw [if_pos hf] at h; cases h
        · rw [if_neg hf] at h
          cases h
          exact ⟨rfl, rfl, hi, hl, hv, hx⟩
      · rw [if_neg hc] at h ⊢
        cases h
        exact ⟨rfl, rfl, hi, hl, hv, hx⟩
    · intro _ hok
      by_cases hc : value_of s.program.vars (inst.arg 0) ≠ 0
      · rw [if_pos hc]
        rcases hok with h0 | hf
        · exact absurd h0 hc
        · rw [if_neg hf]; exact ⟨_, rfl⟩
      · rw [if_neg hc]; exact ⟨_, rfl⟩
    · intro e s1 h
      right
      by_cases hc : value_of s.program.vars (inst.arg 0) ≠ 0
      · rw [if_pos hc] at h
        by_cases hf : find_label s.program (inst.arg 2) = -1
        · rw [if_pos hf] at h; cases h; exact ⟨rfl, hc, hf⟩
        · rw [if_neg hf] at h; cases h
      · rw [if_neg hc] at h; cases h
    · intro s1 h
      by_cases hc : value_of s.program.vars (inst.arg 0) ≠ 0
      · rw [if_pos hc] at h
        by_cases hf : find_label s.program (inst.arg 2) = -1
        · rw [if_pos hf] at h; cases h
        · rw [if_neg hf] at h; cases h
      · rw [if_neg hc] at h; cases h
  · rw [heq]
    refine ⟨?_, ?_, ?_, ?_⟩
    · intro s1 h; cases h
    · intro hroom _
      rcases hroom with h | h
      · rw [hno] at h; cases h
      · omega
    · intro e s1 h
      cases h
      exact Or.inl ⟨rfl, hno, hfull⟩
    · intro s1 h; cases h

/-- Witness of C18 (as amended): in the counting program with c = 1 the step of
`if c goto top` completes. -/
theorem jump_step_witness :
    ∃ s1, step ⟨{ loop_program with vars := [⟨"c".toList, 1⟩] }, 5, []⟩ = .next s1 :=
  ((jump_step ⟨{ loop_program with vars := [⟨"c".toList, 1⟩] }, 5, []⟩
    ⟨.OP_IF, ["c".toList, "goto".toList, "top".toList], 6⟩ (by decide)).1 rfl).2.1
    (Or.inl (by decide)) (Or.inr (by decide))

set_option maxRecDepth 1000000 in
/-- C18, counterexample: on a table that already holds 256 variables, the step of
`if c goto top` in the counting program, with `c` not yet in the table, does not create `c`
and moves the counter nowhere: the run aborts with the too-many-variables error. -/
theorem if_step_full_table :
    has_variable full_table "c".toList = false ∧ full_table.length = MAX_VARIABLES ∧
    current_instruction ⟨{ loop_program with vars := full_table }, 5, []⟩ =
      some ⟨.OP_IF, ["c".toList, "goto".toList, "top".toList], 6⟩ ∧
    step ⟨{ loop_program with vars := full_table }, 5, []⟩ =
      .fail too_many ⟨{ loop_program with vars := full_table }, 5, []⟩ := by
  refine ⟨by decide, by decide, by decide, by decide⟩

/-- C19: for every program that `parse_program` produces from a source on which the copy
loop never writes over `instruction_count` (fewer than 1024 lines, or no line of more than
five tokens) and that `validate_program` accepts, and every number of iterations of the loop
of `execute_program`: a failure is never the undefined-label, the unknown-instruction or the
invalid-comparison-operator error (nor an access outside the instruction array) but a full
variable table, a division by a zero value, the trap of the division of -2^63 by -1 or the
end of the program without `halt`; the program counter of the state reached is between 0 and
the instruction count, and the instructions and labels are still those of the program; every
`if` and `goto` of the program names a label whose index is that of an existing instruction,
every operator of a `cmp` is one of the six and no opcode is `OP_INVALID`. The counting
program is such a program. On the other sources the bound on the program counter fails: the
source of 1025 lines `goto L`, five `halt`, `label L`, 1016 `halt`, `out a b c d "\x01"`,
`halt` is parsed into the two instructions `goto L`, `halt` with `L` still bound to the index
6, the record is validated, and its first step sets the program counter to 6, above the
instruction count 2; the run then ends with the program-ended-without-halt error. -/
theorem validated_run_safe :
    (∀ lines p, parse_program lines = .ok p → validate_program p = .ok () →
      keeps_count lines → ∀ fuel : Nat,
      (∀ e s, execute_program fuel p = .fail e s →
        e.message ≠ .undefined_label ∧ e.message ≠ .unknown_instruction ∧
        e.message ≠ .invalid_comparison_operator ∧ e.message ≠ .invalid_memory_access ∧
        (e.message = .too_many_variables ∨
          (e.message = .runtime_division_by_zero ∨ e.message = .division_overflow_trap) ∨
          e.message = .program_ended_without_halt) ∧
        0 ≤ s.pc ∧ s.pc ≤ (p.instructions.length : Int)) ∧
      (∀ s, execute_program fuel p = .next s ∨ execute_program fuel p = .done s →
        0 ≤ s.pc ∧ s.pc ≤ (p.instructions.length : Int) ∧
        s.program.instructions = p.instructions ∧ s.program.labels = p.labels) ∧
      (∀ inst ∈ p.instructions,
        inst.op ≠ .OP_INVALID ∧
        (inst.op = .OP_CMP → (string_to_comparison (inst.arg 2)).isSome = true) ∧
        (inst.op = .OP_IF → 0 ≤ find_label p (inst.arg 2) ∧
          find_label p (inst.arg 2) < (p.instructions.length : Int)) ∧
        (inst.op = .OP_GOTO → 0 ≤ find_label p (inst.arg 0) ∧
          find_label p (inst.arg 0) < (p.instructions.length : Int)))) ∧
    (parse_program loop_source = .ok loop_program ∧ validate_program loop_program = .ok () ∧
      keeps_count loop_source) ∧
    (stale_label_source.length = 1025 ∧
      stale_label_source.get? 1023 = some six_token_line ∧
      parse_program stale_label_source = .ok stale_label_program ∧
      validate_program stale_label_program = .ok () ∧
      stale_label_program.instructions.length = 2 ∧
      find_label stale_label_program "L".toList = 6 ∧
      execute_program 1 stale_label_program = .next ⟨stale_label_program, 6, []⟩ ∧
      ∀ k : Nat, execute_program (2 + k) stale_label_program =
        .fail ⟨0, .program_ended_without_halt, []⟩ ⟨stale_label_program, 6, []⟩) := by
  refine ⟨?_, ⟨by decide, by decide, Or.inl (by decide)⟩,
    ⟨stale_label_source_length, stale_label_source_row, parse_stale_label_source, by decide,
      by decide, by decide, by decide, ?_⟩⟩
  · intro lines p hparse hvalid hk fuel
    have hinv := parse_program_invariant lines p hparse hk
    have hsafe : safe_outcome p (execute_program fuel p) :=
      run_safe p hinv hvalid fuel _ ⟨rfl, rfl, le_refl _, Int.ofNat_nonneg _⟩
    refine ⟨?_, ?_, ?_⟩
    · intro e s h
      rw [h] at hsafe
      obtain ⟨hexp, h0, h1⟩ := hsafe
      obtain ⟨a, b, c, d⟩ := expected_failure_ne e hexp
      exact ⟨a, b, c, d, hexp, h0, h1⟩
    · intro s h
      rcases h with h | h
      · rw [h] at hsafe
        exact ⟨hsafe.2.2.1, hsafe.2.2.2, hsafe.1, hsafe.2.1⟩
      · rw [h] at hsafe
        exact ⟨hsafe.2.2.1, hsafe.2.2.2, hsafe.1, hsafe.2.1⟩
    · intro inst hmem
      have hconf := hinv.1 inst hmem
      have hvi := validate_instructions_ok p _ (validate_program_ok p hvalid).2.1 inst hmem
      unfold validate_instruction at hvi
      refine ⟨?_, ?_, ?_, ?_⟩
      · intro hop
        unfold conforms at hconf
        simp [hop] at hconf
      · intro hop
        unfold conforms at hconf
        simp only [hop, Bool.and_eq_true] at hconf
        exact hconf.2
      · intro hop
        simp only [hop] at hvi
        split_ifs at hvi with hf
        exact find_label_in_range p hinv _ hf
      · intro hop
        simp only [hop] at hvi
        split_ifs at hvi with hf
        exact find_label_in_range p hinv _ hf
  · intro k
    exact run_add 2 k _ _ (by decide) (by intro s1 h; cases h)

/-- C20: the instruction ceiling is reached one instruction early. Every program that
`parse_program` returns has at most 1023 instructions (and at most 64 labels): a source of
1024 lines `halt` is rejected at line 1024 with the program-too-long error, although its
instruction count, 1024, does not exceed `MAX_LINES`, while 1023 such lines are accepted and
give 1023 `halt` instructions. The label ceiling is as claimed: 64 lines `label a` are
accepted and give 64 labels, and the 65th label line is rejected with the too-many-labels
error. -/
theorem parse_program_rejects_instruction_1024 :
    (∀ lines p, parse_program lines = .ok p →
      p.instructions.length ≤ 1023 ∧ p.labels.length ≤ 64) ∧
    MAX_LINES = 1024 ∧ MAX_LABELS = 64 ∧
    parse_program (halt_lines 1024) = .error ⟨1024, .program_too_long, []⟩ ∧
    (∃ p, parse_program (halt_lines 1023) = .ok p ∧ p.instructions.length = 1023 ∧
      (∀ inst ∈ p.instructions, inst.op = .OP_HALT) ∧ p.labels = []) ∧
    (∃ p, parse_program (label_lines 64) = .ok p ∧ p.instructions.length = 64 ∧
      p.labels.length = 64) ∧
    parse_program (label_lines 65) = .error ⟨65, .too_many_labels, []⟩ := by
  refine ⟨?_, rfl, rfl, ?_, ?_, ?_, ?_⟩
  · intro lines p h
    have hcap := parse_lines_capacity _ lines 0 p h
      ⟨by simp [MAX_LINES], by simp [MAX_LABELS]⟩
    simp only [MAX_LINES, MAX_LABELS] at hcap
    omega
  · have h := parse_lines_halt_full 1024 empty_program 0 rfl (by decide)
    simpa using h
  · obtain ⟨p, h1, h2, h3, h4, -⟩ :=
      parse_lines_halt 1023 empty_program 0 (by simp [empty_program, MAX_LINES])
    refine ⟨p, h1, by simpa [empty_program] using h2, ?_, h4⟩
    intro inst hi
    rcases h3 inst hi with hm | hm
    · cases hm
    · exact hm
  · obtain ⟨p, h1, h2, h3, -⟩ :=
      parse_lines_label 64 empty_program 0 (by simp [empty_program, MAX_LINES])
        (by simp [empty_program, MAX_LABELS])
    exact ⟨p, h1, by simpa [empty_program] using h2, by simpa [empty_program] using h3⟩
  · have h := parse_lines_label_full 65 empty_program 0 (by simp [empty_program, MAX_LINES])
      rfl (by simp [empty_program])
    simpa using h


/-- C21: `is_valid_identifier` returns true for exactly the strings of the pattern
`[A-Za-z_][A-Za-z0-9_]*`, that is, the strings that are not empty, start with an ASCII letter
or the underscore, and have only ASCII letters, digits and underscores after it. `_foo1` is
valid; `1foo` and the empty string are invalid, and so is every string that contains a
character other than these, in particular a space or a punctuation character other than the
underscore. -/
theorem is_valid_identifier_pattern (s : CStr) :
    is_valid_identifier s = matches_identifier_pattern s ∧
    (is_valid_identifier s = true ↔
      ∃ c rest, s = c :: rest ∧ (c ∈ ascii_letters ∨ c = '_') ∧
        ∀ d ∈ rest, d ∈ ascii_letters ∨ d ∈ ascii_digits ∨ d = '_') ∧
    is_valid_identifier "_foo1".toList = true ∧
    is_valid_identifier "1foo".toList = false ∧
    is_valid_identifier [] = false ∧
    (∀ c ∈ s, c ∉ ascii_letters → c ∉ ascii_digits → c ≠ '_' →
      is_valid_identifier s = false) ∧
    (' ' ∈ s → is_valid_identifier s = false) ∧
    (∀ c ∈ s, c ∈ ascii_punctuation → is_valid_identifier s = false) := by
  have hbad : ∀ c ∈ s, c ∉ ascii_letters → c ∉ ascii_digits → c ≠ '_' →
      is_valid_identifier s = false := by
    intro c hc h1 h2 h3
    by_contra hv
    simp only [Bool.not_eq_false] at hv
    rcases is_valid_identifier_mem s hv c hc with h | h | h
    · exact h1 h
    · exact h2 h
    · exact h3 h
  refine ⟨is_valid_identifier_eq_pattern s, is_valid_identifier_iff s, by decide, by decide,
    by decide, hbad, ?_, ?_⟩
  · intro h
    exact hbad ' ' h (by decide) (by decide) (by decide)
  · intro c hc hp
    have hall : ∀ d ∈ ascii_punctuation,
        d ∉ ascii_letters ∧ d ∉ ascii_digits ∧ d ≠ '_' := by decide
    obtain ⟨h1, h2, h3⟩ := hall c hp
    exact hbad c hc h1 h2 h3

/-- C22: literal zero divisors other than the text `0` pass validation. The sources
`div r a 00`, `halt` and `div r a -0`, `halt` are parsed and accepted by `validate_program`;
their divisors are well-formed integer literals of value 0; and the run of each fails on the
`div` of line 1 with the runtime division-by-zero error, after the read of `a` has created it.
For a well-formed integer literal the divisor resolves to 0 exactly when its value is 0, so
only the literal zeros that are not spelled `0` reach the executor. -/
theorem validate_program_misses_zero_literals :
    parse_program ["div r a 00".toList, "halt".toList] = .ok div_double_zero_program ∧
    validate_program div_double_zero_program = .ok () ∧
    is_integer_text "00".toList = true ∧ integer_value "00".toList = 0 ∧
    (∀ k : Nat, execute_program (1 + k) div_double_zero_program =
      .fail ⟨1, .runtime_division_by_zero, []⟩
        ⟨{ div_double_zero_program with vars := [⟨"a".toList, 0⟩] }, 0, []⟩) ∧
    parse_program ["div r a -0".toList, "halt".toList] = .ok div_minus_zero_program ∧
    validate_program div_minus_zero_program = .ok () ∧
    is_integer_text "-0".toList = true ∧ integer_value "-0".toList = 0 ∧
    (∀ k : Nat, execute_program (1 + k) div_minus_zero_program =
      .fail ⟨1, .runtime_division_by_zero, []⟩
        ⟨{ div_minus_zero_program with vars := [⟨"a".toList, 0⟩] }, 0, []⟩) ∧
    (∀ (vars : List variable_t) (arg : CStr), is_integer_text arg = true →
      (resolved vars arg = 0 ↔ integer_value arg = 0)) ∧
    (∀ p, validate_program p = .ok () →
      ∀ inst ∈ p.instructions, inst.op = .OP_DIV → inst.arg 2 ≠ "0".toList) := by
  refine ⟨by decide, by decide, by decide, by decide, ?_, by decide, by decide, by decide,
    by decide, ?_, ?_, ?_⟩
  · intro k
    exact run_add 1 k _ _ (by decide) (by intro s1 h; cases h)
  · intro k
    exact run_add 1 k _ _ (by decide) (by intro s1 h; cases h)
  · intro vars arg h
    rw [resolved_integer_text vars arg h, clamp64_eq_zero]
  · intro p hv inst hmem hop heq
    have hvi := validate_instructions_ok p _ (validate_program_ok p hv).2.1 inst hmem
    unfold validate_instruction at hvi
    simp only [hop, heq, if_true] at hvi
    cases hvi

/-- C23 (as amended): for a string literal whose first word `w` is followed by a delimiter `d`
(space, tab, CR or LF) and then by a text `c1` up to the closing quote, the String token's
text is `w`, one space, and `c1` exactly as it stands in the line: only the one delimiter
character after the first word is replaced by a space, and every later space or tab is kept.
So `"a<TAB>b"` and `"a b c"` yield `a b` and `a b c`, while `"a  b"` (two spaces) yields
`a  b` and `"a b<TAB>c"` yields `a b<TAB>c`. What follows the closing quote is not
tokenized. -/
theorem string_literal_keeps_later_blanks (n : Int) (w : CStr) (d : Char) (c1 post : CStr)
    (hw : ∀ x ∈ w, is_delim x = false) (hqw : '"' ∉ w) (hd : is_delim d = true)
    (hqc : '"' ∉ c1) (hlen : w.length + 1 + c1.length ≤ 255) (hpost : post.length ≤ 512) :
    tokenize_line (out_literal_line (w ++ d :: c1) post) n =
      .ok [⟨.TOKEN_OPCODE, "out".toList, n⟩, ⟨.TOKEN_STRING, w ++ ' ' :: c1, n⟩] ∧
    tokenize_line "out \"a\tb\"".toList 1 =
      .ok [⟨.TOKEN_OPCODE, "out".toList, 1⟩, ⟨.TOKEN_STRING, "a b".toList, 1⟩] ∧
    tokenize_line "out \"a b c\"".toList 1 =
      .ok [⟨.TOKEN_OPCODE, "out".toList, 1⟩, ⟨.TOKEN_STRING, "a b c".toList, 1⟩] ∧
    tokenize_line "out \"a  b\"".toList 1 =
      .ok [⟨.TOKEN_OPCODE, "out".toList, 1⟩, ⟨.TOKEN_STRING, "a  b".toList, 1⟩] ∧
    tokenize_line "out \"a b\tc\"".toList 1 =
      .ok [⟨.TOKEN_OPCODE, "out".toList, 1⟩, ⟨.TOKEN_STRING, "a b\tc".toList, 1⟩] :=
  ⟨tokenize_line_out_multiword n w d c1 post hw hqw hd hqc hlen hpost,
    by decide, by decide, by decide, by decide⟩

/-- Witness of C23 (as amended): the literal `"a  b"` followed by ` x`. -/
theorem string_literal_keeps_later_blanks_witness :
    tokenize_line (out_literal_line ("a".toList ++ ' ' :: " b".toList) " x".toList) 1 =
      .ok [⟨.TOKEN_OPCODE, "out".toList, 1⟩,
        ⟨.TOKEN_STRING, "a".toList ++ ' ' :: " b".toList, 1⟩] :=
  (string_literal_keeps_later_blanks 1 "a".toList ' ' " b".toList " x".toList (by decide)
    (by decide) (by decide) (by decide) (by decide) (by decide)).1

/-- C23, counterexample: the literals `"a  b"` (two spaces) and `"a b<TAB>c"` are terminated
and span several words; their words joined by single spaces are `a b` and `a b c`, but the
String tokens carry `a  b` and `a b<TAB>c`. -/
theorem string_literal_not_normalised :
    tokenize_line "out \"a  b\"".toList 1 =
      .ok [⟨.TOKEN_OPCODE, "out".toList, 1⟩, ⟨.TOKEN_STRING, "a  b".toList, 1⟩] ∧
    single_spaced "a  b".toList = "a b".toList ∧ "a  b".toList ≠ "a b".toList ∧
    tokenize_line "out \"a b\tc\"".toList 1 =
      .ok [⟨.TOKEN_OPCODE, "out".toList, 1⟩, ⟨.TOKEN_STRING, "a b\tc".toList, 1⟩] ∧
    single_spaced "a b\tc".toList = "a b c".toList ∧ "a b\tc".toList ≠ "a b c".toList := by
  refine ⟨by decide, by decide, by decide, by decide, by decide, by decide⟩

/-- C24: the variable store is a finite map keyed by name. A name is the text of an argument
of an instruction, held in a `char[256]` (every caller passes `inst->args[k]`), so it has at
most 255 characters. Starting from the empty store, every sequence of `get_variable_value` and
`set_variable_value` calls on such names that uses at most 256 distinct names (in particular
fewer than 256) runs without failure, and at each call `c` of the sequence, from the table
`p` before it to the table `p1` after it: no two entries of `p1` share a name; the names of `p1` are those of `p`, in the
same order, followed by the name of `c` when it was absent (no entry is removed); the value of
every name other than that of `c` is unchanged; after `set n v` a read of `n` returns `v` and
changes nothing; a read of `n` returns the value `n` had, keeps it, and a second read returns
it again and changes nothing. -/
theorem store_is_finite_map (calls : List store_call) (c : store_call)
    (hlen : ∀ x ∈ calls ++ [c], x.name.length ≤ MAX_TOKEN_LENGTH - 1)
    (hcount : ((calls ++ [c]).map store_call.name).dedup.length ≤ MAX_VARIABLES) :
    ∃ p p1, apply_calls empty_program calls = .ok p ∧ apply_call p c = .ok p1 ∧
      apply_calls empty_program (calls ++ [c]) = .ok p1 ∧
      (variable_names p).Nodup ∧ (variable_names p1).Nodup ∧
      (∀ x ∈ variable_names p1, x ∈ (calls ++ [c]).map store_call.name) ∧
      variable_names p1 =
        variable_names p ++ (if has_variable p.vars c.name then [] else [c.name]) ∧
      (∀ m, m ≠ c.name → value_of p1.vars m = value_of p.vars m) ∧
      (∀ n v, c = .set n v → get_variable_value p1 n = .ok (v, p1)) ∧
      (∀ n, c = .get n → get_variable_value p n = .ok (value_of p.vars n, p1) ∧
        value_of p1.vars n = value_of p.vars n ∧
        get_variable_value p1 n = .ok (value_of p.vars n, p1)) := by
  have hcount0 : ([] ++ calls.map store_call.name).dedup.length ≤ MAX_VARIABLES := by
    have hsub : (calls.map store_call.name).dedup ⊆
        ((calls ++ [c]).map store_call.name).dedup := by
      intro x hx
      rw [List.mem_dedup] at hx ⊢
      rw [List.map_append]
      exact List.mem_append_left _ hx
    have := (List.subperm_of_subset (List.nodup_dedup _) hsub).length_le
    simp only [List.nil_append]
    omega
  obtain ⟨p, hp, hnd, hsub, -⟩ := apply_calls_map calls empty_program [] List.nodup_nil
    (by intro x hx; cases hx) (fun x hx => hlen x (List.mem_append_left _ hx)) hcount0
  have hroom := call_has_room p c.name ((calls ++ [c]).map store_call.name) hnd
    (by
      intro x hx
      have := hsub x hx
      simp only [List.nil_append] at this
      rw [List.map_append]
      exact List.mem_append_left _ this)
    (by simp) hcount
  obtain ⟨p1, h1, hnd1, hnames, hother, hset, hget⟩ :=
    apply_call_map p c hnd (hlen c (by simp)) hroom
  refine ⟨p, p1, hp, h1, ?_, hnd, hnd1, ?_, hnames, hother, hset, hget⟩
  · rw [apply_calls_append calls [c] empty_program p hp]
    simp only [apply_calls, h1]
  · intro x hx
    rw [hnames] at hx
    rw [List.map_append]
    rcases List.mem_append.mp hx with hx | hx
    · have := hsub x hx
      simp only [List.nil_append] at this
      exact List.mem_append_left _ this
    · split_ifs at hx
      · cases hx
      · simp only [List.mem_singleton] at hx
        simp [hx]

/-- Witness of C24: after `set x 5`, `get y`, the call `set x 7`. -/
theorem store_is_finite_map_witness :
    ∃ p p1, apply_calls empty_program [.set "x".toList 5, .get "y".toList] = .ok p ∧
      apply_call p (.set "x".toList 7) = .ok p1 ∧
      get_variable_value p1 "x".toList = .ok (7, p1) :=
  have h := store_is_finite_map [.set "x".toList 5, .get "y".toList] (.set "x".toList 7)
    (by decide) (by decide)
  match h with
  | ⟨p, p1, h1, h2, _, _, _, _, _, _, h9, _⟩ => ⟨p, p1, h1, h2, h9 "x".toList 7 rfl⟩

/-- C25 (as amended): for every program that `parse_program` produces and `validate_program`
accepts, and every number of iterations of the loop of `execute_program`, every variable name
in the table of the state reached is a syntactically valid identifier or one of the six
comparison operators `== != < <= > >=`; the table of the parsed program is empty. No other
text, and no string payload that is not an identifier, is materialised as a variable. -/
theorem validated_run_names (lines : List CStr) (p : program_t)
    (hparse : parse_program lines = .ok p) (hvalid : validate_program p = .ok ())
    (fuel : Nat) :
    p.vars = [] ∧
    ∀ v ∈ (execute_program fuel p).state.program.vars,
      is_valid_identifier v.name = true ∨ (string_to_comparison v.name).isSome = true := by
  have hconf := parse_program_conforms lines p hparse
  have hvars : p.vars = [] := parse_lines_vars _ lines 0 p hparse
  refine ⟨hvars, ?_⟩
  intro v hv
  have hn := run_names p hconf hvalid fuel ⟨p, 0, []⟩ rfl
    (by
      intro w hw
      rw [show (⟨p, 0, []⟩ : exec_t).program.vars = p.vars from rfl, hvars] at hw
      cases hw)
  have := hn v hv
  unfold name_ok at this
  simpa using this

/-- Witness of C25 (as amended): the counting program after nine iterations. -/
theorem validated_run_names_witness :
    parse_program loop_source = .ok loop_program ∧ validate_program loop_program = .ok () ∧
    ∀ v ∈ (execute_program 9 loop_program).state.program.vars,
      is_valid_identifier v.name = true ∨ (string_to_comparison v.name).isSome = true :=
  ⟨by decide, by decide,
    (validated_run_names loop_source loop_program (by decide) (by decide) 9).2⟩

/-- C25, counterexample: the source `add x y ==`, `halt` is parsed and accepted by
`validate_program`; its run reaches `halt` with the variables `y`, `==` and `x` in the table,
and `==` is not a valid identifier. -/
theorem run_creates_operator_variable :
    parse_program ["add x y ==".toList, "halt".toList] = .ok add_operator_program ∧
    validate_program add_operator_program = .ok () ∧
    execute_program 2 add_operator_program =
      .done ⟨{ add_operator_program with
               vars := [⟨"y".toList, 0⟩, ⟨"==".toList, 0⟩, ⟨"x".toList, 0⟩] }, 1, []⟩ ∧
    is_valid_identifier "==".toList = false := by
  refine ⟨by decide, by decide, by decide, by decide⟩

end Bareword
